import Mathlib

/-!
Verification development for the `conwords-generator` crossword generator.

The JavaScript source (`ConwordsGenerator.js`) is shallowly embedded below.
Conventions used throughout the embedding:

* JS numbers that hold integer values (coordinates, lengths, counters) are
  modelled as `Int` or `Nat`; JS floating point quantities that feed into
  comparisons or division (scores, the `wordsOnBorder` ratio) are modelled
  as `ℚ`.
* `this.random()` / `Math.random()` draws are modelled as an explicit stream
  `Nat → ℚ` of values together with a running position; each JS call
  `Math.floor(random() * n)` becomes `jfloor (r pos) n` and advances the
  position by one.  The real generator (`math-random-seed`) produces values
  in `[0, 1)`; theorems assume that of the stream.
* Grid cells are the JS triples `[letter, partOfVertical, partOfHorizontal]`;
  the letter slot holds a JS string (normally one character, `""` for an
  out-of-range `charAt`), so it is modelled as `String`.
* JS exceptions (reading a property of `undefined`) are modelled with
  `Except String`; any out-of-bounds array element access that the source
  would immediately dereference raises an error in the embedding.
* Deep cloning (`rfdc`) is the identity on immutable values, so cloning
  steps of the source vanish in the embedding.  Mutated matrices in the
  source are always `rfdc` clones, whose cells are independent arrays, so
  cells are modelled as independent values.
-/

namespace Conwords

/-- Kernel-computable embedding of an integer into `ℚ` (the `Int.cast`
instance of Mathlib does not reduce in the kernel). -/
def ratOfInt (n : Int) : ℚ := mkRat n 1

/-- Kernel-computable embedding of a natural number into `ℚ`. -/
def ratOfNat (n : Nat) : ℚ := ratOfInt n

theorem ratOfInt_eq (n : Int) : ratOfInt n = (n : ℚ) := by
  rw [ratOfInt, Rat.mkRat_eq_divInt]
  norm_num

theorem ratOfNat_eq (n : Nat) : ratOfNat n = (n : ℚ) := by
  rw [ratOfNat, ratOfInt_eq]
  norm_num

/-- Kernel-computable product of rationals (`Rat.mul` is `@[irreducible]`,
which blocks `decide`). -/
def ratMul (a b : ℚ) : ℚ := mkRat (a.num * b.num) (a.den * b.den)

theorem ratMul_eq (a b : ℚ) : ratMul a b = a * b := by
  rw [ratMul, Rat.mkRat_eq_divInt]
  conv_rhs => rw [← Rat.num_divInt_den a, ← Rat.num_divInt_den b]
  rw [Rat.divInt_mul_divInt _ _ (Int.natCast_ne_zero.mpr a.den_nz)
    (Int.natCast_ne_zero.mpr b.den_nz)]
  norm_num

/-- Kernel-computable quotient of rationals; like JS division except that a
zero divisor yields 0 rather than an infinity (both sides of every use are
guarded away from that case in the theorems below). -/
def ratDiv (a b : ℚ) : ℚ := Rat.divInt (a.num * b.den) (a.den * b.num)

theorem ratDiv_eq (a b : ℚ) : ratDiv a b = a / b := by
  rcases eq_or_ne b 0 with rfl | hb
  · simp [ratDiv]
  · have hbn : b.num ≠ 0 := Rat.num_ne_zero.mpr hb
    rw [ratDiv, div_eq_mul_inv, Rat.inv_def']
    conv_rhs => rw [← Rat.num_divInt_den a]
    rw [Rat.divInt_mul_divInt _ _ (Int.natCast_ne_zero.mpr a.den_nz) hbn]

/-- JS `Math.floor(q * n)` for a random draw `q` and an integer scale `n`
(kernel-computable). -/
def jfloor (q : ℚ) (n : Int) : Int := (ratMul q (ratOfInt n)).floor

theorem jfloor_eq_floor (q : ℚ) (n : Int) : jfloor q n = ⌊q * (n : ℚ)⌋ := by
  rw [jfloor, ratMul_eq, ratOfInt_eq, Rat.floor_def, Rat.floor_def']

/-- Coercion of an integer to a 32-bit two's complement value, as performed by
the JS bitwise operators (`ToInt32`). -/
def toInt32 (n : Int) : Int := (n + 2147483648) % 4294967296 - 2147483648

/-- JS `s.charAt(i)`: the one-character string at index `i`, or `""` when the
index is out of range. -/
def charAt (s : String) (i : Nat) : String :=
  match s.toList.get? i with
  | some c => String.singleton c
  | none => ""

/-- JS `item.match(/\s+/) !== null`: the string contains whitespace. -/
def hasSpace (s : String) : Bool := s.toList.any Char.isWhitespace

/-- The character class of the dictionary word pattern `[A-Z0-9ÁÉÍÓÚÜÑ]`. -/
def upperChars : List Char := "ABCDEFGHIJKLMNOPQRSTUVWXYZ0123456789ÁÉÍÓÚÜÑ".toList

/-- Membership in the word pattern character class. -/
def isWordChar (c : Char) : Bool := upperChars.contains c

/-- JS `word.match(/[A-Z0-9ÁÉÍÓÚÜÑ]+/)` with `match[0] === word`: the first
maximal run of class characters equals the whole word, i.e. the word is
nonempty and made of class characters only. -/
def isPatternWord (s : String) : Bool := !s.toList.isEmpty && s.toList.all isWordChar

/-- First index of `s` in `l` (JS `indexOf`, as an `Option`). -/
def firstIdx : List String → String → Option Nat
  | [], _ => none
  | a :: t, s => if a = s then some 0 else (firstIdx t s).map (· + 1)

/-- `#normalizeLetter`: strips the accent of a lower-case vowel.  The source
chains six `String.replace` calls; its only call site passes the `charAt` of a
word (a string of at most one character), on which the chain coincides with
this case split. -/
def normalizeLetter (l : String) : String :=
  if l = "á" then "a"
  else if l = "é" then "e"
  else if l = "í" then "i"
  else if l = "ó" then "o"
  else if l = "ú" then "u"
  else if l = "ü" then "u"
  else l

/-- `#hashCode`: the rolling 32-bit string hash
`hash = (hash << 5) - hash + charCode; hash = hash & hash`. -/
def hashCode (s : String) : Int :=
  s.toList.foldl (fun h c => toInt32 (toInt32 (h * 32) - h + c.toNat)) 0

section SortDesc

variable {α : Type} {β : Type} [LinearOrder β]

/-- Insert `a` into a descending-sorted list, after every element `b` with
`ltb a b` (strictly larger key), so that stable sorting keeps earlier
equal-key elements first.  The comparator is an explicit `Bool` function to
keep the definition kernel-computable at `ℚ`. -/
def insertDesc (ltb : α → α → Bool) (a : α) : List α → List α
  | [] => [a]
  | b :: t => if ltb a b then b :: insertDesc ltb a t else a :: b :: t

/-- Stable insertion sort by descending key: the JS `sort` with comparator
`(a, b) => key b - key a` (V8's sort is stable). -/
def sortDesc (ltb : α → α → Bool) : List α → List α
  | [] => []
  | a :: t => insertDesc ltb a (sortDesc ltb t)

theorem mem_insertDesc (ltb : α → α → Bool) (a x : α) (l : List α) :
    x ∈ insertDesc ltb a l ↔ x = a ∨ x ∈ l := by
  induction l with
  | nil => simp [insertDesc]
  | cons b t ih =>
      by_cases h : ltb a b
      · simp only [insertDesc, if_pos h, List.mem_cons, ih]
        tauto
      · simp only [insertDesc, if_neg h, List.mem_cons]

theorem mem_sortDesc (ltb : α → α → Bool) (x : α) (l : List α) :
    x ∈ sortDesc ltb l ↔ x ∈ l := by
  induction l with
  | nil => simp [sortDesc]
  | cons a t ih => simp [sortDesc, mem_insertDesc, ih]

theorem perm_insertDesc (ltb : α → α → Bool) (a : α) (l : List α) :
    (insertDesc ltb a l).Perm (a :: l) := by
  induction l with
  | nil => exact List.Perm.refl _
  | cons b t ih =>
      by_cases h : ltb a b
      · rw [insertDesc, if_pos h]
        exact (ih.cons b).trans (List.Perm.swap a b t)
      · rw [insertDesc, if_neg h]

theorem perm_sortDesc (ltb : α → α → Bool) (l : List α) :
    (sortDesc ltb l).Perm l := by
  induction l with
  | nil => exact List.Perm.refl _
  | cons a t ih => exact (perm_insertDesc ltb a _).trans (ih.cons a)

/-- The comparator used everywhere below: `decide (key a < key b)`. -/
def keyLt (key : α → β) (a b : α) : Bool := decide (key a < key b)

theorem pairwise_insertDesc (key : α → β) (a : α) (l : List α)
    (h : l.Pairwise (fun x y => key y ≤ key x)) :
    (insertDesc (keyLt key) a l).Pairwise (fun x y => key y ≤ key x) := by
  induction l with
  | nil => simp [insertDesc]
  | cons b t ih =>
      rcases List.pairwise_cons.mp h with ⟨hb, ht⟩
      by_cases hab : key a < key b
      · rw [insertDesc, if_pos (by simpa [keyLt] using hab)]
        refine List.pairwise_cons.mpr ⟨?_, ih ht⟩
        intro x hx
        rcases (mem_insertDesc (keyLt key) a x t).mp hx with rfl | hx
        · exact le_of_lt hab
        · exact hb x hx
      · rw [insertDesc, if_neg (by simpa [keyLt] using hab)]
        refine List.pairwise_cons.mpr ⟨?_, h⟩
        intro x hx
        rcases List.mem_cons.mp hx with rfl | hx
        · exact le_of_not_lt hab
        · exact le_trans (hb x hx) (le_of_not_lt hab)

theorem pairwise_sortDesc (key : α → β) (l : List α) :
    (sortDesc (keyLt key) l).Pairwise (fun x y => key y ≤ key x) := by
  induction l with
  | nil => simp [sortDesc]
  | cons a t ih => exact pairwise_insertDesc key a _ ih

end SortDesc

/-! ### Association-list helpers (JS `Map` / plain-object lookup tables) -/

/-- Lookup in an association list with `Nat` keys (JS `Map.get`). -/
def alistGet {α : Type} : List (Nat × α) → Nat → Option α
  | [], _ => none
  | p :: t, k => if p.1 = k then some p.2 else alistGet t k

/-- Update-or-append in an association list with `Nat` keys (JS `Map.set`). -/
def alistSet {α : Type} (m : List (Nat × α)) (k : Nat) (v : α) : List (Nat × α) :=
  if m.any (fun p => p.1 = k) then
    m.map (fun p => if p.1 = k then (k, v) else p)
  else m ++ [(k, v)]

/-- Lookup in an association list with `String` keys. -/
def alistGetS {α : Type} : List (String × α) → String → Option α
  | [], _ => none
  | p :: t, k => if p.1 = k then some p.2 else alistGetS t k

/-- Update-or-append in an association list with `String` keys. -/
def alistSetS {α : Type} (m : List (String × α)) (k : String) (v : α) : List (String × α) :=
  if m.any (fun p => p.1 = k) then
    m.map (fun p => if p.1 = k then (k, v) else p)
  else m ++ [(k, v)]

/-- Lookup in the letter index, keyed by the JS string `"" + i + char`
(position and one-character string; the decimal-prefix keys are in bijection
with these pairs). -/
def lettersGet : List ((Nat × String) × List Nat) → (Nat × String) →
    Option (List Nat)
  | [], _ => none
  | p :: t, k => if p.1 = k then some p.2 else lettersGet t k

/-- Append `idx` to the letter-index entry at `k`, creating the entry if
missing (JS `letters[letter].push(idx)` after the `undefined` check). -/
def lettersAdd (m : List ((Nat × String) × List Nat)) (k : Nat × String)
    (idx : Nat) : List ((Nat × String) × List Nat) :=
  if m.any (fun p => p.1 = k) then
    m.map (fun p => if p.1 = k then (p.1, p.2 ++ [idx]) else p)
  else m ++ [(k, [idx])]

/-! ### `compile`: dictionary compilation -/

/-- The result of `ConwordsGenerator.compile`. -/
structure Compilation where
  words : List String
  phrases : List String
  /-- `letters`: word ids keyed by (position, one-character string). -/
  letters : List ((Nat × String) × List Nat)
  /-- `lengths`: word ids bucketed by exact length; index = length. -/
  lengths : List (List Nat)
  /-- `questions`: per word id, the cross-reference group `[[word ids],
  [phrase ids]]` from `groupMap`, or `undefined`. -/
  questions : List (Option (List Nat × List Nat))
deriving DecidableEq, Repr

/-- State threaded through the first `compile` loop. -/
structure P1State where
  words : List String
  phrases : List String
  groupMap : List (Nat × (List Nat × List Nat))
deriving Repr

/-- Per-line scratch state of the first `compile` loop. -/
structure LineState where
  words : List String
  phrases : List String
  set1 : List String
  set2 : List String
  idxMap : List (String × Nat)
deriving Repr

/-- One `line.forEach` step of `compile`: route the item to `words` (no
whitespace) or `phrases`, deduplicating by `indexOf`, and record its id in
`idxMap`; items of length ≤ 1 are discarded. -/
def processItem (st : LineState) (item : String) : LineState :=
  if item.length > 1 then
    if !hasSpace item then
      match firstIdx st.words item with
      | some idx => { st with set1 := st.set1 ++ [item], idxMap := alistSetS st.idxMap item idx }
      | none =>
          { st with
            words := st.words ++ [item]
            set1 := st.set1 ++ [item]
            idxMap := alistSetS st.idxMap item st.words.length }
    else
      match firstIdx st.phrases item with
      | some idx => { st with set2 := st.set2 ++ [item], idxMap := alistSetS st.idxMap item idx }
      | none =>
          { st with
            phrases := st.phrases ++ [item]
            set2 := st.set2 ++ [item]
            idxMap := alistSetS st.idxMap item st.phrases.length }
  else st

/-- One line of the first `compile` loop, including the cross-reference
(`groupMap`) bookkeeping.  Every member of `set1`/`set2` is an `idxMap` key,
so the `getD 0` defaults are never taken. -/
def processLine (st : P1State) (line : List String) : P1State :=
  let ls : LineState := line.foldl processItem ⟨st.words, st.phrases, [], [], []⟩
  let gm :=
    if ls.set1.length > 0 ∧ ls.set1.length + ls.set2.length > 1 then
      ls.set1.foldl
        (fun gm item =>
          let itemIdx := (alistGetS ls.idxMap item).getD 0
          let gi := (alistGet gm itemIdx).getD ([], [])
          let gi0 := gi.1 ++ (ls.set1.filter (· ≠ item)).map
            (fun item2 => (alistGetS ls.idxMap item2).getD 0)
          let gi1 := gi.2 ++ ls.set2.map (fun item2 => (alistGetS ls.idxMap item2).getD 0)
          alistSet gm itemIdx (gi0, gi1))
        st.groupMap
    else st.groupMap
  ⟨ls.words, ls.phrases, gm⟩

/-- Extend the `lengths` array so that index `n` exists, filling the missing
slots with fresh empty buckets (the inner `for (let i = 0; i <= length; i++)`
loop). -/
def padLengths (ls : List (List Nat)) (n : Nat) : List (List Nat) :=
  if ls.length ≤ n then ls ++ List.replicate (n + 1 - ls.length) [] else ls

/-- `lengths[n].push(idx)`. -/
def pushAt (ls : List (List Nat)) (n : Nat) (idx : Nat) : List (List Nat) :=
  ls.set n (((ls.get? n).getD []) ++ [idx])

/-- State of the second `compile` loop (`lengths` and `letters`). -/
structure P2State where
  lengths : List (List Nat)
  letters : List ((Nat × String) × List Nat)
deriving Repr

/-- One `words.forEach` step of the second `compile` loop: a word that fully
matches the pattern and has length > 1 is indexed by length and by each
(position, letter) pair. -/
def compileWord (st : P2State) (idx : Nat) (word : String) : P2State :=
  if isPatternWord word ∧ word.length > 1 then
    let ls := pushAt (padLengths st.lengths word.length) word.length idx
    let lt := (List.range word.length).foldl
      (fun lt i => lettersAdd lt (i, charAt word i) idx) st.letters
    ⟨ls, lt⟩
  else st

/-- The second `compile` loop (`words.forEach((word, idx) => ...)`), with the
running index explicit. -/
def phase2Go : Nat → List String → P2State → P2State
  | _, [], st => st
  | i, w :: t, st => phase2Go (i + 1) t (compileWord st i w)

/-- The second `compile` loop over all accepted words. -/
def phase2 (ws : List String) : P2State :=
  phase2Go 0 ws ⟨[], []⟩

/-- `ConwordsGenerator.compile` (the progress callback and its `delay` have no
effect on the result and are omitted). -/
def compile (dictionaries : List (List (List String))) : Compilation :=
  let data := dictionaries.flatten
  let st1 := data.foldl processLine ⟨[], [], []⟩
  let p2 := phase2 st1.words
  { words := st1.words
    phrases := st1.phrases
    letters := p2.letters
    lengths := p2.lengths
    questions := (List.range st1.words.length).map (alistGet st1.groupMap) }

/-- `compilation.lengths[n]` for a possibly negative JS index. -/
def Compilation.bucket (c : Compilation) (n : Int) : Option (List Nat) :=
  if n < 0 then none else c.lengths.get? n.toNat

/-- `compilation.letters[key]`. -/
def Compilation.lettersAt (c : Compilation) (k : Nat × String) : Option (List Nat) :=
  lettersGet c.letters k

/-! ### The grid data model -/

/-- One grid cell: the JS triple `[letter, partOfVertical, partOfHorizontal]`
(indices 0, 1, 2). -/
structure Cell where
  letter : String
  v : Bool
  h : Bool
deriving DecidableEq, Repr

/-- One `questionsData` entry `{idx, word, horizontal, x, y}` (the JS
`horizontal` number 0/1 is modelled as a `Bool`). -/
structure Question where
  idx : Nat
  word : String
  horizontal : Bool
  x : Int
  y : Int
deriving DecidableEq, Repr

/-- The crossword matrix together with the extra properties the source hangs
on the JS array (`questions`, `questionsData`, `width`, `height`, the search
flags `borde`/`finish`, and the selection-time annotations, which default to
zero before their first assignment). -/
structure Matrix where
  cells : List (List Cell)
  /-- The `questions` `Set` of used word ids, in insertion order. -/
  questions : List Nat
  questionsData : List Question
  width : Nat
  height : Nat
  borde : Bool := false
  finish : Bool := false
  hash : Int := 0
  intersections : Nat := 0
  isolatedWords : Nat := 0
  fillingPercentage : Nat := 0
  score : ℚ := 0
  singlesIdx : List Question := []
deriving DecidableEq, Repr

/-- The generator options (static defaults of `ConwordsGenerator.options`). -/
structure Options where
  compilation : Compilation
  width : Nat := 24
  height : Nat := 22
  emptySpace : String := "·"
  wordsPerIteration : Nat := 2
  solutionsPerIteration : Nat := 33
  selectedSolutions : Nat := 22
  wordsOnBorder : ℚ := 9 / 10
  minimumLengthFactor : ℚ := 1
  finishAt : Nat := 600
  scoreFunction : ℚ → ℚ → ℚ → ℚ :=
    fun filled crosses singles => (filled * 4 + 2 * crosses) / (1 + singles * 4)

/-- `generate`: the empty matrix.  Seeding (`this.seed`, `this.random`) is
modelled by the explicit random stream passed to the operations; the aliasing
of the shared `fill` cell array is immaterial because every mutated matrix in
the source is an `rfdc` clone with independent cells. -/
def generate (o : Options) : Matrix :=
  { cells := List.replicate o.height (List.replicate o.width ⟨o.emptySpace, false, false⟩)
    questions := []
    questionsData := []
    width := o.width
    height := o.height }

/-- `matrix[y][x]` when both indices are in range. -/
def Matrix.cell? (m : Matrix) (y x : Int) : Option Cell :=
  if y < 0 ∨ x < 0 then none
  else
    match m.cells.get? y.toNat with
    | some row => row.get? x.toNat
    | none => none

/-- Reading a component of `matrix[y][x]`: out of range, the source
dereferences `undefined` and throws. -/
def getCell (m : Matrix) (y x : Int) : Except String Cell :=
  match m.cell? y x with
  | some c => .ok c
  | none => .error "TypeError: cell access out of range"

/-- Writing a component of `matrix[y][x]`; the same out-of-range behaviour. -/
def setCell (m : Matrix) (y x : Int) (f : Cell → Cell) : Except String Matrix :=
  match m.cell? y x with
  | some c =>
      .ok { m with
        cells := m.cells.set y.toNat
          (((m.cells.get? y.toNat).getD []).set x.toNat (f c)) }
  | none => .error "TypeError: cell write out of range"

/-- `#getPreguntasPorPosicion`: the placements covering coordinate (x, y). -/
def getPreguntasPorPosicion (m : Matrix) (x y : Int) : List Question :=
  m.questionsData.filter (fun q =>
    (q.horizontal && decide (q.x ≤ x) && decide (x < q.x + q.word.length) &&
      decide (q.y = y)) ||
    (!q.horizontal && decide (q.y ≤ y) && decide (y < q.y + q.word.length) &&
      decide (q.x = x)))

/-! ### `#selectSolutions` and its helpers -/

/-- The crossing test of `#getIntersections` between `question1` and
`question2`. -/
def crossesWith (q1 q2 : Question) : Bool :=
  q1.word ≠ q2.word && q1.horizontal ≠ q2.horizontal &&
    (if q1.horizontal then
      decide (q1.x ≤ q2.x) && decide (q2.x < q1.x + q1.word.length) &&
        decide (q2.y ≤ q1.y) && decide (q1.y < q2.y + q2.word.length)
    else
      decide (q1.y ≤ q2.y) && decide (q2.y < q1.y + q1.word.length) &&
        decide (q2.x ≤ q1.x) && decide (q1.x < q2.x + q2.word.length))

/-- `#getIntersections`: (crossing count, isolated count, `singlesIdx`). -/
def getIntersections (m : Matrix) : Nat × Nat × List Question :=
  m.questionsData.foldl
    (fun acc q1 =>
      let sub := (m.questionsData.filter (fun q2 => crossesWith q1 q2)).length
      (acc.1 + sub,
        (if sub = 0 then acc.2.1 + 1 else acc.2.1),
        (if sub = 0 then acc.2.2 ++ [q1] else acc.2.2)))
    (0, 0, [])

/-- `#getFillingPercentage`: the number of non-empty cells. -/
def getFillingPercentage (o : Options) (m : Matrix) : Nat :=
  m.cells.foldl
    (fun acc fila => acc + (fila.filter (fun c => c.letter ≠ o.emptySpace)).length) 0

/-- The `reduce` building the hash input: `word + "_" + horizontal + "_" + x
+ "_" + y` per placement. -/
def questionKey (q : Question) : String :=
  q.word ++ "_" ++ (if q.horizontal then "1" else "0") ++ "_" ++
    toString q.x ++ "_" ++ toString q.y

/-- The concatenated hash input over `questionsData`. -/
def matrixHashString (m : Matrix) : String :=
  m.questionsData.foldl (fun acc q => acc ++ questionKey q) ""

/-- The per-matrix annotation pass at the top of `#selectSolutions`. -/
def annotate (o : Options) (m : Matrix) : Matrix :=
  let inter := getIntersections m
  let fp := getFillingPercentage o m
  { m with
    hash := hashCode (matrixHashString m)
    intersections := inter.1
    isolatedWords := inter.2.1
    singlesIdx := inter.2.2
    fillingPercentage := fp
    score := o.scoreFunction (ratOfNat fp) (ratOfNat inter.1) (ratOfNat inter.2.1) }

/-- Hash-based deduplication keeping the first occurrence
(`uniqueSolutionsIndices` / `uniqueSolutions`). -/
def dedupByHash (l : List Matrix) : List Matrix :=
  (l.foldl
      (fun (acc : List Int × List Matrix) m =>
        if m.hash ∈ acc.1 then acc else (acc.1 ++ [m.hash], acc.2 ++ [m]))
      ([], [])).2

/-- `#selectSolutions`: annotate, deduplicate by hash, sort by descending
score, truncate to the requested count. -/
def selectSolutions (o : Options) (solutions : List Matrix)
    (cantidadRetornada : Nat) : List Matrix :=
  let sols := solutions.map (annotate o)
  let uniq := dedupByHash sols
  (sortDesc (fun a b : Matrix => Rat.blt a.score b.score) uniq).take cantidadRetornada

/-! ### `#generateQuestion`: one placement attempt loop -/

/-- A stream of random draws; `this.random()` consumes successive positions. -/
abbrev RSeq := Nat → ℚ

/-- Step 3 of the placement attempt: the target word length
`max(max(2, min(width, height, trunc(L/3) - 1) - floor(placed * factor)),
floor(random * min(width-or-height, L)))`. -/
def targetLength (o : Options) (qdLen : Nat) (horizontal : Bool) (q : ℚ) : Int :=
  max
    (max 2
      (min (o.width : Int)
          (min (o.height : Int) ((o.compilation.lengths.length / 3 : Nat) - 1 : Int)) -
        (ratMul (ratOfNat qdLen) o.minimumLengthFactor).floor))
    (jfloor q
      (min (if horizontal then (o.width : Int) else (o.height : Int))
        (o.compilation.lengths.length : Int)))

/-- Step 4 of the placement attempt: the candidate start position.  `pinned`
is the branch condition `wordsOnBorder && !borde`: while it holds one
coordinate is pinned to an edge, otherwise the position is free. -/
def choosePosition (o : Options) (pinned horizontal : Bool) (len : Int)
    (qx qy : ℚ) : Int × Int :=
  if pinned then
    (if horizontal then jfloor qx ((o.width : Int) - len)
      else jfloor qx 2 * ((o.width : Int) - 1),
      if horizontal then jfloor qy 2 * ((o.height : Int) - 1)
      else jfloor qy ((o.height : Int) - len))
  else
    (if horizontal then jfloor qx ((o.width : Int) - len)
      else jfloor qx (o.width : Int),
      if horizontal then jfloor qy (o.height : Int)
      else jfloor qy ((o.height : Int) - len))

/-- JS `Set.add`: append if absent. -/
def addSet (l : List Nat) (n : Nat) : List Nat := if n ∈ l then l else l ++ [n]

/-- Add the ids of all questions in `qs` to the set `l`. -/
def addAll (l : List Nat) (qs : List Question) : List Nat :=
  qs.foldl (fun l q => addSet l q.idx) l

/-- Accumulators of the per-cell span scan (steps 6–8). -/
structure ScanState where
  vecinoAdjacente : List Nat
  vecinoCruce : List Nat
  matchesAcc : List (Nat × String)
deriving DecidableEq, Repr

/-- One cell of the span scan: reject on a same-orientation flag, otherwise
collect adjacent and crossing placement ids and the letter constraint. -/
def scanStep (o : Options) (m : Matrix) (horizontal : Bool) (x y : Int)
    (i : Nat) (st : ScanState) : Except String (Option ScanState) := do
  if horizontal then
    let c ← getCell m y (x + i)
    if c.h then
      return none
    else
      let vA := st.vecinoAdjacente
      let vA := if 0 < y then addAll vA (getPreguntasPorPosicion m (x + i) (y - 1)) else vA
      let vA := if y < (o.height : Int) - 1 then
          addAll vA (getPreguntasPorPosicion m (x + i) (y + 1)) else vA
      let vC := addAll st.vecinoCruce (getPreguntasPorPosicion m (x + i) y)
      let ms := if c.letter ≠ o.emptySpace then st.matchesAcc ++ [(i, c.letter)]
        else st.matchesAcc
      return some ⟨vA, vC, ms⟩
  else
    let c ← getCell m (y + i) x
    if c.v then
      return none
    else
      let vA := st.vecinoAdjacente
      let vA := if 0 < x then addAll vA (getPreguntasPorPosicion m (x - 1) (y + i)) else vA
      let vA := if x < (o.width : Int) - 1 then
          addAll vA (getPreguntasPorPosicion m (x + 1) (y + i)) else vA
      let vC := addAll st.vecinoCruce (getPreguntasPorPosicion m x (y + i))
      let ms := if c.letter ≠ o.emptySpace then st.matchesAcc ++ [(i, c.letter)]
        else st.matchesAcc
      return some ⟨vA, vC, ms⟩

/-- The span scan loop (`for (let i = 0; i < length; i++)`), breaking with a
rejection on a same-orientation overlap. -/
def scanSpanGo (o : Options) (m : Matrix) (horizontal : Bool) (x y : Int) :
    Nat → Nat → ScanState → Except String (Option ScanState)
  | _, 0, st => .ok (some st)
  | i, rem + 1, st => do
      match ← scanStep o m horizontal x y i st with
      | none => return none
      | some st' => scanSpanGo o m horizontal x y (i + 1) rem st'

/-- The random candidate pick (step 10): re-roll while the id is used, giving
up at the JS bound of 100 draws.  `fuel` counts the draws still allowed
(`100 - count`); the call site passes 100, and the draw made with `fuel = 1`
is the JS `count === 100` draw, which abandons the attempt.  Returns the
fresh id, or `none` when the attempt is abandoned, together with the next
stream position. -/
def pickWordGo (r : RSeq) (palabras qs : List Nat) (fuel p : Nat)
    (idx : Option Nat) : Option Nat × Nat :=
  if (match idx with | none => true | some i => decide (i ∈ qs)) then
    match fuel with
    | 0 => (none, p)
    | fuel' + 1 =>
      let j := jfloor (r p) palabras.length
      let idx' := if j < 0 then none else palabras.get? j.toNat
      if fuel' = 0 then (none, p + 1)
      else pickWordGo r palabras qs fuel' (p + 1) idx'
  else (idx, p)

/-- Step 10's write loop: store the normalized letters and set the
orientation flag along the span. -/
def writeWord (o : Options) (m : Matrix) (horizontal : Bool) (x y : Int)
    (word : String) (len : Nat) : Except String Matrix :=
  (List.range len).foldlM
    (fun m i =>
      let letra := normalizeLetter (charAt word i)
      if horizontal then
        setCell m y (x + i) (fun c => { c with letter := letra, h := true })
      else
        setCell m (y + i) x (fun c => { c with letter := letra, v := true }))
    m

/-- Step 11: after a placement in the non-`borde` phase, flip `borde` once
the placed letter count exceeds the `wordsOnBorder` fraction of the
perimeter. -/
def updateBorde (o : Options) (m : Matrix) : Matrix :=
  if o.wordsOnBorder ≠ 0 ∧ ¬m.borde then
    let total : ℚ := ratOfNat ((o.width + o.height) * 2)
    let llevo : ℚ := ratOfNat (m.questionsData.map (fun q => q.word.length)).sum
    { m with borde := decide (ratDiv llevo total > o.wordsOnBorder) }
  else m

/-- The guarded end-of-span occupancy checks (steps 5a-5d): when `cond`
holds, read the neighbouring cell and test it against the empty marker. -/
def endBusy (o : Options) (m : Matrix) (cond : Bool) (yy xx : Int) :
    Except String Bool :=
  if cond then (getCell m yy xx).map (fun c => c.letter != o.emptySpace)
  else pure false

/-- One full placement attempt (one iteration of the `#generateQuestion`
body after the counter bookkeeping): `.ok (some m', p')` on a successful
placement, `.ok (none, p')` on a rejection, `.error` on a JS exception. -/
def attempt (o : Options) (ignored : List Nat) (r : RSeq) (p : Nat)
    (m : Matrix) : Except String (Option Matrix × Nat) :=
  let horizontal : Bool := decide (jfloor (r p) 2 = 1)
  let len := targetLength o m.questionsData.length horizontal (r (p + 1))
  match o.compilation.bucket len with
  | none => .error "TypeError: lengths bucket undefined"
  | some bucketWords =>
    let palabras := bucketWords.filter (fun w => !ignored.contains w)
    let pinned : Bool := decide (o.wordsOnBorder ≠ 0 ∧ ¬m.borde)
    let pos := choosePosition o pinned horizontal len (r (p + 2)) (r (p + 3))
    let x := pos.1
    let y := pos.2
    let p := p + 4
    (endBusy o m (horizontal && decide (0 < x)) y (x - 1)) >>= fun c1 =>
    (endBusy o m (horizontal && decide (x < (o.width : Int) - len)) y (x + len)) >>= fun c2 =>
    (endBusy o m (!horizontal && decide (0 < y)) (y - 1) x) >>= fun c3 =>
    (endBusy o m (!horizontal && decide (y < (o.height : Int) - len)) (y + len) x) >>= fun c4 =>
    if c1 || c2 || c3 || c4 then .ok (none, p)
    else
      (scanSpanGo o m horizontal x y 0 len.toNat ⟨[], [], []⟩) >>= fun ost =>
      match ost with
      | none => .ok (none, p)
      | some st =>
        if (st.vecinoAdjacente.filter (fun a => !st.vecinoCruce.contains a)).length > 0 then
          .ok (none, p)
        else
          let palabras :=
            if st.matchesAcc.length > 0 then
              palabras.filter (fun palabra =>
                st.matchesAcc.all (fun mt =>
                  match o.compilation.lettersAt mt with
                  | some l => l.contains palabra
                  | none => false))
            else palabras
          if st.matchesAcc.length = 0 ∧ o.wordsOnBorder ≠ 0 ∧ m.borde then
            .ok (none, p)
          else if palabras.length > 0 then
            match pickWordGo r palabras m.questions 100 p none with
            | (none, p') => .ok (none, p')
            | (some idx, p') =>
              (match o.compilation.words.get? idx with
                | some w => pure w
                | none => .error "TypeError: word undefined") >>= fun word =>
              (writeWord o m horizontal x y word len.toNat) >>= fun m' =>
              let m' := { m' with
                questions := addSet m'.questions idx
                questionsData := m'.questionsData ++ [⟨idx, word, horizontal, x, y⟩] }
              .ok (some (updateBorde o m'), p')
          else .ok (none, p)

/-- The `#generateQuestion` `while (true)` loop with its attempt counter.
`fuel` is an upper bound on the remaining iterations, only there to make the
recursion structural; `2 * finishAt + 2` iterations always suffice when
`finishAt ≥ 1` (proved below), so a `none` result (fuel exhausted) models the
JS infinite loop that `finishAt = 0` would produce. -/
def genLoop (o : Options) (ignored : List Nat) (r : RSeq) :
    Nat → Nat → Nat → Matrix → Option (Except String (Matrix × Nat))
  | 0, _, _, _ => none
  | fuel + 1, p, intento, m =>
    if m.finish then some (.ok (m, p))
    else
      if intento + 1 = o.finishAt then
        if o.wordsOnBorder ≠ 0 ∧ ¬m.borde then
          match attempt o ignored r p { m with borde := true } with
          | .error e => some (.error e)
          | .ok (some m', p') => some (.ok (m', p'))
          | .ok (none, p') => genLoop o ignored r fuel p' 0 { m with borde := true }
        else some (.ok ({ m with finish := true }, p))
      else
        match attempt o ignored r p m with
        | .error e => some (.error e)
        | .ok (some m', p') => some (.ok (m', p'))
        | .ok (none, p') => genLoop o ignored r fuel p' (intento + 1) m

/-- `#generateQuestion` on a cloned matrix. -/
def generateQuestion (o : Options) (ignored : List Nat) (r : RSeq) (p : Nat)
    (m : Matrix) : Option (Except String (Matrix × Nat)) :=
  genLoop o ignored r (2 * o.finishAt + 2) p 0 m

/-! ### `iterate` -/

/-- The inner loop of `iterate`: apply `#generateQuestion`
`wordsPerIteration` times to one clone. -/
def iterateWords (o : Options) (ignored : List Nat) (r : RSeq) :
    Nat → Nat → Matrix → Option (Except String (Matrix × Nat))
  | 0, p, m => some (.ok (m, p))
  | k + 1, p, m =>
    match generateQuestion o ignored r p m with
    | none => none
    | some (.error e) => some (.error e)
    | some (.ok (m', p')) => iterateWords o ignored r k p' m'

/-- The `solutionsPerIteration` loop of `iterate`, cycling through the input
population proportionally. -/
def iterateGo (o : Options) (ignored : List Nat) (r : RSeq)
    (matrices : List Matrix) :
    Nat → Nat → Nat → List Matrix → Option (Except String (List Matrix × Nat))
  | _, 0, p, sols => some (.ok (sols, p))
  | i, rem + 1, p, sols =>
    match matrices.get? (matrices.length * i / o.solutionsPerIteration) with
    | none => some (.error "TypeError: matrix undefined")
    | some m0 =>
      match iterateWords o ignored r o.wordsPerIteration p m0 with
      | none => none
      | some (.error e) => some (.error e)
      | some (.ok (m', p')) => iterateGo o ignored r matrices (i + 1) rem p' (sols ++ [m'])

/-- `iterate` on a population (the source wraps a single matrix into a
one-element array first; callers of the embedding pass the list). -/
def iterate (o : Options) (ignored : List Nat) (r : RSeq) (p : Nat)
    (matrices : List Matrix) : Option (Except String (List Matrix × Nat)) :=
  match iterateGo o ignored r matrices 0 o.solutionsPerIteration p [] with
  | none => none
  | some (.error e) => some (.error e)
  | some (.ok (sols, p')) =>
      some (.ok (selectSolutions o sols o.selectedSolutions, p'))

/-- Decidable equality of `Except` results (used to evaluate concrete runs). -/
instance {ε α : Type} [DecidableEq ε] [DecidableEq α] : DecidableEq (Except ε α) := fun x y =>
  match x, y with
  | .ok a, .ok b =>
      if h : a = b then .isTrue (congrArg Except.ok h)
      else .isFalse (fun hh => h (Except.ok.inj hh))
  | .ok _, .error _ => .isFalse (fun hh => Except.noConfusion hh)
  | .error _, .ok _ => .isFalse (fun hh => Except.noConfusion hh)
  | .error a, .error b =>
      if h : a = b then .isTrue (congrArg Except.error h)
      else .isFalse (fun hh => h (Except.error.inj hh))

/-! ### `fillEmptySpaces` -/

/-- A candidate run discovered by the `fillEmptySpaces` scan. -/
structure Point where
  x : Int
  y : Int
  size : Int
  horizontal : Bool
deriving DecidableEq, Repr

/-- Leftward extension of a horizontal run (the first inner `while`), in
structural form: the argument `k` encodes the current JS variable as
`x1 = k - 1`, so `k = 0` is the `x1 < 0` clamp.  Returns the final `x1` and
`x1Collision`. -/
def extendLeftAux (o : Options) (m : Matrix) (y : Int) :
    Nat → Except String (Int × Bool)
  | 0 => .ok (0, false)
  | k + 1 =>
    let x1 : Int := k
    (getCell m y x1) >>= fun c =>
    if c.h then pure (x1 + 2, false)
    else if c.v then pure (x1, true)
    else
      (endBusy o m (decide (0 < y)) (y - 1) x1) >>= fun above =>
      if above then pure (x1 + 1, false)
      else
        (endBusy o m (decide (y < (o.height : Int) - 1)) (y + 1) x1) >>= fun below =>
        if below then pure (x1 + 1, false)
        else extendLeftAux o m y k

/-- Leftward extension started at column `x1`. -/
def extendLeft (o : Options) (m : Matrix) (y x1 : Int) :
    Except String (Int × Bool) :=
  if x1 < 0 then .ok (0, false) else extendLeftAux o m y (x1.toNat + 1)

/-- Rightward extension of a horizontal run (the second inner `while`), in
structural form: `k` encodes the current JS variable as `x2 = width - k`, so
`k = 0` is the `x2 >= width` clamp. -/
def extendRightAux (o : Options) (m : Matrix) (y : Int) :
    Nat → Except String (Int × Bool)
  | 0 => .ok ((o.width : Int) - 1, false)
  | k + 1 =>
    let x2 : Int := (o.width : Int) - (k + 1)
    (getCell m y x2) >>= fun c =>
    if c.h then pure (x2 - 2, false)
    else if c.v then pure (x2, true)
    else
      (endBusy o m (decide (0 < y)) (y - 1) x2) >>= fun above =>
      if above then pure (x2 - 1, false)
      else
        (endBusy o m (decide (y < (o.height : Int) - 1)) (y + 1) x2) >>= fun below =>
        if below then pure (x2 - 1, false)
        else extendRightAux o m y k

/-- Rightward extension started at column `x2`. -/
def extendRight (o : Options) (m : Matrix) (y x2 : Int) :
    Except String (Int × Bool) :=
  if (o.width : Int) ≤ x2 then .ok ((o.width : Int) - 1, false)
  else extendRightAux o m y ((o.width : Int) - x2).toNat

/-- Upward extension of a vertical run (the third inner `while`), with
`y1 = k - 1`. -/
def extendUpAux (o : Options) (m : Matrix) (x : Int) :
    Nat → Except String (Int × Bool)
  | 0 => .ok (0, false)
  | k + 1 =>
    let y1 : Int := k
    (getCell m y1 x) >>= fun c =>
    if c.v then pure (y1 + 2, false)
    else if c.h then pure (y1, true)
    else
      (endBusy o m (decide (0 < x)) y1 (x - 1)) >>= fun left =>
      if left then pure (y1 + 1, false)
      else
        (endBusy o m (decide (x < (o.width : Int) - 1)) y1 (x + 1)) >>= fun right =>
        if right then pure (y1 + 1, false)
        else extendUpAux o m x k

/-- Upward extension started at row `y1`. -/
def extendUp (o : Options) (m : Matrix) (x y1 : Int) :
    Except String (Int × Bool) :=
  if y1 < 0 then .ok (0, false) else extendUpAux o m x (y1.toNat + 1)

/-- Downward extension of a vertical run (the fourth inner `while`), with
`y2 = height - k`. -/
def extendDownAux (o : Options) (m : Matrix) (x : Int) :
    Nat → Except String (Int × Bool)
  | 0 => .ok ((o.height : Int) - 1, false)
  | k + 1 =>
    let y2 : Int := (o.height : Int) - (k + 1)
    (getCell m y2 x) >>= fun c =>
    if c.v then pure (y2 - 2, false)
    else if c.h then pure (y2, true)
    else
      (endBusy o m (decide (0 < x)) y2 (x - 1)) >>= fun left =>
      if left then pure (y2 - 1, false)
      else
        (endBusy o m (decide (x < (o.width : Int) - 1)) y2 (x + 1)) >>= fun right =>
        if right then pure (y2 - 1, false)
        else extendDownAux o m x k

/-- Downward extension started at row `y2`. -/
def extendDown (o : Options) (m : Matrix) (x y2 : Int) :
    Except String (Int × Bool) :=
  if (o.height : Int) ≤ y2 then .ok ((o.height : Int) - 1, false)
  else extendDownAux o m x ((o.height : Int) - y2).toNat

/-- The runs contributed by one grid cell: nothing unless the cell is empty,
otherwise the horizontal run (with the source's duplicate pushes when
`x1Collision`) and the vertical run, each recorded only when an end collides
and the run spans at least two cells. -/
def scanCell (o : Options) (m : Matrix) (x y : Int) :
    Except String (List Point) := do
  let c ← getCell m y x
  if c.letter != o.emptySpace then
    return []
  else
    let l ← extendLeft o m y x
    let r ← extendRight o m y x
    let hzPts :=
      if (l.2 || r.2) && decide (l.1 < r.1) then
        let pt : Point := ⟨l.1, y, r.1 + 1 - l.1, true⟩
        pt :: (if l.2 then List.replicate ((r.1 + 1 - l.1).toNat - 1) pt else [])
      else []
    let u ← extendUp o m x y
    let d ← extendDown o m x y
    let vtPts :=
      if (u.2 || d.2) && decide (u.1 < d.1) then
        [(⟨x, u.1, d.1 + 1 - u.1, false⟩ : Point)]
      else []
    return hzPts ++ vtPts

/-- The full scan (`x` outer, `y` inner). -/
def scanAll (o : Options) (m : Matrix) : Except String (List Point) :=
  (List.range o.width).foldlM
    (fun pts x =>
      (List.range o.height).foldlM
        (fun pts y => do
          let newPts ← scanCell o m x y
          return pts ++ newPts)
        pts)
    []

/-- Attempt to fill one run: derive the endpoint letter constraints, filter
the length bucket (guarded against a missing bucket), and write a random
candidate using the ambient, unseeded `Math.random()` stream `amb`. -/
def tryPoint (o : Options) (ignored : List Nat) (amb : RSeq) (p : Nat)
    (m : Matrix) (pt : Point) : Except String (Option Matrix × Nat) :=
  (getCell m pt.y pt.x) >>= fun cs =>
  (if pt.horizontal then getCell m pt.y (pt.x + pt.size - 1)
    else getCell m (pt.y + pt.size - 1) pt.x) >>= fun ce =>
  let ms : List (Nat × String) :=
    (if cs.letter != o.emptySpace then [(0, cs.letter)] else []) ++
      (if ce.letter != o.emptySpace then [((pt.size - 1).toNat, ce.letter)] else [])
  match o.compilation.bucket pt.size with
  | none => .ok (none, p)
  | some ws =>
    let ws := ws.filter (fun w => !ignored.contains w)
    let ws := ms.foldl
      (fun ws mt =>
        match o.compilation.lettersAt mt with
        | some l => ws.filter (fun w => l.contains w)
        | none => [])
      ws
    let ws := ws.filter (fun w => !m.questions.contains w)
    if ws.length > 0 then
      let j := jfloor (amb p) ws.length
      (match (if j < 0 then none else ws.get? j.toNat) with
        | some i => pure i
        | none => .error "TypeError: word undefined") >>= fun idx =>
      (match o.compilation.words.get? idx with
        | some w => pure w
        | none => .error "TypeError: word undefined") >>= fun word =>
      ((List.range word.length).foldlM
        (fun mm (i : Nat) =>
          if pt.horizontal then
            setCell mm pt.y (pt.x + (i : Int))
              (fun c => { c with letter := charAt word i, h := true })
          else
            setCell mm (pt.y + (i : Int)) pt.x
              (fun c => { c with letter := charAt word i, v := true }))
        m) >>= fun m' =>
      let m' := { m' with
        questions := addSet m'.questions idx
        questionsData := m'.questionsData ++
          [⟨idx, word, pt.horizontal, pt.x, pt.y⟩] }
      .ok (some m', p + 1)
    else
      .ok (none, p)

/-- Try the sorted runs in order, stopping at the first successful fill. -/
def tryPoints (o : Options) (ignored : List Nat) (amb : RSeq) (m : Matrix) :
    List Point → Nat → Except String (Option Matrix × Nat)
  | [], p => .ok (none, p)
  | pt :: rest, p => do
    match ← tryPoint o ignored amb p m pt with
    | (some m', p') => return (some m', p')
    | (none, p') => tryPoints o ignored amb m rest p'

/-- One pass of the outer `while (continueIteration)` loop: scan, sort by
descending size, try the runs. -/
def fillPass (o : Options) (ignored : List Nat) (amb : RSeq) (p : Nat)
    (m : Matrix) : Except String (Option Matrix × Nat) := do
  let pts ← scanAll o m
  tryPoints o ignored amb m (sortDesc (fun a b : Point => decide (a.size < b.size)) pts) p

/-- The outer loop of `fillEmptySpaces` for one matrix.  `fuel` bounds the
number of passes; the bound used by `fillMatrix` always suffices (each
successful pass consumes a fresh word id from the buckets, proved below), so
a `none` result would mean the JS loop does not terminate. -/
def fillLoop (o : Options) (ignored : List Nat) (amb : RSeq) :
    Nat → Nat → Matrix → Option (Except String (Matrix × Nat))
  | 0, _, _ => none
  | fuel + 1, p, m =>
    match fillPass o ignored amb p m with
    | .error e => some (.error e)
    | .ok (none, p') => some (.ok (m, p'))
    | .ok (some m', p') => fillLoop o ignored amb fuel p' m'

/-- The pass budget: one more than the number of distinct word ids occurring
in the length buckets. -/
def fillFuel (o : Options) : Nat :=
  o.compilation.lengths.flatten.dedup.length + 1

/-- `fillEmptySpaces` restricted to one matrix. -/
def fillMatrix (o : Options) (ignored : List Nat) (amb : RSeq) (p : Nat)
    (m : Matrix) : Option (Except String (Matrix × Nat)) :=
  fillLoop o ignored amb (fillFuel o) p m

/-- The `matrices.forEach` loop of `fillEmptySpaces`. -/
def fillAll (o : Options) (ignored : List Nat) (amb : RSeq) :
    List Matrix → Nat → List Matrix → Option (Except String (List Matrix × Nat))
  | [], p, acc => some (.ok (acc, p))
  | m :: rest, p, acc =>
    match fillMatrix o ignored amb p m with
    | none => none
    | some (.error e) => some (.error e)
    | some (.ok (m', p')) => fillAll o ignored amb rest p' (acc ++ [m'])

/-- `fillEmptySpaces`: fill every matrix, then re-select.  `amb` is the
ambient `Math.random()` stream, which is *not* derived from the generator's
seed. -/
def fillEmptySpaces (o : Options) (ignored : List Nat) (amb : RSeq) (p : Nat)
    (matrices : List Matrix) : Option (Except String (List Matrix × Nat)) :=
  match fillAll o ignored amb matrices p [] with
  | none => none
  | some (.error e) => some (.error e)
  | some (.ok (ms, p')) =>
      some (.ok (selectSolutions o ms o.selectedSolutions, p'))

/-! ### Views used by the claim statements -/

/-- The `lengths` bucket at a natural index, as a (possibly empty) id list. -/
def bucketD (c : Compilation) (len : Nat) : List Nat := (c.lengths.get? len).getD []

/-- The letter-index entry at a key, as a (possibly empty) id list. -/
def lettersD (c : Compilation) (k : Nat × String) : List Nat :=
  (c.lettersAt k).getD []

/-- The words that the second `compile` loop indexes: full pattern matches of
length > 1. -/
def isIndexedWord (s : String) : Bool := isPatternWord s && decide (s.length > 1)

/-- A compilation whose buckets and letter index are consistent with its word
list (what `compile` produces; hypothesis of the grid invariants). -/
def goodComp (c : Compilation) : Bool :=
  (List.range c.lengths.length).all (fun len =>
    (bucketD c len).all (fun id =>
      match c.words.get? id with
      | some s => decide (s.length = len) && isIndexedWord s
      | none => false)) &&
  c.letters.all (fun e =>
    e.2.all (fun id =>
      match c.words.get? id with
      | some s =>
          decide (e.1.1 < s.length) && decide (charAt s e.1.1 = e.1.2) &&
            isIndexedWord s
      | none => false))

/-- The concrete dictionary of the compilation scenario. -/
def dictC5 : List (List (List String)) := [[["CAT", "feline"], ["DOG", "canine"]]]

/-! ### Lemmas about `compile` -/

theorem foldl_preserve {α σ : Type} {P : σ → Prop} (f : σ → α → σ) (l : List α)
    (st : σ) (h : P st) (step : ∀ s a, a ∈ l → P s → P (f s a)) :
    P (l.foldl f st) := by
  induction l generalizing st with
  | nil => exact h
  | cons a t ih =>
      exact ih (f st a) (step st a (List.mem_cons_self a t) h)
        (fun s b hb => step s b (List.mem_cons_of_mem a hb))

theorem padLengths_get (ls : List (List Nat)) (n len : Nat) :
    ((padLengths ls n).get? len).getD [] = (ls.get? len).getD [] := by
  rw [padLengths]
  by_cases h : ls.length ≤ n
  · rw [if_pos h]
    by_cases hlen : len < ls.length
    · rw [List.get?_append hlen]
    · rw [List.get?_eq_none.mpr (Nat.le_of_not_lt hlen),
        List.get?_append_right (Nat.le_of_not_lt hlen)]
      rcases hq : (List.replicate (n + 1 - ls.length) ([] : List Nat)).get?
          (len - ls.length) with _ | v
      · rfl
      · rw [Option.getD_some, List.eq_of_mem_replicate (List.get?_mem hq)]
        rfl
  · rw [if_neg h]

theorem padLengths_length (ls : List (List Nat)) (n : Nat) :
    n < (padLengths ls n).length := by
  rw [padLengths]
  by_cases h : ls.length ≤ n
  · rw [if_pos h]; simp; omega
  · rw [if_neg h]; omega

theorem pushAt_get (ls : List (List Nat)) (n idx len : Nat) (hn : n < ls.length) :
    ((pushAt ls n idx).get? len).getD [] =
      (if len = n then ((ls.get? len).getD []) ++ [idx] else (ls.get? len).getD []) := by
  rw [pushAt]
  by_cases h : len = n
  · subst h
    rw [if_pos rfl, List.get?_set_eq]
    rw [List.get?_eq_get hn, Option.map_some, Option.getD_some]
  · rw [if_neg h, List.get?_set_ne _ _ (fun hh => h hh.symm)]

theorem pushAt_length (ls : List (List Nat)) (n idx : Nat) :
    (pushAt ls n idx).length = ls.length := by
  rw [pushAt, List.length_set]

theorem lettersGet_map_update (m : List ((Nat × String) × List Nat))
    (k k' : Nat × String) (idx : Nat) :
    lettersGet (m.map (fun p => if p.1 = k' then (p.1, p.2 ++ [idx]) else p)) k =
      if k = k' then (lettersGet m k).map (· ++ [idx]) else lettersGet m k := by
  induction m with
  | nil => by_cases h : k = k' <;> simp [lettersGet, h]
  | cons p t ih =>
      rw [List.map_cons]
      by_cases hp : p.1 = k'
      · rw [if_pos hp]
        by_cases hpk : p.1 = k
        · have hk : k = k' := hpk ▸ hp
          simp only [lettersGet]
          rw [if_pos hpk, if_pos hpk, if_pos hk]
          rfl
        · simp only [lettersGet]
          rw [if_neg hpk, if_neg hpk, ih]
      · rw [if_neg hp]
        by_cases hpk : p.1 = k
        · have hk : ¬k = k' := fun h => hp (hpk.trans h)
          simp only [lettersGet]
          rw [if_pos hpk, if_pos hpk, if_neg hk]
        · simp only [lettersGet]
          rw [if_neg hpk, if_neg hpk, ih]

theorem lettersGet_append_one (m : List ((Nat × String) × List Nat))
    (k k' : Nat × String) (v : List Nat) :
    lettersGet (m ++ [(k', v)]) k =
      ((lettersGet m k).orElse (fun _ => if k = k' then some v else none)) := by
  induction m with
  | nil =>
      by_cases h : k = k'
      · subst h
        simp [lettersGet, Option.orElse]
      · simp [lettersGet, h, Ne.symm h, Option.orElse]
  | cons p t ih =>
      rw [List.cons_append]
      by_cases hpk : p.1 = k
      · simp only [lettersGet]
        rw [if_pos hpk, if_pos hpk]
        rfl
      · simp only [lettersGet]
        rw [if_neg hpk, if_neg hpk, ih]

theorem any_key_false_find (m : List ((Nat × String) × List Nat))
    (k : Nat × String) (h : m.any (fun p => decide (p.1 = k)) = false) :
    lettersGet m k = none := by
  induction m with
  | nil => rfl
  | cons p t ih =>
      simp only [List.any_cons, Bool.or_eq_false_iff] at h
      simp only [lettersGet]
      rw [if_neg (by simpa using h.1)]
      exact ih h.2

theorem any_key_true_find (m : List ((Nat × String) × List Nat))
    (k : Nat × String) (h : m.any (fun p => decide (p.1 = k)) = true) :
    ∃ v, lettersGet m k = some v := by
  induction m with
  | nil => cases h
  | cons p t ih =>
      simp only [lettersGet]
      by_cases hp : p.1 = k
      · exact ⟨p.2, by rw [if_pos hp]⟩
      · rw [if_neg hp]
        refine ih ?_
        simp only [List.any_cons, Bool.or_eq_true] at h
        rcases h with h | h
        · exact absurd (by simpa using h) hp
        · exact h

theorem lettersGet_lettersAdd (m : List ((Nat × String) × List Nat))
    (k k' : Nat × String) (idx : Nat) :
    lettersGet (lettersAdd m k' idx) k =
      if k = k' then some (((lettersGet m k').getD []) ++ [idx])
      else lettersGet m k := by
  rw [lettersAdd]
  by_cases hany : m.any (fun p => decide (p.1 = k')) = true
  · rw [if_pos hany, lettersGet_map_update]
    by_cases hk : k = k'
    · subst hk
      rw [if_pos rfl, if_pos rfl]
      rcases any_key_true_find m k hany with ⟨v, hv⟩
      rw [hv]
      rfl
    · rw [if_neg hk, if_neg hk]
  · rw [if_neg hany, lettersGet_append_one,
      any_key_false_find m k' (Bool.eq_false_iff.mpr hany)]
    by_cases hk : k = k'
    · subst hk
      rw [any_key_false_find m k (Bool.eq_false_iff.mpr hany)]
      simp [Option.orElse]
    · rcases hv : lettersGet m k with _ | v <;> simp [hv, Option.orElse, hk]

theorem compileWord_lengths (st : P2State) (i : Nat) (w : String) :
    (compileWord st i w).lengths =
      if isPatternWord w ∧ w.length > 1 then
        pushAt (padLengths st.lengths w.length) w.length i
      else st.lengths := by
  rw [compileWord]
  by_cases hw : isPatternWord w ∧ w.length > 1 <;> simp [hw]

theorem compileWord_letters (st : P2State) (i : Nat) (w : String) :
    (compileWord st i w).letters =
      if isPatternWord w ∧ w.length > 1 then
        (List.range w.length).foldl
          (fun lt i' => lettersAdd lt (i', charAt w i') i) st.letters
      else st.letters := by
  rw [compileWord]
  by_cases hw : isPatternWord w ∧ w.length > 1 <;> simp [hw]

theorem isIndexedWord_iff (w : String) :
    isIndexedWord w = true ↔ (isPatternWord w ∧ w.length > 1) := by
  simp [isIndexedWord]

theorem bucket_compileWord (st : P2State) (i : Nat) (w : String) (len : Nat) :
    (((compileWord st i w).lengths.get? len).getD []) =
      ((st.lengths.get? len).getD []) ++
        (if isIndexedWord w = true ∧ len = w.length then [i] else []) := by
  rw [compileWord_lengths]
  by_cases hw : isPatternWord w ∧ w.length > 1
  · rw [if_pos hw,
      pushAt_get _ _ _ _ (padLengths_length st.lengths w.length)]
    by_cases hlen : len = w.length
    · rw [if_pos hlen, padLengths_get,
        if_pos ⟨(isIndexedWord_iff w).mpr hw, hlen⟩]
    · rw [if_neg hlen, padLengths_get,
        if_neg (fun h => hlen h.2), List.append_nil]
  · rw [if_neg hw, if_neg (fun h => hw ((isIndexedWord_iff w).mp h.1)),
      List.append_nil]

theorem lettersGet_foldRange (lt0 : List ((Nat × String) × List Nat))
    (w : String) (idx : Nat) (n : Nat) (k : Nat × String) :
    ((lettersGet ((List.range n).foldl
        (fun lt i' => lettersAdd lt (i', charAt w i') idx) lt0) k).getD []) =
      ((lettersGet lt0 k).getD []) ++
        (if k.1 < n ∧ charAt w k.1 = k.2 then [idx] else []) := by
  induction n with
  | zero => simp
  | succ n ih =>
      rw [List.range_succ, List.foldl_append, List.foldl_cons, List.foldl_nil,
        lettersGet_lettersAdd]
      by_cases hk : k = (n, charAt w n)
      · subst hk
        rw [if_pos rfl, Option.getD_some, ih]
        rw [if_neg (by simp), List.append_nil, if_pos (by simp)]
      · rw [if_neg hk, ih]
        by_cases hc : k.1 < n ∧ charAt w k.1 = k.2
        · rw [if_pos hc, if_pos ⟨Nat.lt_succ_of_lt hc.1, hc.2⟩]
        · rw [if_neg hc, if_neg]
          rintro ⟨hlt, hch⟩
          rcases Nat.lt_succ_iff_lt_or_eq.mp hlt with hlt' | rfl
          · exact hc ⟨hlt', hch⟩
          · exact hk (Prod.ext rfl hch.symm)

theorem letters_compileWord (st : P2State) (i : Nat) (w : String)
    (k : Nat × String) :
    ((lettersGet (compileWord st i w).letters k).getD []) =
      ((lettersGet st.letters k).getD []) ++
        (if isIndexedWord w = true ∧ k.1 < w.length ∧ charAt w k.1 = k.2
          then [i] else []) := by
  rw [compileWord_letters]
  by_cases hw : isPatternWord w ∧ w.length > 1
  · rw [if_pos hw, lettersGet_foldRange]
    by_cases hc : k.1 < w.length ∧ charAt w k.1 = k.2
    · rw [if_pos hc, if_pos ⟨(isIndexedWord_iff w).mpr hw, hc⟩]
    · rw [if_neg hc, if_neg (fun h => hc h.2)]
  · rw [if_neg hw, if_neg (fun h => hw ((isIndexedWord_iff w).mp h.1)),
      List.append_nil]

theorem phase2Go_bucket (t : List String) (i : Nat) (st : P2State)
    (id len : Nat) :
    id ∈ (((phase2Go i t st).lengths.get? len).getD []) ↔
      id ∈ ((st.lengths.get? len).getD []) ∨
        ∃ j s, t.get? j = some s ∧ id = i + j ∧ isIndexedWord s = true ∧
          s.length = len := by
  induction t generalizing i st with
  | nil => simp [phase2Go]
  | cons w t ih =>
      rw [phase2Go, ih, bucket_compileWord]
      constructor
      · rintro (hmem | ⟨j, s, hs, hid, hiw, hlen⟩)
        · rcases List.mem_append.mp hmem with h | h
          · exact Or.inl h
          · rcases Classical.em (isIndexedWord w = true ∧ len = w.length)
              with hc | hc
            · rw [if_pos hc] at h
              rcases List.mem_singleton.mp h with rfl
              exact Or.inr ⟨0, w, rfl, by omega, hc.1, hc.2.symm⟩
            · rw [if_neg hc] at h
              cases h
        · exact Or.inr ⟨j + 1, s, by simpa using hs, by omega, hiw, hlen⟩
      · rintro (hmem | ⟨j, s, hs, hid, hiw, hlen⟩)
        · exact Or.inl (List.mem_append.mpr (Or.inl hmem))
        · match j, hs with
          | 0, hs =>
              have hws : w = s := by simpa using hs
              subst hws
              refine Or.inl (List.mem_append.mpr (Or.inr ?_))
              rw [if_pos ⟨hiw, hlen.symm⟩]
              simp [hid]
          | (j' + 1), hs =>
              exact Or.inr ⟨j', s, by simpa using hs, by omega, hiw, hlen⟩

theorem phase2Go_letters (t : List String) (i : Nat) (st : P2State)
    (id : Nat) (k : Nat × String) :
    id ∈ ((lettersGet (phase2Go i t st).letters k).getD []) ↔
      id ∈ ((lettersGet st.letters k).getD []) ∨
        ∃ j s, t.get? j = some s ∧ id = i + j ∧ isIndexedWord s = true ∧
          k.1 < s.length ∧ charAt s k.1 = k.2 := by
  induction t generalizing i st with
  | nil => simp [phase2Go]
  | cons w t ih =>
      rw [phase2Go, ih, letters_compileWord]
      constructor
      · rintro (hmem | ⟨j, s, hs, hid, hiw, hlen, hch⟩)
        · rcases List.mem_append.mp hmem with h | h
          · exact Or.inl h
          · rcases Classical.em
                (isIndexedWord w = true ∧ k.1 < w.length ∧ charAt w k.1 = k.2)
              with hc | hc
            · rw [if_pos hc] at h
              rcases List.mem_singleton.mp h with rfl
              exact Or.inr ⟨0, w, rfl, by omega, hc.1, hc.2.1, hc.2.2⟩
            · rw [if_neg hc] at h
              cases h
        · exact Or.inr ⟨j + 1, s, by simpa using hs, by omega, hiw, hlen, hch⟩
      · rintro (hmem | ⟨j, s, hs, hid, hiw, hlen, hch⟩)
        · exact Or.inl (List.mem_append.mpr (Or.inl hmem))
        · match j, hs with
          | 0, hs =>
              have hws : w = s := by simpa using hs
              subst hws
              refine Or.inl (List.mem_append.mpr (Or.inr ?_))
              rw [if_pos ⟨hiw, hlen, hch⟩]
              simp [hid]
          | (j' + 1), hs =>
              exact Or.inr ⟨j', s, by simpa using hs, by omega, hiw, hlen, hch⟩

theorem compile_bucket (ds : List (List (List String))) (id len : Nat) :
    id ∈ bucketD (compile ds) len ↔
      ∃ s, (compile ds).words.get? id = some s ∧ isIndexedWord s = true ∧
        s.length = len := by
  rw [compile]
  simp only [bucketD]
  rw [show (phase2 (ds.flatten.foldl processLine ⟨[], [], []⟩).words).lengths =
      (phase2Go 0 (ds.flatten.foldl processLine ⟨[], [], []⟩).words
        ⟨[], []⟩).lengths from rfl]
  rw [phase2Go_bucket]
  constructor
  · rintro (h | ⟨j, s, hs, hid, hiw, hlen⟩)
    · simp at h
    · exact ⟨s, by simpa [hid] using hs, hiw, hlen⟩
  · rintro ⟨s, hs, hiw, hlen⟩
    exact Or.inr ⟨id, s, hs, by omega, hiw, hlen⟩

theorem compile_letters (ds : List (List (List String))) (id : Nat)
    (k : Nat × String) :
    id ∈ lettersD (compile ds) k ↔
      ∃ s, (compile ds).words.get? id = some s ∧ isIndexedWord s = true ∧
        k.1 < s.length ∧ charAt s k.1 = k.2 := by
  rw [compile]
  simp only [lettersD, Compilation.lettersAt]
  rw [show (phase2 (ds.flatten.foldl processLine ⟨[], [], []⟩).words).letters =
      (phase2Go 0 (ds.flatten.foldl processLine ⟨[], [], []⟩).words
        ⟨[], []⟩).letters from rfl]
  rw [phase2Go_letters]
  constructor
  · rintro (h | ⟨j, s, hs, hid, hiw, hlen, hch⟩)
    · simp [lettersGet] at h
    · exact ⟨s, by simpa [hid] using hs, hiw, hlen, hch⟩
  · rintro ⟨s, hs, hiw, hlen, hch⟩
    exact Or.inr ⟨id, s, hs, by omega, hiw, hlen, hch⟩

theorem firstIdx_eq_none (l : List String) (s : String) :
    firstIdx l s = none ↔ s ∉ l := by
  induction l with
  | nil => simp [firstIdx]
  | cons a t ih =>
      by_cases h : a = s
      · simp [firstIdx, h]
      · simp [firstIdx, h, ih, Ne.symm h]

theorem nodup_append_singleton {α : Type} (a : α) (l : List α)
    (h : l.Nodup) (ha : a ∉ l) : (l ++ [a]).Nodup := by
  have hperm : (a :: l).Perm (l ++ [a]) := (List.perm_append_singleton a l).symm
  exact hperm.nodup (List.nodup_cons.mpr ⟨ha, h⟩)

theorem processItem_ok (st : LineState) (item : String)
    (h : st.words.Nodup ∧ st.phrases.Nodup) :
    (processItem st item).words.Nodup ∧ (processItem st item).phrases.Nodup := by
  rw [processItem]
  split
  · split
    · split
      · exact h
      · next hf =>
          exact ⟨nodup_append_singleton _ _ h.1 ((firstIdx_eq_none _ _).mp hf),
            h.2⟩
    · split
      · exact h
      · next hf =>
          exact ⟨h.1,
            nodup_append_singleton _ _ h.2 ((firstIdx_eq_none _ _).mp hf)⟩
  · exact h

theorem processLine_ok (st : P1State) (line : List String)
    (h : st.words.Nodup ∧ st.phrases.Nodup) :
    (processLine st line).words.Nodup ∧ (processLine st line).phrases.Nodup := by
  exact foldl_preserve (P := fun ls : LineState =>
      ls.words.Nodup ∧ ls.phrases.Nodup)
    processItem line ⟨st.words, st.phrases, [], [], []⟩ h
    (fun s a _ hs => processItem_ok s a hs)

theorem compile_nodup (ds : List (List (List String))) :
    (compile ds).words.Nodup ∧ (compile ds).phrases.Nodup := by
  exact foldl_preserve (P := fun st : P1State =>
      st.words.Nodup ∧ st.phrases.Nodup)
    processLine ds.flatten ⟨[], [], []⟩ ⟨List.nodup_nil, List.nodup_nil⟩
    (fun s a _ hs => processLine_ok s a hs)

/-! ### Claims C5 and C6 -/

/-- C5, counterexample: compiling `[[["CAT","feline"],["DOG","canine"]]]`
does *not* yield `words = ["CAT","DOG"]` with `lengthBuckets[3] = {0,1}` and
`letterIndex[(0,'D')] = {1}`: the claim as stated is false ("feline" and
"canine" contain no whitespace, so they are pushed to `words` too). -/
theorem c5_counterexample :
    ¬((compile dictC5).words = ["CAT", "DOG"] ∧
      bucketD (compile dictC5) 3 = [0, 1] ∧
      lettersD (compile dictC5) (0, "C") = [0] ∧
      lettersD (compile dictC5) (0, "D") = [1]) := by
  decide

/-- C5, amended: compiling `[[["CAT","feline"],["DOG","canine"]]]` yields
`words = ["CAT","feline","DOG","canine"]` (every single-token string is a
word), the length-3 bucket `{0, 2}` (ids of "CAT" and "DOG"; the lower-case
synonyms fail the uppercase pattern and are not indexed), and letter-index
entries `(0,'C') ↦ {0}` and `(0,'D') ↦ {2}`. -/
theorem c5_compile_scenario :
    (compile dictC5).words = ["CAT", "feline", "DOG", "canine"] ∧
    bucketD (compile dictC5) 3 = [0, 2] ∧
    lettersD (compile dictC5) (0, "C") = [0] ∧
    lettersD (compile dictC5) (0, "D") = [2] := by
  decide

/-- C6, counterexample: in the compilation of
`[[["CAT","feline"],["DOG","canine"]]]`, word id 1 ("feline") has length 6
but is not in the length-6 bucket, refuting "w is a member of the length
bucket for len iff words[w] has length len" — bucket membership additionally
requires the word to match the uppercase pattern. -/
theorem c6_counterexample :
    ¬((1 ∈ bucketD (compile dictC5) 6) ↔
      ((compile dictC5).words.getD 1 "").length = 6) := by
  decide

/-- C6, amended: for every compiled dictionary, `words` and `phrases`
contain no duplicates, and for every word id: it is in the length bucket for
`len` iff its word fully matches the pattern `[A-Z0-9ÁÉÍÓÚÜÑ]+`, has length
> 1, and has length `len`; and it is in the letter-index entry `(i, c)` iff
its word matches the pattern, has length > 1, and has character `c` at
position `i < length`.  (The claim's version holds only for
pattern-matching words.) -/
theorem c6_index_consistency (ds : List (List (List String))) :
    (compile ds).words.Nodup ∧ (compile ds).phrases.Nodup ∧
    (∀ id len, id ∈ bucketD (compile ds) len ↔
      ∃ s, (compile ds).words.get? id = some s ∧ isIndexedWord s = true ∧
        s.length = len) ∧
    (∀ id i c, id ∈ lettersD (compile ds) (i, c) ↔
      ∃ s, (compile ds).words.get? id = some s ∧ isIndexedWord s = true ∧
        i < s.length ∧ charAt s i = c) :=
  ⟨(compile_nodup ds).1, (compile_nodup ds).2,
    fun id len => compile_bucket ds id len,
    fun id i c => compile_letters ds id (i, c)⟩

/-! ### Claim C4: `#selectSolutions` -/

/-- The fold step of the hash deduplication. -/
def dedupStep (acc : List Int × List Matrix) (m : Matrix) :
    List Int × List Matrix :=
  if m.hash ∈ acc.1 then acc else (acc.1 ++ [m.hash], acc.2 ++ [m])

/-- Invariant of the deduplication fold after the prefix `l₁` has been
processed. -/
def dedupInv (l₁ : List Matrix) (st : List Int × List Matrix) : Prop :=
  st.1 = st.2.map (fun g => g.hash) ∧
  st.2.Pairwise (fun a b => a.hash ≠ b.hash) ∧
  (∀ g ∈ st.2, ∃ i, l₁.get? i = some g ∧
    ∀ j g', j < i → l₁.get? j = some g' → g'.hash ≠ g.hash) ∧
  (∀ g ∈ l₁, g.hash ∈ st.1)

theorem dedupStep_inv (l₁ : List Matrix) (st : List Int × List Matrix)
    (m : Matrix) (h : dedupInv l₁ st) : dedupInv (l₁ ++ [m]) (dedupStep st m) := by
  obtain ⟨h1, h2, h3, h4⟩ := h
  have hext : ∀ g ∈ st.2, ∃ i, (l₁ ++ [m]).get? i = some g ∧
      ∀ j g', j < i → (l₁ ++ [m]).get? j = some g' → g'.hash ≠ g.hash := by
    intro g hg
    rcases h3 g hg with ⟨i, hi, hj⟩
    have hilen : i < l₁.length := by
      by_contra hc
      rw [List.get?_eq_none.mpr (Nat.le_of_not_lt hc)] at hi
      cases hi
    refine ⟨i, ?_, ?_⟩
    · rw [List.get?_append hilen]
      exact hi
    · intro j g' hji hg'
      rw [List.get?_append (Nat.lt_trans hji hilen)] at hg'
      exact hj j g' hji hg'
  rw [dedupStep]
  by_cases hm : m.hash ∈ st.1
  · rw [if_pos hm]
    refine ⟨h1, h2, hext, ?_⟩
    intro g hg
    rcases List.mem_append.mp hg with hg | hg
    · exact h4 g hg
    · rcases List.mem_singleton.mp hg with rfl
      exact hm
  · rw [if_neg hm]
    refine ⟨?_, ?_, ?_, ?_⟩
    · simp [h1]
    · rw [List.pairwise_append]
      refine ⟨h2, List.pairwise_singleton _ _, ?_⟩
      intro a ha b hb
      rcases List.mem_singleton.mp hb with rfl
      intro hab
      exact hm (hab ▸ (h1 ▸ List.mem_map_of_mem (fun g => g.hash) ha))
    · intro g hg
      rcases List.mem_append.mp hg with hg | hg
      · exact hext g hg
      · rcases List.mem_singleton.mp hg with rfl
        refine ⟨l₁.length, ?_, ?_⟩
        · rw [List.get?_append_right (Nat.le_refl _)]
          simp
        · intro j g' hj hg'
          have hjlen : j < l₁.length := hj
          rw [List.get?_append hjlen] at hg'
          intro hhash
          exact hm (hhash ▸ h4 g' (List.get?_mem hg'))
    · intro g hg
      rcases List.mem_append.mp hg with hg | hg
      · exact List.mem_append.mpr (Or.inl (h4 g hg))
      · rcases List.mem_singleton.mp hg with rfl
        exact List.mem_append.mpr (Or.inr (List.mem_singleton.mpr rfl))

theorem dedup_fold_inv (l₂ : List Matrix) (l₁ : List Matrix)
    (st : List Int × List Matrix) (h : dedupInv l₁ st) :
    dedupInv (l₁ ++ l₂) (l₂.foldl dedupStep st) := by
  induction l₂ generalizing l₁ st with
  | nil => simpa using h
  | cons m t ih =>
      have h' := dedupStep_inv l₁ st m h
      have := ih (l₁ ++ [m]) (dedupStep st m) h'
      simpa [List.append_assoc] using this

theorem dedupByHash_inv (l : List Matrix) :
    dedupInv l ((l.foldl dedupStep ([], []))) := by
  have := dedup_fold_inv l [] ([], [])
    ⟨rfl, List.Pairwise.nil, by simp, by simp⟩
  simpa using this

theorem dedupByHash_eq (l : List Matrix) :
    dedupByHash l = (l.foldl dedupStep ([], [])).2 := rfl

theorem blt_comparator_eq :
    (fun a b : Matrix => Rat.blt a.score b.score) =
      keyLt (fun m : Matrix => m.score) := by
  funext a b
  rw [keyLt]
  by_cases h : a.score < b.score
  · rw [decide_eq_true h]
    exact h
  · rw [decide_eq_false h]
    exact Bool.eq_false_iff.mpr (fun hb => h hb)

/-- C4: for every batch of candidate grids and requested count `n`,
`#selectSolutions` returns at most `n` grids, with pairwise distinct hashes,
scores in non-increasing order, and every returned grid is the first
occurrence of its hash in the annotated input order. -/
theorem c4_select_solutions (o : Options) (sols : List Matrix) (n : Nat) :
    (selectSolutions o sols n).length ≤ n ∧
    (selectSolutions o sols n).Pairwise (fun a b => a.hash ≠ b.hash) ∧
    (selectSolutions o sols n).Pairwise (fun a b => b.score ≤ a.score) ∧
    (∀ g ∈ selectSolutions o sols n, ∃ i,
      (sols.map (annotate o)).get? i = some g ∧
      ∀ j g', j < i → (sols.map (annotate o)).get? j = some g' →
        g'.hash ≠ g.hash) := by
  have hinv := dedupByHash_inv (sols.map (annotate o))
  obtain ⟨_, hpair, hfirst, _⟩ := hinv
  have hsel : selectSolutions o sols n =
      (sortDesc (fun a b : Matrix => Rat.blt a.score b.score)
        (dedupByHash (sols.map (annotate o)))).take n := rfl
  have hperm : ∀ x, x ∈ sortDesc (fun a b : Matrix => Rat.blt a.score b.score)
      (dedupByHash (sols.map (annotate o))) ↔
      x ∈ dedupByHash (sols.map (annotate o)) :=
    fun x => mem_sortDesc _ x _
  refine ⟨?_, ?_, ?_, ?_⟩
  · rw [hsel]
    exact List.length_take_le n _
  · rw [hsel]
    refine List.Pairwise.sublist (List.take_sublist n _) ?_
    have hd : (dedupByHash (sols.map (annotate o))).Pairwise
        (fun a b => a.hash ≠ b.hash) := by
      rw [dedupByHash_eq]
      exact hpair
    -- a sorted permutation of a pairwise-distinct-hash list keeps the property
    have hsp : (sortDesc (fun a b : Matrix => Rat.blt a.score b.score)
        (dedupByHash (sols.map (annotate o)))).Perm
        (dedupByHash (sols.map (annotate o))) := by
      exact perm_sortDesc _ _
    exact (List.Perm.pairwise_iff (fun {_ _} h e => h e.symm) hsp).mpr hd
  · rw [hsel]
    refine List.Pairwise.sublist (List.take_sublist n _) ?_
    rw [blt_comparator_eq]
    exact pairwise_sortDesc _ _
  · intro g hg
    rw [hsel] at hg
    have hg2 : g ∈ dedupByHash (sols.map (annotate o)) :=
      (hperm g).mp (List.mem_of_mem_take hg)
    rw [dedupByHash_eq] at hg2
    exact hfirst g hg2

/-! ### Claim C7: the retry policy of `#generateQuestion` -/

/-- C7: in `#generateQuestion`, a finished grid is returned unchanged (and no
draws are consumed); when the incremented attempt counter reaches `finishAt`
with border mode enabled and the border flag unset, the flag is set and the
counter resets to 0 (the loop continues from the escalated state); otherwise
reaching `finishAt` marks the grid finished and returns it normally (no
exception); and a rejected attempt below the threshold continues the loop
with the counter incremented. -/
theorem c7_retry_policy (o : Options) (ignored : List Nat) (r : RSeq)
    (fuel p intento : Nat) (m : Matrix) :
    (m.finish = true →
      genLoop o ignored r (fuel + 1) p intento m = some (.ok (m, p))) ∧
    (m.finish = false → intento + 1 = o.finishAt → o.wordsOnBorder ≠ 0 →
      m.borde = false →
      genLoop o ignored r (fuel + 1) p intento m =
        (match attempt o ignored r p { m with borde := true } with
          | .error e => some (.error e)
          | .ok (some m', p') => some (.ok (m', p'))
          | .ok (none, p') =>
              genLoop o ignored r fuel p' 0 { m with borde := true })) ∧
    (m.finish = false → intento + 1 = o.finishAt →
      (o.wordsOnBorder = 0 ∨ m.borde = true) →
      genLoop o ignored r (fuel + 1) p intento m =
        some (.ok ({ m with finish := true }, p))) ∧
    (∀ p', m.finish = false → intento + 1 ≠ o.finishAt →
      attempt o ignored r p m = .ok (none, p') →
      genLoop o ignored r (fuel + 1) p intento m =
        genLoop o ignored r fuel p' (intento + 1) m) := by
  refine ⟨?_, ?_, ?_, ?_⟩
  · intro hfin
    rw [genLoop, if_pos hfin]
  · intro hfin hint hwob hborde
    rw [genLoop, if_neg (by rw [hfin]; exact Bool.false_ne_true), if_pos hint,
      if_pos ⟨hwob, by rw [hborde]; exact Bool.false_ne_true⟩]
  · intro hfin hint hcase
    rw [genLoop, if_neg (by rw [hfin]; exact Bool.false_ne_true), if_pos hint,
      if_neg]
    rintro ⟨hwob, hborde⟩
    rcases hcase with h | h
    · exact hwob h
    · exact hborde h
  · intro p' hfin hint hrej
    rw [genLoop, if_neg (by rw [hfin]; exact Bool.false_ne_true), if_neg hint,
      hrej]

/-! Concrete instances for the C7 witness. -/

/-- A tiny dictionary compilation for concrete runs. -/
def compAB : Compilation := compile [[["AB", "BC"]]]

/-- Options for the finished-grid and escalation instances
(`wordsOnBorder = 1`, `finishAt = 1`). -/
def oC7b : Options :=
  { compilation := compAB, width := 3, height := 3, wordsOnBorder := 1,
    finishAt := 1, scoreFunction := fun f _ _ => f }

/-- Options with border mode disabled (`wordsOnBorder = 0`, `finishAt = 1`). -/
def oC7n : Options :=
  { compilation := compAB, width := 3, height := 3, wordsOnBorder := 0,
    finishAt := 1, scoreFunction := fun f _ _ => f }

/-- Options below the threshold (`finishAt = 5`). -/
def oC7r : Options :=
  { compilation := compAB, width := 3, height := 3, wordsOnBorder := 0,
    finishAt := 5, scoreFunction := fun f _ _ => f }

/-- An already-finished grid. -/
def mC7fin : Matrix := { generate oC7b with finish := true }

/-- The all-zero draw stream. -/
def rZero : RSeq := fun _ => 0

/-- Witness for C7: the four clauses at concrete inputs.  Clause 4 uses
`ignored = [0, 1]` so that every bucket candidate is filtered out and the
attempt is rejected after its four draws. -/
theorem c7_witness :
    (genLoop oC7b [] rZero 1 7 3 mC7fin = some (.ok (mC7fin, 7))) ∧
    (genLoop oC7b [] rZero 1 0 0 (generate oC7b) =
      (match attempt oC7b [] rZero 0 { generate oC7b with borde := true } with
        | .error e => some (.error e)
        | .ok (some m', p') => some (.ok (m', p'))
        | .ok (none, p') =>
            genLoop oC7b [] rZero 0 p' 0 { generate oC7b with borde := true })) ∧
    (genLoop oC7n [] rZero 1 0 0 (generate oC7n) =
      some (.ok ({ generate oC7n with finish := true }, 0))) ∧
    (genLoop oC7r [0, 1] rZero 1 0 0 (generate oC7r) =
      genLoop oC7r [0, 1] rZero 0 4 1 (generate oC7r)) :=
  ⟨(c7_retry_policy oC7b [] rZero 0 7 3 mC7fin).1 rfl,
    (c7_retry_policy oC7b [] rZero 0 0 0 (generate oC7b)).2.1 rfl (by decide)
      (by decide) rfl,
    (c7_retry_policy oC7n [] rZero 0 0 0 (generate oC7n)).2.2.1 rfl (by decide)
      (Or.inl (by decide)),
    (c7_retry_policy oC7r [0, 1] rZero 0 0 0 (generate oC7r)).2.2.2 4 rfl
      (by decide) (by decide)⟩

/-! ### Claim C1: position choice and the border phase -/

theorem jfloor_nonneg (q : ℚ) (n : Int) (hq : 0 ≤ q) (hn : 0 ≤ n) :
    0 ≤ jfloor q n := by
  rw [jfloor_eq_floor]
  exact Int.le_floor.mpr (by exact_mod_cast mul_nonneg hq (by exact_mod_cast hn))

theorem jfloor_lt (q : ℚ) (n : Int) (hq0 : 0 ≤ q) (hq1 : q < 1) (hn : 0 < n) :
    jfloor q n < n := by
  rw [jfloor_eq_floor]
  refine Int.floor_lt.mpr ?_
  have hn' : (0 : ℚ) < (n : ℚ) := by exact_mod_cast hn
  calc q * (n : ℚ) < 1 * (n : ℚ) := by
        exact mul_lt_mul_of_pos_right hq1 hn'
    _ = (n : ℚ) := one_mul _

theorem jfloor_zero_right (q : ℚ) : jfloor q 0 = 0 := by
  rw [jfloor_eq_floor]
  simp

theorem jfloor_zero_left (n : Int) : jfloor 0 n = 0 := by
  rw [jfloor_eq_floor]
  simp

theorem jfloor_surj (n : Int) (hn : 0 < n) (k : Int) (hk0 : 0 ≤ k)
    (hkn : k < n) : ∃ q : ℚ, 0 ≤ q ∧ q < 1 ∧ jfloor q n = k := by
  refine ⟨(k : ℚ) / (n : ℚ), ?_, ?_, ?_⟩
  · exact div_nonneg (by exact_mod_cast hk0) (by exact_mod_cast le_of_lt hn)
  · rw [div_lt_one (by exact_mod_cast hn)]
    exact_mod_cast hkn
  · rw [jfloor_eq_floor, div_mul_cancel₀ _ (by exact_mod_cast ne_of_gt hn)]
    exact Int.floor_intCast k

theorem jfloor_two (q : ℚ) (hq0 : 0 ≤ q) (hq1 : q < 1) :
    jfloor q 2 = 0 ∨ jfloor q 2 = 1 := by
  have h0 := jfloor_nonneg q 2 hq0 (by norm_num)
  have h2 := jfloor_lt q 2 hq0 hq1 (by norm_num)
  omega

/-- Options of the C1 counterexample: the defaults (border mode enabled) on a
5×5 grid. -/
def oC1 : Options := { compilation := compAB, width := 5, height := 5 }

/-- C1, counterexample: with border mode enabled and the `borde` flag still
unset (the grid has not yet reached the border phase), a vertical word of
length 3 on a 5×5 grid can never start at the in-bounds column `x = 2` — the
position is *not* unconstrained, one coordinate is pinned to an edge; and
once `borde` is set, `x = 2` is produced (by the draw 1/2) — the position is
then *not* pinned.  The claim states the two phases the other way round. -/
theorem c1_counterexample :
    (¬∃ qx qy : ℚ, 0 ≤ qx ∧ qx < 1 ∧
      (choosePosition oC1 true false 3 qx qy).1 = 2) ∧
    (choosePosition oC1 false false 3 (mkRat 1 2) 0).1 = 2 := by
  constructor
  · rintro ⟨qx, qy, hq0, hq1, hx⟩
    rw [choosePosition] at hx
    simp only [if_pos, if_neg, Bool.false_eq_true, if_false, if_true] at hx
    rcases jfloor_two qx hq0 hq1 with h | h <;> rw [h] at hx <;> revert hx <;>
      decide
  · decide

/-- C1, amended: in `#generateQuestion`'s position choice, while border mode
is enabled and the grid's `borde` flag is *unset* (`pinned = true`), one
coordinate is pinned to a grid edge — `x ∈ {0, width-1}` for vertical words,
`y ∈ {0, height-1}` for horizontal words — while the other coordinate stays
within the in-bounds range for the word length; and once the `borde` flag is
set (or border mode is disabled, `pinned = false`), the candidate start is
free: the cross coordinate ranges over the whole dimension and the start
along the word ranges over `[0, max (dim - len) 1)` — every such position is
produced by some draws, and no others (in particular the final valid start
`dim - len` is never drawn when `dim > len`, an off-by-one of the source). -/
theorem c1_position_pinning (o : Options) (len : Int) (qx qy : ℚ)
    (hqx0 : 0 ≤ qx) (hqx1 : qx < 1) (hqy0 : 0 ≤ qy) (hqy1 : qy < 1)
    (hw : 2 ≤ (o.width : Int)) (hh : 2 ≤ (o.height : Int)) (hlen : 2 ≤ len) :
    (len ≤ (o.height : Int) →
      ((choosePosition o true false len qx qy).1 = 0 ∨
        (choosePosition o true false len qx qy).1 = (o.width : Int) - 1) ∧
      0 ≤ (choosePosition o true false len qx qy).2 ∧
      (choosePosition o true false len qx qy).2 + len ≤ (o.height : Int)) ∧
    (len ≤ (o.width : Int) →
      ((choosePosition o true true len qx qy).2 = 0 ∨
        (choosePosition o true true len qx qy).2 = (o.height : Int) - 1) ∧
      0 ≤ (choosePosition o true true len qx qy).1 ∧
      (choosePosition o true true len qx qy).1 + len ≤ (o.width : Int)) ∧
    (len ≤ (o.height : Int) →
      (0 ≤ (choosePosition o false false len qx qy).1 ∧
        (choosePosition o false false len qx qy).1 < (o.width : Int) ∧
        0 ≤ (choosePosition o false false len qx qy).2 ∧
        (choosePosition o false false len qx qy).2 <
          max ((o.height : Int) - len) 1) ∧
      (∀ x0 y0 : Int, 0 ≤ x0 → x0 < (o.width : Int) → 0 ≤ y0 →
        y0 < max ((o.height : Int) - len) 1 →
        ∃ qx' qy' : ℚ, 0 ≤ qx' ∧ qx' < 1 ∧ 0 ≤ qy' ∧ qy' < 1 ∧
          choosePosition o false false len qx' qy' = (x0, y0))) ∧
    (len ≤ (o.width : Int) →
      (0 ≤ (choosePosition o false true len qx qy).2 ∧
        (choosePosition o false true len qx qy).2 < (o.height : Int) ∧
        0 ≤ (choosePosition o false true len qx qy).1 ∧
        (choosePosition o false true len qx qy).1 <
          max ((o.width : Int) - len) 1) ∧
      (∀ x0 y0 : Int, 0 ≤ x0 → x0 < max ((o.width : Int) - len) 1 → 0 ≤ y0 →
        y0 < (o.height : Int) →
        ∃ qx' qy' : ℚ, 0 ≤ qx' ∧ qx' < 1 ∧ 0 ≤ qy' ∧ qy' < 1 ∧
          choosePosition o false true len qx' qy' = (x0, y0))) := by
  refine ⟨?_, ?_, ?_, ?_⟩
  · intro hlh
    rw [choosePosition]
    simp only [if_pos, Bool.false_eq_true, if_false, if_true]
    refine ⟨?_, ?_, ?_⟩
    · rcases jfloor_two qx hqx0 hqx1 with h | h <;> rw [h]
      · exact Or.inl (by ring)
      · exact Or.inr (by ring)
    · exact jfloor_nonneg qy _ hqy0 (by omega)
    · rcases Int.lt_or_le 0 ((o.height : Int) - len) with hpos | hz
      · have := jfloor_lt qy _ hqy0 hqy1 hpos
        omega
      · have hle : (o.height : Int) - len = 0 := by omega
        rw [hle, jfloor_zero_right]
        omega
  · intro hlw
    rw [choosePosition]
    simp only [if_pos, if_true]
    refine ⟨?_, ?_, ?_⟩
    · rcases jfloor_two qy hqy0 hqy1 with h | h <;> rw [h]
      · exact Or.inl (by ring)
      · exact Or.inr (by ring)
    · exact jfloor_nonneg qx _ hqx0 (by omega)
    · rcases Int.lt_or_le 0 ((o.width : Int) - len) with hpos | hz
      · have := jfloor_lt qx _ hqx0 hqx1 hpos
        omega
      · have hle : (o.width : Int) - len = 0 := by omega
        rw [hle, jfloor_zero_right]
        omega
  · intro hlh
    constructor
    · rw [choosePosition]
      simp only [Bool.false_eq_true, if_false]
      refine ⟨jfloor_nonneg qx _ hqx0 (by omega),
        jfloor_lt qx _ hqx0 hqx1 (by omega),
        jfloor_nonneg qy _ hqy0 (by omega), ?_⟩
      rcases Int.lt_or_le 0 ((o.height : Int) - len) with hpos | hz
      · have := jfloor_lt qy _ hqy0 hqy1 hpos
        omega
      · have hle : (o.height : Int) - len = 0 := by omega
        rw [hle, jfloor_zero_right]
        omega
    · intro x0 y0 hx0 hxw hy0 hyl
      rcases jfloor_surj (o.width : Int) (by omega) x0 hx0 hxw with
        ⟨qx', hq1, hq2, hq3⟩
      rcases Int.lt_or_le 0 ((o.height : Int) - len) with hpos | hz
      · rcases jfloor_surj ((o.height : Int) - len) hpos y0 hy0
            (by rw [max_eq_left (by omega)] at hyl; exact hyl) with
          ⟨qy', hr1, hr2, hr3⟩
        refine ⟨qx', qy', hq1, hq2, hr1, hr2, ?_⟩
        rw [choosePosition]
        simp only [Bool.false_eq_true, if_false]
        rw [hq3, hr3]
      · have hy00 : y0 = 0 := by
          rw [max_eq_right (by omega)] at hyl
          omega
        refine ⟨qx', 0, hq1, hq2, le_refl _, by norm_num, ?_⟩
        rw [choosePosition]
        simp only [Bool.false_eq_true, if_false]
        rw [hq3, jfloor_zero_left, hy00]
  · intro hlw
    constructor
    · rw [choosePosition]
      simp only [Bool.false_eq_true, if_false, if_true]
      refine ⟨jfloor_nonneg qy _ hqy0 (by omega),
        jfloor_lt qy _ hqy0 hqy1 (by omega),
        jfloor_nonneg qx _ hqx0 (by omega), ?_⟩
      rcases Int.lt_or_le 0 ((o.width : Int) - len) with hpos | hz
      · have := jfloor_lt qx _ hqx0 hqx1 hpos
        omega
      · have hle : (o.width : Int) - len = 0 := by omega
        rw [hle, jfloor_zero_right]
        omega
    · intro x0 y0 hx0 hxl hy0 hyh
      rcases jfloor_surj (o.height : Int) (by omega) y0 hy0 hyh with
        ⟨qy', hr1, hr2, hr3⟩
      rcases Int.lt_or_le 0 ((o.width : Int) - len) with hpos | hz
      · rcases jfloor_surj ((o.width : Int) - len) hpos x0 hx0
            (by rw [max_eq_left (by omega)] at hxl; exact hxl) with
          ⟨qx', hq1, hq2, hq3⟩
        refine ⟨qx', qy', hq1, hq2, hr1, hr2, ?_⟩
        rw [choosePosition]
        simp only [Bool.false_eq_true, if_false, if_true]
        rw [hq3, hr3]
      · have hx00 : x0 = 0 := by
          rw [max_eq_right (by omega)] at hxl
          omega
        refine ⟨0, qy', le_refl _, by norm_num, hr1, hr2, ?_⟩
        rw [choosePosition]
        simp only [Bool.false_eq_true, if_false, if_true]
        rw [hr3, jfloor_zero_left, hx00]

/-- Witness for C1's amended theorem: the defaults-based options on a 5×5
grid with word length 3 and draws 0. -/
theorem c1_witness :
    (0 : ℚ) ≤ 0 ∧ (0 : ℚ) < 1 ∧ 2 ≤ ((oC1.width : Int)) ∧
      (3 ≤ ((oC1.height : Int)) →
        ((choosePosition oC1 true false 3 0 0).1 = 0 ∨
          (choosePosition oC1 true false 3 0 0).1 = (oC1.width : Int) - 1) ∧
        0 ≤ (choosePosition oC1 true false 3 0 0).2 ∧
        (choosePosition oC1 true false 3 0 0).2 + 3 ≤ (oC1.height : Int)) :=
  ⟨le_refl 0, by norm_num, by decide,
    (c1_position_pinning oC1 3 0 0 (le_refl 0) (by norm_num) (le_refl 0)
      (by norm_num) (by decide) (by decide) (by decide)).1⟩

/-! ### C3: determinism and the ambient stream of `fillEmptySpaces` -/

/-- Options for the C3 run: the dictionary `[[["BA","CA"]]]` on a 4×3 grid. -/
def fOpts : Options :=
  { compilation := compile [[["BA", "CA"]]], width := 4, height := 3,
    scoreFunction := fun f _ _ => f }

/-- An empty cell of the C3 grid. -/
def es4 : Cell := ⟨"·", false, false⟩

/-- A reachable-shaped grid: "AB" placed vertically at (1,0) on the 4×3
grid, as `iterate` writes it. -/
def mFill : Matrix :=
  { cells := [[es4, ⟨"A", true, false⟩, es4, es4],
              [es4, ⟨"B", true, false⟩, es4, es4],
              [es4, es4, es4, es4]],
    questions := [5], questionsData := [⟨5, "AB", false, 1, 0⟩],
    width := 4, height := 3 }

set_option maxRecDepth 1000000 in
/-- C3: `iterate` is a pure function of the seeded stream (two runs with the
same seed, dictionary and options feed it the same stream, so the grid
sequences agree bit for bit), but `fillEmptySpaces` additionally reads the
*ambient* `Math.random()` stream, which is not derived from the seed: on the
same input grid, with everything seed-derived identical, two different
ambient streams yield different final grids, so the end-to-end run is not
reproducible from the seed alone. -/
theorem c3_fill_nondeterminism :
    (∀ r : RSeq, ∀ p : Nat, ∀ ms : List Matrix,
      iterate fOpts [] r p ms = iterate fOpts [] r p ms) ∧
    fillEmptySpaces fOpts [] (fun _ => 0) 0 [mFill] ≠
      fillEmptySpaces fOpts [] (fun _ => mkRat 1 2) 0 [mFill] :=
  ⟨fun _ _ _ => rfl, by decide⟩


/-! ### Claim C9: termination of the fill loop -/


theorem ok_bind {α β : Type} (a : α) (f : α → Except String β) :
    (Except.ok a >>= f) = f a := rfl

theorem bind_eq_ok {α β : Type} {x : Except String α} {f : α → Except String β}
    {b : β} : (x >>= f) = .ok b ↔ ∃ a, x = .ok a ∧ f a = .ok b := by
  cases x <;> simp [ok_bind]
  · intro h
    exact Except.noConfusion h


theorem setCell_questions (m : Matrix) (y x : Int) (f : Cell → Cell)
    (m' : Matrix) (h : setCell m y x f = .ok m') :
    m'.questions = m.questions := by
  rw [setCell] at h
  rcases hc : m.cell? y x with _ | c <;> rw [hc] at h
  · exact Except.noConfusion h
  · cases Except.ok.inj h
    rfl

theorem foldlM_inv {σ α : Type} (g : σ → α → Except String σ) (P : σ → Prop)
    (hg : ∀ s a s', g s a = .ok s' → P s → P s') :
    ∀ (l : List α) (s s' : σ), l.foldlM g s = .ok s' → P s → P s' := by
  intro l
  induction l with
  | nil => intro s s' h hp; rw [List.foldlM_nil] at h; cases Except.ok.inj h; exact hp
  | cons a t ih =>
    intro s s' h hp
    rw [List.foldlM_cons] at h
    rcases bind_eq_ok.mp h with ⟨s1, hs1, hrest⟩
    exact ih s1 s' hrest (hg s a s1 hs1 hp)

theorem foldl_letters_subset (c : Compilation) (ms : List (Nat × String)) :
    ∀ (ws : List Nat) (w : Nat),
      w ∈ ms.foldl (fun ws mt =>
        match c.lettersAt mt with
        | some l => ws.filter (fun w => l.contains w)
        | none => []) ws → w ∈ ws := by
  induction ms with
  | nil => intro ws w h; rw [List.foldl_nil] at h; exact h
  | cons mt rest ih =>
    intro ws w h
    rw [List.foldl_cons] at h
    have := ih _ w h
    rcases hl : c.lettersAt mt with _ | l <;> rw [hl] at this
    · exact absurd this (List.not_mem_nil w)
    · exact List.mem_of_mem_filter this

theorem tryPoint_success (o : Options) (ign : List Nat) (amb : RSeq) (p : Nat)
    (m : Matrix) (pt : Point) (m' : Matrix) (p' : Nat)
    (h : tryPoint o ign amb p m pt = .ok (some m', p')) :
    ∃ idx, idx ∈ o.compilation.lengths.flatten ∧ idx ∉ m.questions ∧
      m'.questions = m.questions ++ [idx] := by
  rw [tryPoint] at h
  rcases bind_eq_ok.mp h with ⟨cs, hcs, h⟩
  cases hhor : pt.horizontal <;>
    simp only [hhor, Bool.false_eq_true, if_false, if_true] at h <;>
    rcases bind_eq_ok.mp h with ⟨ce, hce, h⟩ <;>
    clear hcs hce <;>
    rcases hb : o.compilation.bucket pt.size with _ | ws <;>
    simp only [hb] at h
  · exact absurd (Except.ok.inj h) (by simp)
  ·
    generalize ((if (cs.letter != o.emptySpace) = true then [(0, cs.letter)] else []) ++
      (if (ce.letter != o.emptySpace) = true then [((pt.size - 1).toNat, ce.letter)] else [])) = ms0 at h
    split at h
    rotate_left
    · exact absurd (Except.ok.inj h) (by simp)
    · split at h
      rotate_left
      · exact Except.noConfusion h
      next i heq =>
        split at heq
        · exact Option.noConfusion heq
        · have hmem : i ∈ List.filter (fun w => !m.questions.contains w)
              (List.foldl (fun ws mt =>
                  match o.compilation.lettersAt mt with
                  | some l => List.filter (fun w => l.contains w) ws
                  | none => [])
                (List.filter (fun w => !ign.contains w) ws) ms0) := List.get?_mem heq
          have hnotq : i ∉ m.questions := by
            have := List.of_mem_filter hmem
            simpa using this
          have hinws : i ∈ ws :=
            List.mem_of_mem_filter
              (foldl_letters_subset o.compilation ms0 _ i (List.mem_of_mem_filter hmem))
          have hwsmem : ws ∈ o.compilation.lengths := by
            rw [Compilation.bucket] at hb
            split at hb
            · exact Option.noConfusion hb
            · exact List.get?_mem hb
          rw [pure_bind] at h
          split at h
          rotate_left
          · exact Except.noConfusion h
          next w hw =>
            rcases bind_eq_ok.mp h with ⟨y1, hy1, h⟩
            rcases bind_eq_ok.mp h with ⟨m0, hfold, h⟩
            have hpair := Except.ok.inj h
            rw [Prod.mk.injEq] at hpair
            obtain ⟨hsome, hp'⟩ := hpair
            rw [Option.some.injEq] at hsome
            subst hsome
            have hq0 : m0.questions = m.questions := by
              refine foldlM_inv _ (fun mm => mm.questions = m.questions) ?_ _ m m0 hfold rfl
              intro s a s' hset hs
              rw [setCell_questions _ _ _ _ _ hset]
              exact hs
            refine ⟨i, List.mem_flatten.mpr ⟨ws, hwsmem, hinws⟩, hnotq, ?_⟩
            show addSet m0.questions i = m.questions ++ [i]
            rw [hq0, addSet, if_neg hnotq]
  · exact absurd (Except.ok.inj h) (by simp)
  ·
    generalize ((if (cs.letter != o.emptySpace) = true then [(0, cs.letter)] else []) ++
      (if (ce.letter != o.emptySpace) = true then [((pt.size - 1).toNat, ce.letter)] else [])) = ms0 at h
    split at h
    rotate_left
    · exact absurd (Except.ok.inj h) (by simp)
    · split at h
      rotate_left
      · exact Except.noConfusion h
      next i heq =>
        split at heq
        · exact Option.noConfusion heq
        · have hmem : i ∈ List.filter (fun w => !m.questions.contains w)
              (List.foldl (fun ws mt =>
                  match o.compilation.lettersAt mt with
                  | some l => List.filter (fun w => l.contains w) ws
                  | none => [])
                (List.filter (fun w => !ign.contains w) ws) ms0) := List.get?_mem heq
          have hnotq : i ∉ m.questions := by
            have := List.of_mem_filter hmem
            simpa using this
          have hinws : i ∈ ws :=
            List.mem_of_mem_filter
              (foldl_letters_subset o.compilation ms0 _ i (List.mem_of_mem_filter hmem))
          have hwsmem : ws ∈ o.compilation.lengths := by
            rw [Compilation.bucket] at hb
            split at hb
            · exact Option.noConfusion hb
            · exact List.get?_mem hb
          rw [pure_bind] at h
          split at h
          rotate_left
          · exact Except.noConfusion h
          next w hw =>
            rcases bind_eq_ok.mp h with ⟨y1, hy1, h⟩
            rcases bind_eq_ok.mp h with ⟨m0, hfold, h⟩
            have hpair := Except.ok.inj h
            rw [Prod.mk.injEq] at hpair
            obtain ⟨hsome, hp'⟩ := hpair
            rw [Option.some.injEq] at hsome
            subst hsome
            have hq0 : m0.questions = m.questions := by
              refine foldlM_inv _ (fun mm => mm.questions = m.questions) ?_ _ m m0 hfold rfl
              intro s a s' hset hs
              rw [setCell_questions _ _ _ _ _ hset]
              exact hs
            refine ⟨i, List.mem_flatten.mpr ⟨ws, hwsmem, hinws⟩, hnotq, ?_⟩
            show addSet m0.questions i = m.questions ++ [i]
            rw [hq0, addSet, if_neg hnotq]


theorem tryPoints_success (o : Options) (ign : List Nat) (amb : RSeq)
    (m : Matrix) :
    ∀ (pts : List Point) (p : Nat) (m' : Matrix) (p' : Nat),
      tryPoints o ign amb m pts p = .ok (some m', p') →
      ∃ idx, idx ∈ o.compilation.lengths.flatten ∧ idx ∉ m.questions ∧
        m'.questions = m.questions ++ [idx] := by
  intro pts
  induction pts with
  | nil =>
    intro p m' p' h
    rw [tryPoints] at h
    exact absurd (Except.ok.inj h) (by simp)
  | cons pt rest ih =>
    intro p m' p' h
    rw [tryPoints] at h
    rcases bind_eq_ok.mp h with ⟨r, hr, h⟩
    rcases r with ⟨_ | m1, p1⟩
    · exact ih p1 m' p' h
    · have := Except.ok.inj h
      rw [Prod.mk.injEq, Option.some.injEq] at this
      obtain ⟨h1, h2⟩ := this
      subst h1
      exact tryPoint_success o ign amb p m pt m1 p1 hr

theorem fillPass_success (o : Options) (ign : List Nat) (amb : RSeq)
    (p : Nat) (m m' : Matrix) (p' : Nat)
    (h : fillPass o ign amb p m = .ok (some m', p')) :
    ∃ idx, idx ∈ o.compilation.lengths.flatten ∧ idx ∉ m.questions ∧
      m'.questions = m.questions ++ [idx] := by
  rw [fillPass] at h
  rcases bind_eq_ok.mp h with ⟨pts, hpts, h⟩
  exact tryPoints_success o ign amb m _ p m' p' h

/-- The termination measure of the outer fill loop: bucket word ids not yet
used as questions of `m`. -/
def fillMeasure (o : Options) (m : Matrix) : Nat :=
  (o.compilation.lengths.flatten.dedup.filter
    (fun i => !m.questions.contains i)).length

theorem filter_length_mono {α : Type} (p q : α → Bool)
    (hpq : ∀ a, q a = true → p a = true) :
    ∀ l : List α, (l.filter q).length ≤ (l.filter p).length := by
  intro l
  induction l with
  | nil => simp
  | cons a t ih =>
    by_cases hq : q a = true
    · rw [List.filter_cons_of_pos hq, List.filter_cons_of_pos (hpq a hq)]
      simpa using ih
    · rw [List.filter_cons_of_neg (by simpa using hq)]
      by_cases hp : p a = true
      · rw [List.filter_cons_of_pos hp]
        exact le_trans ih (by simp)
      · rw [List.filter_cons_of_neg (by simpa using hp)]
        exact ih

theorem filter_length_lt {α : Type} (p q : α → Bool)
    (hpq : ∀ a, q a = true → p a = true) :
    ∀ (l : List α) (a : α), a ∈ l → p a = true → q a = false →
      (l.filter q).length < (l.filter p).length := by
  intro l
  induction l with
  | nil => intro a ha; exact absurd ha (List.not_mem_nil a)
  | cons b t ih =>
    intro a ha hpa hqa
    rcases List.mem_cons.mp ha with rfl | hat
    · rw [List.filter_cons_of_neg (by simp [hqa]), List.filter_cons_of_pos hpa]
      exact Nat.lt_succ_of_le (filter_length_mono p q hpq t)
    · by_cases hqb : q b = true
      · rw [List.filter_cons_of_pos hqb, List.filter_cons_of_pos (hpq b hqb)]
        exact Nat.succ_lt_succ (ih a hat hpa hqa)
      · rw [List.filter_cons_of_neg (by simpa using hqb)]
        by_cases hpb : p b = true
        · rw [List.filter_cons_of_pos hpb]
          exact Nat.lt_succ_of_lt (ih a hat hpa hqa)
        · rw [List.filter_cons_of_neg (by simpa using hpb)]
          exact ih a hat hpa hqa

theorem fillMeasure_lt (o : Options) (m m' : Matrix) (idx : Nat)
    (hidx : idx ∈ o.compilation.lengths.flatten) (hnot : idx ∉ m.questions)
    (hq : m'.questions = m.questions ++ [idx]) :
    fillMeasure o m' < fillMeasure o m := by
  rw [fillMeasure, fillMeasure]
  refine filter_length_lt _ _ ?_ _ idx (List.mem_dedup.mpr hidx) ?_ ?_
  · intro a ha
    rw [hq] at ha
    simp only [Bool.not_eq_true'] at ha ⊢
    simp at ha ⊢
    exact ha.1
  · simp [hnot]
  · simp [hq]

theorem fillLoop_isSome (o : Options) (ign : List Nat) (amb : RSeq) :
    ∀ (fuel p : Nat) (m : Matrix), fillMeasure o m < fuel →
      (fillLoop o ign amb fuel p m).isSome = true := by
  intro fuel
  induction fuel with
  | zero => intro p m h; exact absurd h (Nat.not_lt_zero _)
  | succ fuel ih =>
    intro p m h
    rw [fillLoop]
    rcases hp : fillPass o ign amb p m with e | r
    · rfl
    · rcases r with ⟨_ | m1, p1⟩
      · rfl
      · refine ih p1 m1 ?_
        rcases fillPass_success o ign amb p m m1 p1 hp with ⟨idx, h1, h2, h3⟩
        have := fillMeasure_lt o m m1 idx h1 h2 h3
        omega

theorem fillMatrix_isSome (o : Options) (ign : List Nat) (amb : RSeq)
    (p : Nat) (m : Matrix) : (fillMatrix o ign amb p m).isSome = true := by
  rw [fillMatrix]
  refine fillLoop_isSome o ign amb _ p m ?_
  rw [fillFuel, fillMeasure]
  have := List.length_filter_le
    (fun i => !m.questions.contains i) o.compilation.lengths.flatten.dedup
  omega

theorem fillAll_isSome (o : Options) (ign : List Nat) (amb : RSeq) :
    ∀ (ms : List Matrix) (p : Nat) (acc : List Matrix),
      (fillAll o ign amb ms p acc).isSome = true := by
  intro ms
  induction ms with
  | nil => intro p acc; rfl
  | cons m rest ih =>
    intro p acc
    rw [fillAll]
    rcases hm : fillMatrix o ign amb p m with _ | r
    · exact absurd hm (by
        have := fillMatrix_isSome o ign amb p m
        intro hc
        rw [hc] at this
        exact Bool.noConfusion this)
    · rcases r with e | ⟨m1, p1⟩
      · rfl
      · exact ih p1 (acc ++ [m1])


/-- C9: `fillEmptySpaces` terminates on every input population — in the
embedding the outer repeat-until-no-placement loop is run on the fuel
`fillFuel` (one more than the number of distinct word ids in the length
buckets), and a `none` result would mean the JS loop runs forever; the fuel
always suffices because every successful pass appends a fresh bucket word id
to `matrix.questions`, so the result is always `some` — on a fully empty
grid, a fully dense grid, and everything in between. -/
theorem c9_fill_terminates (o : Options) (ignored : List Nat) (amb : RSeq)
    (p : Nat) (matrices : List Matrix) :
    (fillEmptySpaces o ignored amb p matrices).isSome = true := by
  rw [fillEmptySpaces]
  rcases hf : fillAll o ignored amb matrices p [] with _ | r
  · exact absurd hf (by
      have := fillAll_isSome o ignored amb matrices p []
      intro hc
      rw [hc] at this
      exact Bool.noConfusion this)
  · rcases r with e | ⟨ms, p1⟩ <;> rfl


/-! ### Claim C8: exceptions out of `iterate` and `fillEmptySpaces` -/

/-- A grid whose cell array has the configured dimensions. -/
def Shaped (o : Options) (m : Matrix) : Prop :=
  m.cells.length = o.height ∧ ∀ row ∈ m.cells, row.length = o.width

/-- Draws of `random()` lie in `[0, 1)`. -/
def UnitStream (r : RSeq) : Prop := ∀ n, 0 ≤ r n ∧ r n < 1

/-- The option sanity bundle of the no-exception theorem. -/
def GoodOpts (o : Options) : Prop :=
  2 ≤ o.width ∧ 2 ≤ o.height ∧ 3 ≤ o.compilation.lengths.length ∧
    0 ≤ o.minimumLengthFactor ∧ goodComp o.compilation = true

/-- A placement record that lies fully inside the configured grid. -/
def QDGood (o : Options) (q : Question) : Prop :=
  0 ≤ q.x ∧ 0 ≤ q.y ∧
  (q.horizontal = true →
    q.x + q.word.length ≤ (o.width : Int) ∧ q.y < (o.height : Int)) ∧
  (q.horizontal = false →
    q.x < (o.width : Int) ∧ q.y + q.word.length ≤ (o.height : Int))

theorem cell?_ok (o : Options) (m : Matrix) (hs : Shaped o m) (y x : Int)
    (hy0 : 0 ≤ y) (hy1 : y < (o.height : Int)) (hx0 : 0 ≤ x)
    (hx1 : x < (o.width : Int)) : ∃ c, m.cell? y x = some c := by
  rw [Matrix.cell?, if_neg (by omega)]
  have hylt : y.toNat < m.cells.length := by
    rw [hs.1]; omega
  have hrow := List.get?_eq_get hylt
  rw [hrow]
  have hrlen : (m.cells.get ⟨y.toNat, hylt⟩).length = o.width :=
    hs.2 _ (List.get?_mem hrow)
  have hxlt : x.toNat < (m.cells.get ⟨y.toNat, hylt⟩).length := by
    rw [hrlen]; omega
  exact ⟨_, List.get?_eq_get hxlt⟩

theorem getCell_ok (o : Options) (m : Matrix) (hs : Shaped o m) (y x : Int)
    (hy0 : 0 ≤ y) (hy1 : y < (o.height : Int)) (hx0 : 0 ≤ x)
    (hx1 : x < (o.width : Int)) : ∃ c, getCell m y x = .ok c := by
  obtain ⟨c, hc⟩ := cell?_ok o m hs y x hy0 hy1 hx0 hx1
  rw [getCell, hc]
  exact ⟨c, rfl⟩

theorem setCell_ok (o : Options) (m : Matrix) (hs : Shaped o m) (y x : Int)
    (f : Cell → Cell) (hy0 : 0 ≤ y) (hy1 : y < (o.height : Int)) (hx0 : 0 ≤ x)
    (hx1 : x < (o.width : Int)) :
    ∃ m', setCell m y x f = .ok m' ∧ Shaped o m' ∧
      m'.questions = m.questions ∧ m'.questionsData = m.questionsData ∧
      m'.borde = m.borde ∧ m'.finish = m.finish := by
  obtain ⟨c, hc⟩ := cell?_ok o m hs y x hy0 hy1 hx0 hx1
  have hylt : y.toNat < m.cells.length := by
    rw [hs.1]; omega
  have hrow := List.get?_eq_get hylt
  rw [setCell, hc, hrow]
  refine ⟨_, rfl, ⟨?_, ?_⟩, rfl, rfl, rfl, rfl⟩
  · simpa using hs.1
  · intro row hmem
    rcases List.mem_or_eq_of_mem_set hmem with hmem2 | rfl
    · exact hs.2 row hmem2
    · rw [List.length_set, Option.getD_some]
      exact hs.2 _ (List.get?_mem hrow)


theorem targetLength_bounds (o : Options) (qdLen : Nat) (horizontal : Bool)
    (q : ℚ) (hq0 : 0 ≤ q) (hq1 : q < 1) (hw : 2 ≤ (o.width : Int))
    (hh : 2 ≤ (o.height : Int)) (hL : 3 ≤ o.compilation.lengths.length)
    (hmlf : 0 ≤ o.minimumLengthFactor) :
    2 ≤ targetLength o qdLen horizontal q ∧
    targetLength o qdLen horizontal q ≤
      (if horizontal then (o.width : Int) else (o.height : Int)) ∧
    targetLength o qdLen horizontal q < (o.compilation.lengths.length : Int) := by
  rw [targetLength]
  have hfl : ∀ q : ℚ, q.floor = ⌊q⌋ := fun q => by
    rw [Rat.floor_def', Rat.floor_def]
  have hF : 0 ≤ (ratMul (ratOfNat qdLen) o.minimumLengthFactor).floor := by
    rw [ratMul_eq, ratOfNat_eq, hfl]
    refine Int.le_floor.mpr ?_
    push_cast
    exact mul_nonneg (by positivity) hmlf
  have hdiv : (o.compilation.lengths.length / 3 : Nat) ≤
      o.compilation.lengths.length := Nat.div_le_self _ _
  have hdiv1 : 1 ≤ (o.compilation.lengths.length / 3 : Nat) :=
    Nat.one_le_div_iff (by norm_num) |>.mpr (by omega)
  have hjf1 : jfloor q
      (min (if horizontal then (o.width : Int) else (o.height : Int))
        (o.compilation.lengths.length : Int)) <
      min (if horizontal then (o.width : Int) else (o.height : Int))
        (o.compilation.lengths.length : Int) := by
    refine jfloor_lt q _ hq0 hq1 ?_
    rcases horizontal with _ | _ <;> simp only [Bool.false_eq_true, if_false, if_true] <;> omega
  constructor
  · exact le_trans (le_max_left _ _) (le_max_left _ _)
  constructor
  · refine max_le (max_le ?_ ?_) ?_
    · rcases horizontal with _ | _ <;>
        simp only [Bool.false_eq_true, if_false, if_true] <;> omega
    · rcases horizontal with _ | _ <;>
        simp only [Bool.false_eq_true, if_false, if_true] <;>
        [skip; skip] <;> omega
    · rcases horizontal with _ | _ <;>
        simp only [Bool.false_eq_true, if_false, if_true] at hjf1 ⊢ <;> omega
  · refine max_lt (max_lt (by exact_mod_cast by omega) ?_) ?_
    · have : ((o.compilation.lengths.length / 3 : Nat) : Int) ≤
        (o.compilation.lengths.length : Int) := by exact_mod_cast hdiv
      omega
    · rcases horizontal with _ | _ <;>
        simp only [Bool.false_eq_true, if_false, if_true] at hjf1 ⊢ <;> omega


theorem goodComp_bucket (c : Compilation) (hg : goodComp c = true) (n : Int)
    (ws : List Nat) (hb : c.bucket n = some ws) (id : Nat) (hid : id ∈ ws) :
    ∃ s, c.words.get? id = some s ∧ (s.length : Int) = n ∧
      isIndexedWord s = true := by
  rw [Compilation.bucket] at hb
  split at hb
  · exact Option.noConfusion hb
  · rename_i hn
    have hlt : n.toNat < c.lengths.length := by
      by_contra hge
      rw [List.get?_eq_none.mpr (by omega)] at hb
      exact Option.noConfusion hb
    rw [goodComp, Bool.and_eq_true] at hg
    have h1 := List.all_eq_true.mp hg.1 n.toNat
      (List.mem_range.mpr hlt)
    have h2 := List.all_eq_true.mp h1 id
      (by rw [bucketD, hb, Option.getD_some]; exact hid)
    rcases hw : c.words.get? id with _ | s <;> rw [hw] at h2
    · exact Bool.noConfusion h2
    · rw [Bool.and_eq_true, decide_eq_true_eq] at h2
      refine ⟨s, rfl, ?_, h2.2⟩
      rw [h2.1]
      omega

theorem pickWordGo_mem (r : RSeq) (pal qs : List Nat) :
    ∀ (fuel p : Nat) (idx0 : Option Nat) (i : Nat) (p' : Nat),
      pickWordGo r pal qs fuel p idx0 = (some i, p') →
      (i ∈ pal ∨ idx0 = some i) ∧ i ∉ qs := by
  intro fuel
  induction fuel with
  | zero =>
    intro p idx0 i p' h
    rw [pickWordGo.eq_def] at h
    split at h
    · exact Prod.noConfusion h (fun h1 _ => Option.noConfusion h1)
    · rename_i hcond
      have h1 : idx0 = some i := congrArg Prod.fst h
      refine ⟨Or.inr h1, ?_⟩
      rw [h1] at hcond
      simpa using hcond
  | succ fuel ih =>
    intro p idx0 i p' h
    rw [pickWordGo.eq_def] at h
    split at h
    · split at h
      · exact Prod.noConfusion h (fun h1 _ => Option.noConfusion h1)
      · rename_i fuelAll fuel2 hfe
        have hfe2 : fuel2 = fuel := by omega
        subst hfe2
        split at h
        · exact Prod.noConfusion h (fun h1 _ => Option.noConfusion h1)
        · obtain ⟨hres, hnot⟩ := ih (p + 1) _ i p' h
          refine ⟨?_, hnot⟩
          rcases hres with hmem | hsome
          · exact Or.inl hmem
          · split at hsome
            · exact Option.noConfusion hsome
            · exact Or.inl (List.get?_mem hsome)
    · rename_i hcond
      have h1 : idx0 = some i := congrArg Prod.fst h
      refine ⟨Or.inr h1, ?_⟩
      rw [h1] at hcond
      simpa using hcond


theorem foldlM_ok {σ α : Type} (g : σ → α → Except String σ) (P : σ → Prop) :
    ∀ (l : List α), (∀ s a, a ∈ l → P s → ∃ s', g s a = .ok s' ∧ P s') →
      ∀ s, P s → ∃ s', l.foldlM g s = .ok s' ∧ P s' := by
  intro l
  induction l with
  | nil => intro _ s hP; exact ⟨s, rfl, hP⟩
  | cons a t ih =>
    intro hstep s hP
    obtain ⟨s1, hs1, hP1⟩ := hstep s a (List.mem_cons_self a t) hP
    obtain ⟨s', hs', hP'⟩ :=
      ih (fun s b hb hPs => hstep s b (List.mem_cons_of_mem a hb) hPs) s1 hP1
    refine ⟨s', ?_, hP'⟩
    rw [List.foldlM_cons, hs1]
    exact hs'

theorem writeWord_ok (o : Options) (m : Matrix) (horizontal : Bool)
    (x y : Int) (word : String) (len : Nat) (hs : Shaped o m)
    (hhz : horizontal = true →
      0 ≤ y ∧ y < (o.height : Int) ∧ 0 ≤ x ∧ x + len ≤ (o.width : Int))
    (hvt : horizontal = false →
      0 ≤ x ∧ x < (o.width : Int) ∧ 0 ≤ y ∧ y + len ≤ (o.height : Int)) :
    ∃ m', writeWord o m horizontal x y word len = .ok m' ∧ Shaped o m' ∧
      m'.questions = m.questions ∧ m'.questionsData = m.questionsData ∧
      m'.borde = m.borde ∧ m'.finish = m.finish := by
  rw [writeWord]
  have hstep : ∀ (s : Matrix) (i : Nat), i ∈ List.range len →
      (Shaped o s ∧ s.questions = m.questions ∧
        s.questionsData = m.questionsData ∧ s.borde = m.borde ∧
        s.finish = m.finish) →
      ∃ s', (if horizontal then
          setCell s y (x + (i : Int))
            (fun c => { c with letter := normalizeLetter (charAt word i), h := true })
        else
          setCell s (y + (i : Int)) x
            (fun c => { c with letter := normalizeLetter (charAt word i), v := true })) = .ok s' ∧
        (Shaped o s' ∧ s'.questions = m.questions ∧
          s'.questionsData = m.questionsData ∧ s'.borde = m.borde ∧
          s'.finish = m.finish) := by
    intro s i hi hPs
    have hilt : i < len := List.mem_range.mp hi
    rcases horizontal with _ | _
    · obtain ⟨hx0, hx1, hy0, hy1⟩ := hvt rfl
      simp only [Bool.false_eq_true, if_false]
      obtain ⟨s', hset, hsh, hq, hqd, hb, hf⟩ :=
        setCell_ok o s hPs.1 (y + i) x _ (by omega) (by omega) hx0 hx1
      exact ⟨s', hset, hsh, hq.trans hPs.2.1, hqd.trans hPs.2.2.1,
        hb.trans hPs.2.2.2.1, hf.trans hPs.2.2.2.2⟩
    · obtain ⟨hy0, hy1, hx0, hx1⟩ := hhz rfl
      simp only [if_true]
      obtain ⟨s', hset, hsh, hq, hqd, hb, hf⟩ :=
        setCell_ok o s hPs.1 y (x + i) _ hy0 hy1 (by omega) (by omega)
      exact ⟨s', hset, hsh, hq.trans hPs.2.1, hqd.trans hPs.2.2.1,
        hb.trans hPs.2.2.2.1, hf.trans hPs.2.2.2.2⟩
  obtain ⟨m', hm', hP⟩ := foldlM_ok _
    (fun mm => Shaped o mm ∧ mm.questions = m.questions ∧
      mm.questionsData = m.questionsData ∧ mm.borde = m.borde ∧
      mm.finish = m.finish)
    (List.range len) hstep m ⟨hs, rfl, rfl, rfl, rfl⟩
  exact ⟨m', hm', hP.1, hP.2.1, hP.2.2.1, hP.2.2.2.1, hP.2.2.2.2⟩

theorem updateBorde_fields (o : Options) (m : Matrix) :
    (updateBorde o m).cells = m.cells ∧
    (updateBorde o m).questions = m.questions ∧
    (updateBorde o m).questionsData = m.questionsData ∧
    (updateBorde o m).finish = m.finish := by
  rw [updateBorde]
  split <;> exact ⟨rfl, rfl, rfl, rfl⟩

theorem updateBorde_shaped (o : Options) (m : Matrix) (hs : Shaped o m) :
    Shaped o (updateBorde o m) := by
  rw [Shaped, (updateBorde_fields o m).1]
  exact hs


theorem scanStep_ok (o : Options) (m : Matrix) (horizontal : Bool)
    (x y : Int) (i : Nat) (st : ScanState) (hs : Shaped o m)
    (hhz : horizontal = true →
      0 ≤ y ∧ y < (o.height : Int) ∧ 0 ≤ x ∧ x + (i : Int) < (o.width : Int))
    (hvt : horizontal = false →
      0 ≤ x ∧ x < (o.width : Int) ∧ 0 ≤ y ∧ y + (i : Int) < (o.height : Int)) :
    ∃ res, scanStep o m horizontal x y i st = .ok res := by
  rw [scanStep]
  rcases horizontal with _ | _
  · obtain ⟨hx0, hx1, hy0, hy1⟩ := hvt rfl
    simp only [Bool.false_eq_true, if_false]
    obtain ⟨c, hc⟩ := getCell_ok o m hs (y + (i : Int)) x (by omega) hy1 hx0 hx1
    rw [hc, ok_bind]
    by_cases hcv : c.v = true
    · rw [if_pos hcv]
      exact ⟨none, rfl⟩
    · rw [if_neg hcv]
      exact ⟨_, rfl⟩
  · obtain ⟨hy0, hy1, hx0, hx1⟩ := hhz rfl
    simp only [if_true]
    obtain ⟨c, hc⟩ := getCell_ok o m hs y (x + (i : Int)) hy0 hy1 (by omega) hx1
    rw [hc, ok_bind]
    by_cases hch : c.h = true
    · rw [if_pos hch]
      exact ⟨none, rfl⟩
    · rw [if_neg hch]
      exact ⟨_, rfl⟩

theorem scanSpanGo_ok (o : Options) (m : Matrix) (horizontal : Bool)
    (x y : Int) (hs : Shaped o m) :
    ∀ (rem i : Nat) (st : ScanState),
      (horizontal = true →
        0 ≤ y ∧ y < (o.height : Int) ∧ 0 ≤ x ∧
          x + (i : Int) + (rem : Int) ≤ (o.width : Int)) →
      (horizontal = false →
        0 ≤ x ∧ x < (o.width : Int) ∧ 0 ≤ y ∧
          y + (i : Int) + (rem : Int) ≤ (o.height : Int)) →
      ∃ res, scanSpanGo o m horizontal x y i rem st = .ok res := by
  intro rem
  induction rem with
  | zero => intro i st _ _; exact ⟨_, rfl⟩
  | succ rem ih =>
    intro i st hhz hvt
    rw [scanSpanGo]
    obtain ⟨c, hc⟩ := scanStep_ok o m horizontal x y i st hs
      (fun h => by obtain ⟨h1, h2, h3, h4⟩ := hhz h; refine ⟨h1, h2, h3, by push_cast at h4 ⊢; omega⟩)
      (fun h => by obtain ⟨h1, h2, h3, h4⟩ := hvt h; refine ⟨h1, h2, h3, by push_cast at h4 ⊢; omega⟩)
    rw [hc, ok_bind]
    rcases c with _ | st'
    · exact ⟨none, rfl⟩
    · exact ih (i + 1) st'
        (fun h => by obtain ⟨h1, h2, h3, h4⟩ := hhz h; refine ⟨h1, h2, h3, by push_cast at h4 ⊢; omega⟩)
        (fun h => by obtain ⟨h1, h2, h3, h4⟩ := hvt h; refine ⟨h1, h2, h3, by push_cast at h4 ⊢; omega⟩)


theorem choosePosition_bounds (o : Options) (pinned horizontal : Bool)
    (len : Int) (qx qy : ℚ) (hqx0 : 0 ≤ qx) (hqx1 : qx < 1) (hqy0 : 0 ≤ qy)
    (hqy1 : qy < 1) (hw : 1 ≤ (o.width : Int)) (hh : 1 ≤ (o.height : Int))
    (hlen : 0 ≤ len)
    (hlw : horizontal = true → len ≤ (o.width : Int))
    (hlh : horizontal = false → len ≤ (o.height : Int)) :
    0 ≤ (choosePosition o pinned horizontal len qx qy).1 ∧
    0 ≤ (choosePosition o pinned horizontal len qx qy).2 ∧
    (horizontal = true →
      (choosePosition o pinned horizontal len qx qy).1 + len ≤ (o.width : Int) ∧
      (choosePosition o pinned horizontal len qx qy).2 < (o.height : Int)) ∧
    (horizontal = false →
      (choosePosition o pinned horizontal len qx qy).1 < (o.width : Int) ∧
      (choosePosition o pinned horizontal len qx qy).2 + len ≤ (o.height : Int)) := by
  have hxlast : ∀ h : horizontal = true,
      0 ≤ jfloor qx ((o.width : Int) - len) ∧
        jfloor qx ((o.width : Int) - len) + len ≤ (o.width : Int) := by
    intro h
    have hwl := hlw h
    rcases Int.lt_or_le 0 ((o.width : Int) - len) with hpos | hz
    · have h1 := jfloor_nonneg qx ((o.width : Int) - len) hqx0 (by omega)
      have h2 := jfloor_lt qx ((o.width : Int) - len) hqx0 hqx1 hpos
      omega
    · have hz0 : (o.width : Int) - len = 0 := by omega
      rw [hz0, jfloor_zero_right]
      omega
  have hylast : ∀ h : horizontal = false,
      0 ≤ jfloor qy ((o.height : Int) - len) ∧
        jfloor qy ((o.height : Int) - len) + len ≤ (o.height : Int) := by
    intro h
    have hhl := hlh h
    rcases Int.lt_or_le 0 ((o.height : Int) - len) with hpos | hz
    · have h1 := jfloor_nonneg qy ((o.height : Int) - len) hqy0 (by omega)
      have h2 := jfloor_lt qy ((o.height : Int) - len) hqy0 hqy1 hpos
      omega
    · have hz0 : (o.height : Int) - len = 0 := by omega
      rw [hz0, jfloor_zero_right]
      omega
  rcases pinned with _ | _ <;> rcases horizontal with _ | _ <;>
    rw [choosePosition] <;>
    simp only [Bool.false_eq_true, Bool.true_eq_false, if_false, if_true]
  · refine ⟨jfloor_nonneg qx (o.width : Int) hqx0 (by omega), (hylast rfl).1,
      fun h => h.elim,
      fun _ => ⟨jfloor_lt qx (o.width : Int) hqx0 hqx1 (by omega),
        (hylast rfl).2⟩⟩
  · refine ⟨(hxlast rfl).1, jfloor_nonneg qy (o.height : Int) hqy0 (by omega),
      fun _ => ⟨(hxlast rfl).2,
        jfloor_lt qy (o.height : Int) hqy0 hqy1 (by omega)⟩,
      fun h => h.elim⟩
  · have h2 := jfloor_two qx hqx0 hqx1
    refine ⟨?_, (hylast rfl).1, fun h => h.elim,
      fun _ => ⟨?_, (hylast rfl).2⟩⟩
    · rcases h2 with h | h <;> rw [h] <;> omega
    · rcases h2 with h | h <;> rw [h] <;> omega
  · have h2 := jfloor_two qy hqy0 hqy1
    refine ⟨(hxlast rfl).1, ?_, fun _ => ⟨(hxlast rfl).2, ?_⟩,
      fun h => h.elim⟩
    · rcases h2 with h | h <;> rw [h] <;> omega
    · rcases h2 with h | h <;> rw [h] <;> omega

theorem endBusy_ok (o : Options) (m : Matrix) (hs : Shaped o m) (cond : Bool)
    (yy xx : Int)
    (hb : cond = true → 0 ≤ yy ∧ yy < (o.height : Int) ∧ 0 ≤ xx ∧
      xx < (o.width : Int)) :
    ∃ b, endBusy o m cond yy xx = .ok b := by
  rcases cond with _ | _
  · exact ⟨false, rfl⟩
  · obtain ⟨h1, h2, h3, h4⟩ := hb rfl
    obtain ⟨c, hc⟩ := getCell_ok o m hs yy xx h1 h2 h3 h4
    rw [endBusy, if_pos rfl, hc]
    exact ⟨_, rfl⟩

theorem attempt_spec (o : Options) (ign : List Nat) (r : RSeq) (p : Nat)
    (m : Matrix) (ho : GoodOpts o) (hr : UnitStream r) (hs : Shaped o m) :
    ∀ X, attempt o ign r p m = X →
      ∃ res p2, X = .ok (res, p2) ∧ ∀ m', res = some m' → Shaped o m' ∧
        ∃ q, m'.questionsData = m.questionsData ++ [q] ∧ QDGood o q ∧
          isIndexedWord q.word = true ∧
          (q.word.length : Int) = targetLength o m.questionsData.length
            (decide (jfloor (r p) 2 = 1)) (r (p + 1)) := by
  intro X hA
  obtain ⟨hw2, hh2, hL3, hmlf, hgc⟩ := ho
  have hw2' : (2 : Int) ≤ (o.width : Int) := by exact_mod_cast hw2
  have hh2' : (2 : Int) ≤ (o.height : Int) := by exact_mod_cast hh2
  delta attempt at hA
  generalize hHOR : decide (jfloor (r p) 2 = 1) = HOR at hA
  generalize hPIN : decide (o.wordsOnBorder ≠ 0 ∧ ¬m.borde = true) = PIN at hA
  simp only [] at hA
  generalize hLEN : targetLength o m.questionsData.length HOR (r (p + 1)) = LEN at hA
  generalize hPOS : choosePosition o PIN HOR LEN (r (p + 2)) (r (p + 3)) = POS at hA
  have htl := targetLength_bounds o m.questionsData.length HOR (r (p + 1))
    (hr (p + 1)).1 (hr (p + 1)).2 hw2' hh2' hL3 hmlf
  rw [hLEN] at htl
  obtain ⟨htl2, htlsel, htlL⟩ := htl
  have hcp := choosePosition_bounds o PIN HOR LEN (r (p + 2)) (r (p + 3))
    (hr (p + 2)).1 (hr (p + 2)).2 (hr (p + 3)).1 (hr (p + 3)).2 (by omega)
    (by omega) (by omega)
    (fun h => by rw [h] at htlsel; simpa using htlsel)
    (fun h => by rw [h] at htlsel; simpa using htlsel)
  rw [hPOS] at hcp
  obtain ⟨hpx0, hpy0, hphz, hpvt⟩ := hcp
  obtain ⟨ws, hws⟩ : ∃ ws, o.compilation.bucket LEN = some ws := by
    rw [Compilation.bucket, if_neg (by omega)]
    have hlt : LEN.toNat < o.compilation.lengths.length := by omega
    exact ⟨_, List.get?_eq_get hlt⟩
  simp only [hws] at hA
  obtain ⟨b1, hb1⟩ := endBusy_ok o m hs (HOR && decide (0 < POS.1)) POS.2
    (POS.1 - 1) (fun hc => by
      rw [Bool.and_eq_true, decide_eq_true_eq] at hc
      obtain ⟨hh1, hh2⟩ := hphz hc.1
      exact ⟨hpy0, hh2, by omega, by omega⟩)
  obtain ⟨b2, hb2⟩ := endBusy_ok o m hs (HOR && decide (POS.1 < (o.width : Int) - LEN))
    POS.2 (POS.1 + LEN) (fun hc => by
      rw [Bool.and_eq_true, decide_eq_true_eq] at hc
      obtain ⟨hh1, hh2⟩ := hphz hc.1
      exact ⟨hpy0, hh2, by omega, by omega⟩)
  obtain ⟨b3, hb3⟩ := endBusy_ok o m hs (!HOR && decide (0 < POS.2))
    (POS.2 - 1) POS.1 (fun hc => by
      rw [Bool.and_eq_true, Bool.not_eq_true', decide_eq_true_eq] at hc
      obtain ⟨hh1, hh2⟩ := hpvt hc.1
      exact ⟨by omega, by omega, hpx0, hh1⟩)
  obtain ⟨b4, hb4⟩ := endBusy_ok o m hs (!HOR && decide (POS.2 < (o.height : Int) - LEN))
    (POS.2 + LEN) POS.1 (fun hc => by
      rw [Bool.and_eq_true, Bool.not_eq_true', decide_eq_true_eq] at hc
      obtain ⟨hh1, hh2⟩ := hpvt hc.1
      exact ⟨by omega, by omega, hpx0, hh1⟩)
  simp only [hb1, hb2, hb3, hb4, ok_bind] at hA
  by_cases hcc : (b1 || b2 || b3 || b4) = true
  · rw [if_pos hcc] at hA
    exact ⟨none, p + 4, hA.symm, fun _ h => Option.noConfusion h⟩
  rw [if_neg hcc] at hA
  obtain ⟨sres, hscan⟩ := scanSpanGo_ok o m HOR POS.1 POS.2 hs LEN.toNat 0
    ⟨[], [], []⟩
    (fun h => by
      obtain ⟨h1, h2⟩ := hphz h
      refine ⟨hpy0, h2, hpx0, ?_⟩
      push_cast
      omega)
    (fun h => by
      obtain ⟨h1, h2⟩ := hpvt h
      refine ⟨hpx0, h1, hpy0, ?_⟩
      push_cast
      omega)
  rcases sres with _ | st
  · simp only [hscan, ok_bind] at hA
    exact ⟨none, p + 4, hA.symm, fun _ h => Option.noConfusion h⟩
  simp only [hscan, ok_bind] at hA
  by_cases hfl : (List.filter (fun a => !st.vecinoCruce.contains a)
      st.vecinoAdjacente).length > 0
  · rw [if_pos hfl] at hA
    exact ⟨none, p + 4, hA.symm, fun _ h => Option.noConfusion h⟩
  rw [if_neg hfl] at hA
  by_cases hme : st.matchesAcc.length = 0 ∧ o.wordsOnBorder ≠ 0 ∧ m.borde = true
  · rw [if_pos hme] at hA
    exact ⟨none, p + 4, hA.symm, fun _ h => Option.noConfusion h⟩
  rw [if_neg hme] at hA
  generalize hPAL : (if st.matchesAcc.length > 0 then
      List.filter
        (fun palabra =>
          st.matchesAcc.all (fun mt =>
            match o.compilation.lettersAt mt with
            | some l => l.contains palabra
            | none => false))
        (List.filter (fun w => !ign.contains w) ws)
    else List.filter (fun w => !ign.contains w) ws) = PAL at hA
  by_cases hp0 : PAL.length > 0
  rotate_left
  · rw [if_neg hp0] at hA
    exact ⟨none, p + 4, hA.symm, fun _ h => Option.noConfusion h⟩
  rw [if_pos hp0] at hA
  rcases hpick : pickWordGo r PAL m.questions 100 (p + 4) none with ⟨oi, p'⟩
  rcases oi with _ | idx
  · simp only [hpick] at hA
    exact ⟨none, p', hA.symm, fun _ h => Option.noConfusion h⟩
  simp only [hpick] at hA
  have hidxws : idx ∈ ws := by
    have hmem := (pickWordGo_mem r PAL m.questions 100 (p + 4) none idx p' hpick).1
    rcases hmem with hmem | hc
    · rw [← hPAL] at hmem
      split at hmem
      · exact List.mem_of_mem_filter (List.mem_of_mem_filter hmem)
      · exact List.mem_of_mem_filter hmem
    · exact Option.noConfusion hc
  obtain ⟨s, hword, hslen, hsidx⟩ :=
    goodComp_bucket o.compilation hgc LEN ws hws idx hidxws
  simp only [hword, pure_bind] at hA
  obtain ⟨m2, hwr, hsh2, hq2, hqd2, hbo2, hf2⟩ :=
    writeWord_ok o m HOR POS.1 POS.2 s LEN.toNat hs
      (fun h => by
        obtain ⟨h1, h2⟩ := hphz h
        refine ⟨hpy0, h2, hpx0, ?_⟩
        push_cast
        omega)
      (fun h => by
        obtain ⟨h1, h2⟩ := hpvt h
        refine ⟨hpx0, h1, hpy0, ?_⟩
        push_cast
        omega)
  simp only [hwr, ok_bind] at hA
  refine ⟨some _, p', hA.symm, fun m' hm' => ?_⟩
  rw [← Option.some.inj hm']
  refine ⟨updateBorde_shaped o _ hsh2, ⟨idx, s, HOR, POS.1, POS.2⟩, ?_, ?_, ?_, ?_⟩
  · rw [(updateBorde_fields o _).2.2.1]
    simp only []
    rw [hqd2]
  · refine ⟨hpx0, hpy0, fun hh => ?_, fun hh => ?_⟩
    · obtain ⟨h1, h2⟩ := hphz hh
      exact ⟨by simp only []; omega, h2⟩
    · obtain ⟨h1, h2⟩ := hpvt hh
      exact ⟨h1, by simp only []; omega⟩
  · exact hsidx
  · exact hslen

theorem attempt_ok (o : Options) (ign : List Nat) (r : RSeq) (p : Nat)
    (m : Matrix) (ho : GoodOpts o) (hr : UnitStream r) (hs : Shaped o m) :
    ∃ res p2, attempt o ign r p m = .ok (res, p2) ∧
      ∀ m', res = some m' → Shaped o m' := by
  obtain ⟨res, p2, hX, hsh⟩ := attempt_spec o ign r p m ho hr hs _ rfl
  exact ⟨res, p2, hX, fun m' hm' => (hsh m' hm').1⟩


theorem genLoop_ok (o : Options) (ign : List Nat) (r : RSeq)
    (ho : GoodOpts o) (hr : UnitStream r) :
    ∀ (fuel p intento : Nat) (m : Matrix), Shaped o m →
      intento < o.finishAt →
      (if o.wordsOnBorder ≠ 0 ∧ ¬m.borde = true then 2 * o.finishAt - intento
        else o.finishAt - intento) < fuel →
      ∃ m' p', genLoop o ign r fuel p intento m = some (.ok (m', p')) ∧
        Shaped o m' := by
  intro fuel
  induction fuel with
  | zero =>
    intro p intento m _ _ hlt
    exact absurd hlt (Nat.not_lt_zero _)
  | succ fuel ih =>
    intro p intento m hs hint hfuel
    rw [genLoop]
    by_cases hfin : m.finish = true
    · rw [if_pos hfin]
      exact ⟨m, p, rfl, hs⟩
    rw [if_neg hfin]
    by_cases hred : intento + 1 = o.finishAt
    · rw [if_pos hred]
      by_cases hbphase : o.wordsOnBorder ≠ 0 ∧ ¬m.borde = true
      · rw [if_pos hbphase]
        have hs' : Shaped o { m with borde := true } := hs
        obtain ⟨res, p2, hat, hshres⟩ :=
          attempt_ok o ign r p { m with borde := true } ho hr hs'
        rw [hat]
        rcases res with _ | m1
        · rw [if_pos hbphase] at hfuel
          obtain ⟨m', p', hrec, hsh'⟩ := ih p2 0 { m with borde := true } hs'
            (by omega)
            (by
              rw [if_neg (fun hc => by simp at hc)]
              omega)
          exact ⟨m', p', hrec, hsh'⟩
        · exact ⟨m1, p2, rfl, hshres m1 rfl⟩
      · rw [if_neg hbphase]
        exact ⟨{ m with finish := true }, p, rfl, hs⟩
    · rw [if_neg hred]
      obtain ⟨res, p2, hat, hshres⟩ := attempt_ok o ign r p m ho hr hs
      rw [hat]
      rcases res with _ | m1
      · obtain ⟨m', p', hrec, hsh'⟩ := ih p2 (intento + 1) m hs (by omega)
          (by
            by_cases hbb : o.wordsOnBorder ≠ 0 ∧ ¬m.borde = true <;>
              [rw [if_pos hbb] at hfuel ⊢; rw [if_neg hbb] at hfuel ⊢] <;>
              omega)
        exact ⟨m', p', hrec, hsh'⟩
      · exact ⟨m1, p2, rfl, hshres m1 rfl⟩

theorem generateQuestion_ok (o : Options) (ign : List Nat) (r : RSeq)
    (p : Nat) (m : Matrix) (ho : GoodOpts o) (hr : UnitStream r)
    (hs : Shaped o m) (hfa : 1 ≤ o.finishAt) :
    ∃ m' p', generateQuestion o ign r p m = some (.ok (m', p')) ∧
      Shaped o m' := by
  rw [generateQuestion]
  refine genLoop_ok o ign r ho hr (2 * o.finishAt + 2) p 0 m hs (by omega) ?_
  split <;> omega


theorem annotate_shaped (o : Options) (m : Matrix) (hs : Shaped o m) :
    Shaped o (annotate o m) := hs

theorem mem_dedupByHash (l : List Matrix) (x : Matrix)
    (hx : x ∈ dedupByHash l) : x ∈ l := by
  rw [dedupByHash] at hx
  suffices h : ∀ acc : List Int × List Matrix,
      x ∈ (l.foldl (fun acc m =>
        if m.hash ∈ acc.1 then acc else (acc.1 ++ [m.hash], acc.2 ++ [m])) acc).2 →
      x ∈ acc.2 ∨ x ∈ l by
    rcases h ([], []) hx with hc | hc
    · exact absurd hc (List.not_mem_nil x)
    · exact hc
  clear hx
  induction l with
  | nil => intro acc hx; exact Or.inl hx
  | cons a t ih =>
    intro acc hx
    rw [List.foldl_cons] at hx
    rcases ih _ hx with hc | hc
    · split at hc
      · exact Or.inl hc
      · rcases List.mem_append.mp hc with hc2 | hc2
        · exact Or.inl hc2
        · exact Or.inr (List.mem_cons.mpr (Or.inl (List.mem_singleton.mp hc2)))
    · exact Or.inr (List.mem_cons_of_mem a hc)

theorem selectSolutions_mem (o : Options) (sols : List Matrix) (k : Nat)
    (x : Matrix) (hx : x ∈ selectSolutions o sols k) :
    ∃ m0, m0 ∈ sols ∧ x = annotate o m0 := by
  rw [selectSolutions] at hx
  have h1 := List.take_subset _ _ hx
  rw [mem_sortDesc] at h1
  have h2 := mem_dedupByHash _ _ h1
  obtain ⟨m0, hm0, hxeq⟩ := List.mem_map.mp h2
  exact ⟨m0, hm0, hxeq.symm⟩

theorem iterateWords_ok (o : Options) (ign : List Nat) (r : RSeq)
    (ho : GoodOpts o) (hr : UnitStream r) (hfa : 1 ≤ o.finishAt) :
    ∀ (k p : Nat) (m : Matrix), Shaped o m →
      ∃ m' p', iterateWords o ign r k p m = some (.ok (m', p')) ∧
        Shaped o m' := by
  intro k
  induction k with
  | zero => intro p m hs; exact ⟨m, p, rfl, hs⟩
  | succ k ih =>
    intro p m hs
    obtain ⟨m1, p1, hgen, hsh1⟩ := generateQuestion_ok o ign r p m ho hr hs hfa
    obtain ⟨m', p', hrec, hsh'⟩ := ih p1 m1 hsh1
    refine ⟨m', p', ?_, hsh'⟩
    rw [iterateWords, hgen]
    exact hrec

theorem iterateGo_ok (o : Options) (ign : List Nat) (r : RSeq)
    (matrices : List Matrix) (ho : GoodOpts o) (hr : UnitStream r)
    (hfa : 1 ≤ o.finishAt) (hne : matrices ≠ [])
    (hall : ∀ mm ∈ matrices, Shaped o mm) :
    ∀ (rem i p : Nat) (sols : List Matrix),
      i + rem ≤ o.solutionsPerIteration → (∀ s ∈ sols, Shaped o s) →
      ∃ sols' p',
        iterateGo o ign r matrices i rem p sols = some (.ok (sols', p')) ∧
        ∀ s ∈ sols', Shaped o s := by
  intro rem
  induction rem with
  | zero => intro i p sols _ hsols; exact ⟨sols, p, rfl, hsols⟩
  | succ rem ih =>
    intro i p sols hle hsols
    have hLpos : 0 < matrices.length := List.length_pos.mpr hne
    have hidx : matrices.length * i / o.solutionsPerIteration <
        matrices.length := by
      refine Nat.div_lt_iff_lt_mul (by omega) |>.mpr ?_
      exact mul_lt_mul_of_pos_left (by omega) hLpos
    have hget := List.get?_eq_get hidx
    obtain ⟨m1, p1, hw, hsh1⟩ := iterateWords_ok o ign r ho hr hfa
      o.wordsPerIteration p (matrices.get ⟨_, hidx⟩)
      (hall _ (List.get_mem matrices _ hidx))
    obtain ⟨sols', p', hrec, hsh'⟩ := ih (i + 1) p1 (sols ++ [m1])
      (by omega)
      (fun s hsmem => by
        rcases List.mem_append.mp hsmem with hc | hc
        · exact hsols s hc
        · rw [List.mem_singleton.mp hc]; exact hsh1)
    refine ⟨sols', p', ?_, hsh'⟩
    rw [iterateGo]
    simp only [hget, hw]
    exact hrec

theorem iterate_ok (o : Options) (ign : List Nat) (r : RSeq) (p : Nat)
    (matrices : List Matrix) (ho : GoodOpts o) (hr : UnitStream r)
    (hfa : 1 ≤ o.finishAt) (hne : matrices ≠ [])
    (hall : ∀ mm ∈ matrices, Shaped o mm) :
    ∃ sols p', iterate o ign r p matrices = some (.ok (sols, p')) ∧
      ∀ s ∈ sols, Shaped o s := by
  rw [iterate]
  obtain ⟨sols0, p', hgo, hsh⟩ := iterateGo_ok o ign r matrices ho hr hfa hne
    hall o.solutionsPerIteration 0 p [] (by omega)
    (fun s hsmem => absurd hsmem (List.not_mem_nil s))
  rw [hgo]
  refine ⟨_, p', rfl, ?_⟩
  intro s hsmem
  obtain ⟨m0, hm0, hseq⟩ := selectSolutions_mem o sols0 _ s hsmem
  rw [hseq]
  exact annotate_shaped o m0 (hsh m0 hm0)


theorem guardedLook_ok (o : Options) (m : Matrix) (hs : Shaped o m) (P : Prop)
    [Decidable P] (yy xx : Int) (f : Cell → Bool)
    (hb : P → 0 ≤ yy ∧ yy < (o.height : Int) ∧ 0 ≤ xx ∧ xx < (o.width : Int)) :
    ∃ b, (if P then (getCell m yy xx).map f else pure false) = .ok b := by
  by_cases hP : P
  · obtain ⟨h1, h2, h3, h4⟩ := hb hP
    obtain ⟨c, hc⟩ := getCell_ok o m hs yy xx h1 h2 h3 h4
    rw [if_pos hP, hc]
    exact ⟨f c, rfl⟩
  · rw [if_neg hP]
    exact ⟨false, rfl⟩

theorem extendLeftAux_ok (o : Options) (m : Matrix) (y : Int)
    (hs : Shaped o m) (hy0 : 0 ≤ y) (hy1 : y < (o.height : Int)) :
    ∀ k : Nat, (k : Int) ≤ (o.width : Int) →
      ∃ res, extendLeftAux o m y k = .ok res ∧ 0 ≤ res.1 := by
  intro k
  induction k with
  | zero => intro _; exact ⟨(0, false), rfl, le_refl 0⟩
  | succ k ih =>
    intro hk
    rw [extendLeftAux]
    obtain ⟨c, hc⟩ := getCell_ok o m hs y (k : Int) hy0 hy1 (by positivity)
      (by push_cast at hk ⊢; omega)
    simp only [hc, ok_bind]
    by_cases hch : c.h = true
    · rw [if_pos hch]
      exact ⟨_, rfl, by positivity⟩
    rw [if_neg hch]
    by_cases hcv : c.v = true
    · rw [if_pos hcv]
      exact ⟨_, rfl, by positivity⟩
    rw [if_neg hcv]
    obtain ⟨ab, hab⟩ := endBusy_ok o m hs (decide (0 < y)) (y - 1) (k : Int)
      (fun hP => by
        rw [decide_eq_true_eq] at hP
        exact ⟨by omega, by omega, by positivity, by push_cast at hk ⊢; omega⟩)
    simp only [hab, ok_bind]
    rcases ab with _ | _
    · simp only [Bool.false_eq_true, if_false]
      obtain ⟨bb, hbb⟩ := endBusy_ok o m hs
        (decide (y < (o.height : Int) - 1)) (y + 1) (k : Int)
        (fun hP => by
          rw [decide_eq_true_eq] at hP
          exact ⟨by omega, by omega, by positivity, by push_cast at hk ⊢; omega⟩)
      simp only [hbb, ok_bind]
      rcases bb with _ | _
      · simp only [Bool.false_eq_true, if_false]
        exact ih (by push_cast at hk ⊢; omega)
      · simp only [if_true]
        exact ⟨_, rfl, by positivity⟩
    · simp only [if_true]
      exact ⟨_, rfl, by positivity⟩

theorem extendLeft_ok (o : Options) (m : Matrix) (y x1 : Int)
    (hs : Shaped o m) (hy0 : 0 ≤ y) (hy1 : y < (o.height : Int))
    (hx1 : x1 < (o.width : Int)) :
    ∃ res, extendLeft o m y x1 = .ok res ∧ 0 ≤ res.1 := by
  rw [extendLeft]
  by_cases hneg : x1 < 0
  · rw [if_pos hneg]
    exact ⟨(0, false), rfl, le_refl 0⟩
  · rw [if_neg hneg]
    exact extendLeftAux_ok o m y hs hy0 hy1 (x1.toNat + 1) (by omega)


theorem extendRightAux_ok (o : Options) (m : Matrix) (y : Int)
    (hs : Shaped o m) (hy0 : 0 ≤ y) (hy1 : y < (o.height : Int)) :
    ∀ k : Nat, (k : Int) ≤ (o.width : Int) →
      ∃ res, extendRightAux o m y k = .ok res ∧
        res.1 ≤ (o.width : Int) - 1 := by
  intro k
  induction k with
  | zero => intro _; exact ⟨_, rfl, by omega⟩
  | succ k ih =>
    intro hk
    rw [extendRightAux]
    obtain ⟨c, hc⟩ := getCell_ok o m hs y ((o.width : Int) - (k + 1)) hy0 hy1
      (by push_cast at hk ⊢; omega) (by omega)
    simp only [hc, ok_bind]
    by_cases hch : c.h = true
    · rw [if_pos hch]
      exact ⟨_, rfl, by omega⟩
    rw [if_neg hch]
    by_cases hcv : c.v = true
    · rw [if_pos hcv]
      exact ⟨_, rfl, by omega⟩
    rw [if_neg hcv]
    obtain ⟨ab, hab⟩ := endBusy_ok o m hs (decide (0 < y)) (y - 1)
      ((o.width : Int) - (k + 1))
      (fun hP => by
        rw [decide_eq_true_eq] at hP
        exact ⟨by omega, by omega, by push_cast at hk ⊢; omega, by omega⟩)
    simp only [hab, ok_bind]
    rcases ab with _ | _
    · simp only [Bool.false_eq_true, if_false]
      obtain ⟨bb, hbb⟩ := endBusy_ok o m hs
        (decide (y < (o.height : Int) - 1)) (y + 1)
        ((o.width : Int) - (k + 1))
        (fun hP => by
          rw [decide_eq_true_eq] at hP
          exact ⟨by omega, by omega, by push_cast at hk ⊢; omega, by omega⟩)
      simp only [hbb, ok_bind]
      rcases bb with _ | _
      · simp only [Bool.false_eq_true, if_false]
        exact ih (by push_cast at hk ⊢; omega)
      · simp only [if_true]
        exact ⟨_, rfl, by omega⟩
    · simp only [if_true]
      exact ⟨_, rfl, by omega⟩

theorem extendRight_ok (o : Options) (m : Matrix) (y x2 : Int)
    (hs : Shaped o m) (hy0 : 0 ≤ y) (hy1 : y < (o.height : Int))
    (hx2 : 0 ≤ x2) :
    ∃ res, extendRight o m y x2 = .ok res ∧ res.1 ≤ (o.width : Int) - 1 := by
  rw [extendRight]
  by_cases hge : (o.width : Int) ≤ x2
  · rw [if_pos hge]
    exact ⟨_, rfl, by omega⟩
  · rw [if_neg hge]
    exact extendRightAux_ok o m y hs hy0 hy1 ((o.width : Int) - x2).toNat
      (by omega)

theorem extendUpAux_ok (o : Options) (m : Matrix) (x : Int)
    (hs : Shaped o m) (hx0 : 0 ≤ x) (hx1 : x < (o.width : Int)) :
    ∀ k : Nat, (k : Int) ≤ (o.height : Int) →
      ∃ res, extendUpAux o m x k = .ok res ∧ 0 ≤ res.1 := by
  intro k
  induction k with
  | zero => intro _; exact ⟨(0, false), rfl, le_refl 0⟩
  | succ k ih =>
    intro hk
    rw [extendUpAux]
    obtain ⟨c, hc⟩ := getCell_ok o m hs (k : Int) x (by positivity)
      (by push_cast at hk ⊢; omega) hx0 hx1
    simp only [hc, ok_bind]
    by_cases hcv : c.v = true
    · rw [if_pos hcv]
      exact ⟨_, rfl, by positivity⟩
    rw [if_neg hcv]
    by_cases hch : c.h = true
    · rw [if_pos hch]
      exact ⟨_, rfl, by positivity⟩
    rw [if_neg hch]
    obtain ⟨ab, hab⟩ := endBusy_ok o m hs (decide (0 < x)) (k : Int) (x - 1)
      (fun hP => by
        rw [decide_eq_true_eq] at hP
        exact ⟨by positivity, by push_cast at hk ⊢; omega, by omega, by omega⟩)
    simp only [hab, ok_bind]
    rcases ab with _ | _
    · simp only [Bool.false_eq_true, if_false]
      obtain ⟨bb, hbb⟩ := endBusy_ok o m hs
        (decide (x < (o.width : Int) - 1)) (k : Int) (x + 1)
        (fun hP => by
          rw [decide_eq_true_eq] at hP
          exact ⟨by positivity, by push_cast at hk ⊢; omega, by omega, by omega⟩)
      simp only [hbb, ok_bind]
      rcases bb with _ | _
      · simp only [Bool.false_eq_true, if_false]
        exact ih (by push_cast at hk ⊢; omega)
      · simp only [if_true]
        exact ⟨_, rfl, by positivity⟩
    · simp only [if_true]
      exact ⟨_, rfl, by positivity⟩

theorem extendUp_ok (o : Options) (m : Matrix) (x y1 : Int)
    (hs : Shaped o m) (hx0 : 0 ≤ x) (hx1 : x < (o.width : Int))
    (hy1 : y1 < (o.height : Int)) :
    ∃ res, extendUp o m x y1 = .ok res ∧ 0 ≤ res.1 := by
  rw [extendUp]
  by_cases hneg : y1 < 0
  · rw [if_pos hneg]
    exact ⟨(0, false), rfl, le_refl 0⟩
  · rw [if_neg hneg]
    exact extendUpAux_ok o m x hs hx0 hx1 (y1.toNat + 1) (by omega)

theorem extendDownAux_ok (o : Options) (m : Matrix) (x : Int)
    (hs : Shaped o m) (hx0 : 0 ≤ x) (hx1 : x < (o.width : Int)) :
    ∀ k : Nat, (k : Int) ≤ (o.height : Int) →
      ∃ res, extendDownAux o m x k = .ok res ∧
        res.1 ≤ (o.height : Int) - 1 := by
  intro k
  induction k with
  | zero => intro _; exact ⟨_, rfl, by omega⟩
  | succ k ih =>
    intro hk
    rw [extendDownAux]
    obtain ⟨c, hc⟩ := getCell_ok o m hs ((o.height : Int) - (k + 1)) x
      (by push_cast at hk ⊢; omega) (by omega) hx0 hx1
    simp only [hc, ok_bind]
    by_cases hcv : c.v = true
    · rw [if_pos hcv]
      exact ⟨_, rfl, by omega⟩
    rw [if_neg hcv]
    by_cases hch : c.h = true
    · rw [if_pos hch]
      exact ⟨_, rfl, by omega⟩
    rw [if_neg hch]
    obtain ⟨ab, hab⟩ := endBusy_ok o m hs (decide (0 < x))
      ((o.height : Int) - (k + 1)) (x - 1)
      (fun hP => by
        rw [decide_eq_true_eq] at hP
        exact ⟨by push_cast at hk ⊢; omega, by omega, by omega, by omega⟩)
    simp only [hab, ok_bind]
    rcases ab with _ | _
    · simp only [Bool.false_eq_true, if_false]
      obtain ⟨bb, hbb⟩ := endBusy_ok o m hs
        (decide (x < (o.width : Int) - 1))
        ((o.height : Int) - (k + 1)) (x + 1)
        (fun hP => by
          rw [decide_eq_true_eq] at hP
          exact ⟨by push_cast at hk ⊢; omega, by omega, by omega, by omega⟩)
      simp only [hbb, ok_bind]
      rcases bb with _ | _
      · simp only [Bool.false_eq_true, if_false]
        exact ih (by push_cast at hk ⊢; omega)
      · simp only [if_true]
        exact ⟨_, rfl, by omega⟩
    · simp only [if_true]
      exact ⟨_, rfl, by omega⟩

theorem extendDown_ok (o : Options) (m : Matrix) (x y2 : Int)
    (hs : Shaped o m) (hx0 : 0 ≤ x) (hx1 : x < (o.width : Int))
    (hy2 : 0 ≤ y2) :
    ∃ res, extendDown o m x y2 = .ok res ∧
      res.1 ≤ (o.height : Int) - 1 := by
  rw [extendDown]
  by_cases hge : (o.height : Int) ≤ y2
  · rw [if_pos hge]
    exact ⟨_, rfl, by omega⟩
  · rw [if_neg hge]
    exact extendDownAux_ok o m x hs hx0 hx1 ((o.height : Int) - y2).toNat
      (by omega)


/-- The bounds of every run returned by the scan. -/
def GoodPoint (o : Options) (pt : Point) : Prop :=
  2 ≤ pt.size ∧
  (pt.horizontal = true → 0 ≤ pt.y ∧ pt.y < (o.height : Int) ∧ 0 ≤ pt.x ∧
    pt.x + pt.size ≤ (o.width : Int)) ∧
  (pt.horizontal = false → 0 ≤ pt.x ∧ pt.x < (o.width : Int) ∧ 0 ≤ pt.y ∧
    pt.y + pt.size ≤ (o.height : Int))

theorem scanCell_ok (o : Options) (m : Matrix) (x y : Int) (hs : Shaped o m)
    (hx0 : 0 ≤ x) (hx1 : x < (o.width : Int)) (hy0 : 0 ≤ y)
    (hy1 : y < (o.height : Int)) :
    ∃ pts, scanCell o m x y = .ok pts ∧ ∀ pt ∈ pts, GoodPoint o pt := by
  rw [scanCell]
  obtain ⟨c, hc⟩ := getCell_ok o m hs y x hy0 hy1 hx0 hx1
  simp only [hc, ok_bind]
  by_cases hce : (c.letter != o.emptySpace) = true
  · rw [if_pos hce]
    exact ⟨[], rfl, fun pt hpt => absurd hpt (List.not_mem_nil pt)⟩
  rw [if_neg hce]
  obtain ⟨l, hl, hl1⟩ := extendLeft_ok o m y x hs hy0 hy1 hx1
  simp only [hl, ok_bind]
  obtain ⟨rr, hrr, hr1⟩ := extendRight_ok o m y x hs hy0 hy1 hx0
  simp only [hrr, ok_bind]
  obtain ⟨u, hu, hu1⟩ := extendUp_ok o m x y hs hx0 hx1 hy1
  simp only [hu, ok_bind]
  obtain ⟨d, hd, hd1⟩ := extendDown_ok o m x y hs hx0 hx1 hy0
  simp only [hd, ok_bind]
  refine ⟨_, rfl, ?_⟩
  intro pt hpt
  rcases List.mem_append.mp hpt with hmem | hmem
  · split at hmem
    · rename_i hguard
      rw [Bool.and_eq_true, decide_eq_true_eq] at hguard
      have hpt0 : pt = ⟨l.1, y, rr.1 + 1 - l.1, true⟩ := by
        rcases List.mem_cons.mp hmem with h | h
        · exact h
        · split at h
          · exact List.eq_of_mem_replicate h
          · exact absurd h (List.not_mem_nil pt)
      rw [hpt0, GoodPoint]
      refine ⟨by simp only []; omega,
        fun _ => ⟨hy0, hy1, by simp only []; omega, by simp only []; omega⟩,
        fun h => Bool.noConfusion h⟩
    · exact absurd hmem (List.not_mem_nil pt)
  · split at hmem
    · rename_i hguard
      rw [Bool.and_eq_true, decide_eq_true_eq] at hguard
      have hpt0 : pt = ⟨x, u.1, d.1 + 1 - u.1, false⟩ :=
        List.mem_singleton.mp hmem
      rw [hpt0, GoodPoint]
      refine ⟨by simp only []; omega,
        fun h => Bool.noConfusion h,
        fun _ => ⟨hx0, hx1, by simp only []; omega, by simp only []; omega⟩⟩
    · exact absurd hmem (List.not_mem_nil pt)

theorem scanAll_ok (o : Options) (m : Matrix) (hs : Shaped o m) :
    ∃ pts, scanAll o m = .ok pts ∧ ∀ pt ∈ pts, GoodPoint o pt := by
  rw [scanAll]
  have hmain := foldlM_ok
    (fun pts x =>
      (List.range o.height).foldlM
        (fun pts y => do
          let newPts ← scanCell o m x y
          return pts ++ newPts)
        pts)
    (fun acc => ∀ pt ∈ acc, GoodPoint o pt)
    (List.range o.width) ?_ [] (fun pt hpt => absurd hpt (List.not_mem_nil pt))
  · obtain ⟨pts, hpts, hgood⟩ := hmain
    exact ⟨pts, hpts, hgood⟩
  · intro s x hxmem hps
    obtain ⟨a, ha, rfl⟩ : ∃ a, a < o.width ∧ x = (a : Int) := by
      simpa using hxmem
    have hxlt := ha
    refine foldlM_ok _ (fun acc => ∀ pt ∈ acc, GoodPoint o pt) _ ?_ s hps
    intro s2 y hymem hps2
    obtain ⟨b, hb, rfl⟩ : ∃ b, b < o.height ∧ y = (b : Int) := by
      simpa using hymem
    have hylt := hb
    obtain ⟨newPts, hnew, hgood⟩ := scanCell_ok o m (a : Int) (b : Int) hs
      (by positivity) (by exact_mod_cast hxlt) (by positivity)
      (by exact_mod_cast hylt)
    refine ⟨s2 ++ newPts, ?_, ?_⟩
    · simp only [hnew, ok_bind]
      rfl
    · intro pt hpt
      rcases List.mem_append.mp hpt with hmem | hmem
      · exact hps2 pt hmem
      · exact hgood pt hmem


theorem tryPoint_spec (o : Options) (ign : List Nat) (amb : RSeq) (p : Nat)
    (m : Matrix) (pt : Point) (hs : Shaped o m)
    (hgc : goodComp o.compilation = true) (hamb : UnitStream amb)
    (hpt : GoodPoint o pt) :
    ∀ X, tryPoint o ign amb p m pt = X →
      ∃ res p', X = .ok (res, p') ∧ ∀ m', res = some m' → Shaped o m' ∧
        ∃ q, m'.questionsData = m.questionsData ++ [q] ∧ QDGood o q ∧
          isIndexedWord q.word = true ∧ q.word.length = pt.size.toNat ∧
          q.x = pt.x ∧ q.y = pt.y ∧ q.horizontal = pt.horizontal := by
  intro X hA
  rw [tryPoint] at hA
  obtain ⟨hsz, hhz, hvt⟩ := hpt
  have hbxy : 0 ≤ pt.y ∧ pt.y < (o.height : Int) ∧ 0 ≤ pt.x ∧
      pt.x < (o.width : Int) := by
    rcases hht : pt.horizontal with _ | _
    · obtain ⟨h1, h2, h3, h4⟩ := hvt hht
      exact ⟨h3, by omega, h1, h2⟩
    · obtain ⟨h1, h2, h3, h4⟩ := hhz hht
      exact ⟨h1, h2, h3, by omega⟩
  obtain ⟨cs, hcs⟩ := getCell_ok o m hs pt.y pt.x hbxy.1 hbxy.2.1 hbxy.2.2.1
    hbxy.2.2.2
  simp only [hcs, ok_bind] at hA
  obtain ⟨ce, hce⟩ : ∃ c, (if pt.horizontal = true then
      getCell m pt.y (pt.x + pt.size - 1)
    else getCell m (pt.y + pt.size - 1) pt.x) = .ok c := by
    rcases hht : pt.horizontal with _ | _
    · obtain ⟨h1, h2, h3, h4⟩ := hvt hht
      rw [if_neg (fun hc => Bool.noConfusion hc)]
      exact getCell_ok o m hs _ _ (by omega) (by omega) h1 h2
    · obtain ⟨h1, h2, h3, h4⟩ := hhz hht
      rw [if_pos rfl]
      exact getCell_ok o m hs _ _ h1 h2 (by omega) (by omega)
  simp only [hce, ok_bind] at hA
  rcases hbk : o.compilation.bucket pt.size with _ | ws
  · simp only [hbk] at hA
    exact ⟨none, p, hA.symm, fun _ h => Option.noConfusion h⟩
  simp only [hbk] at hA
  generalize hms : ((if (cs.letter != o.emptySpace) = true then
      [(0, cs.letter)] else []) ++
    (if (ce.letter != o.emptySpace) = true then
      [((pt.size - 1).toNat, ce.letter)] else [])) = ms0 at hA
  split at hA
  rotate_left
  · exact ⟨none, p, hA.symm, fun _ h => Option.noConfusion h⟩
  rename_i hlen
  rw [gt_iff_lt, List.length_pos] at hlen
  have hlpos : 0 < (List.filter (fun w => !m.questions.contains w)
      (List.foldl (fun ws mt =>
          match o.compilation.lettersAt mt with
          | some l => List.filter (fun w => l.contains w) ws
          | none => [])
        (List.filter (fun w => !ign.contains w) ws) ms0)).length :=
    List.length_pos.mpr hlen
  have hj0 : ¬ jfloor (amb p) ((List.filter (fun w => !m.questions.contains w)
      (List.foldl (fun ws mt =>
          match o.compilation.lettersAt mt with
          | some l => List.filter (fun w => l.contains w) ws
          | none => [])
        (List.filter (fun w => !ign.contains w) ws) ms0)).length : Int) < 0 := by
    have := jfloor_nonneg (amb p)
      ((List.filter (fun w => !m.questions.contains w)
        (List.foldl (fun ws mt =>
            match o.compilation.lettersAt mt with
            | some l => List.filter (fun w => l.contains w) ws
            | none => [])
          (List.filter (fun w => !ign.contains w) ws) ms0)).length : Int)
      (hamb p).1 (by positivity)
    omega
  rw [if_neg hj0] at hA
  have hjlt := jfloor_lt (amb p)
    ((List.filter (fun w => !m.questions.contains w)
      (List.foldl (fun ws mt =>
          match o.compilation.lettersAt mt with
          | some l => List.filter (fun w => l.contains w) ws
          | none => [])
        (List.filter (fun w => !ign.contains w) ws) ms0)).length : Int)
    (hamb p).1 (hamb p).2 (by exact_mod_cast hlpos)
  have hjnat : (jfloor (amb p)
      ((List.filter (fun w => !m.questions.contains w)
        (List.foldl (fun ws mt =>
            match o.compilation.lettersAt mt with
            | some l => List.filter (fun w => l.contains w) ws
            | none => [])
          (List.filter (fun w => !ign.contains w) ws) ms0)).length : Int)).toNat <
      (List.filter (fun w => !m.questions.contains w)
        (List.foldl (fun ws mt =>
            match o.compilation.lettersAt mt with
            | some l => List.filter (fun w => l.contains w) ws
            | none => [])
          (List.filter (fun w => !ign.contains w) ws) ms0)).length := by
    omega
  have hgot := List.get?_eq_get hjnat
  simp only [hgot, pure_bind] at hA
  have hidxmem : (List.filter (fun w => !m.questions.contains w)
      (List.foldl (fun ws mt =>
          match o.compilation.lettersAt mt with
          | some l => List.filter (fun w => l.contains w) ws
          | none => [])
        (List.filter (fun w => !ign.contains w) ws) ms0)).get ⟨_, hjnat⟩ ∈ ws := by
    have hmem := List.get_mem _ _ hjnat
    have h1 := List.mem_of_mem_filter hmem
    have h2 := foldl_letters_subset o.compilation ms0 _ _ h1
    exact List.mem_of_mem_filter h2
  obtain ⟨s, hword, hslen, hsidx⟩ := goodComp_bucket o.compilation hgc pt.size
    ws hbk _ hidxmem
  simp only [hword, pure_bind] at hA
  have hsnat : s.length = pt.size.toNat := by omega
  obtain ⟨m2, hfold, hsh2, hqd2⟩ := foldlM_ok
    (fun mm (i : Nat) =>
      if pt.horizontal then
        setCell mm pt.y (pt.x + (i : Int))
          (fun c => { c with letter := charAt s i, h := true })
      else
        setCell mm (pt.y + (i : Int)) pt.x
          (fun c => { c with letter := charAt s i, v := true }))
    (fun mm => Shaped o mm ∧ mm.questionsData = m.questionsData)
    (List.range s.length)
    (fun mm i hi hPs => by
      dsimp only
      have hilt : i < s.length := List.mem_range.mp hi
      have hiszt : (i : Int) < pt.size := by
        rw [hsnat] at hilt
        omega
      rcases hht : pt.horizontal with _ | _
      · obtain ⟨h1, h2, h3, h4⟩ := hvt hht
        rw [if_neg (fun hc => Bool.noConfusion hc)]
        obtain ⟨s', hset, hsh', _, hqd', _⟩ := setCell_ok o mm hPs.1
          (pt.y + (i : Int)) pt.x _ (by positivity) (by omega) h1 h2
        exact ⟨s', hset, hsh', hqd'.trans hPs.2⟩
      · obtain ⟨h1, h2, h3, h4⟩ := hhz hht
        rw [if_pos rfl]
        obtain ⟨s', hset, hsh', _, hqd', _⟩ := setCell_ok o mm hPs.1 pt.y
          (pt.x + (i : Int)) _ h1 h2 (by positivity) (by omega)
        exact ⟨s', hset, hsh', hqd'.trans hPs.2⟩)
    m ⟨hs, rfl⟩
  simp only [hfold, ok_bind] at hA
  refine ⟨some _, p + 1, hA.symm, fun m' hm' => ?_⟩
  rw [← Option.some.inj hm']
  refine ⟨hsh2, ⟨(List.filter (fun w => !m.questions.contains w)
      (List.foldl (fun ws mt =>
          match o.compilation.lettersAt mt with
          | some l => List.filter (fun w => l.contains w) ws
          | none => [])
        (List.filter (fun w => !ign.contains w) ws) ms0)).get ⟨_, hjnat⟩,
      s, pt.horizontal, pt.x, pt.y⟩, ?_, ?_, ?_, hsnat, rfl, rfl, rfl⟩
  · simp only []
    rw [hqd2]
  · refine ⟨?_, ?_, fun hh => ?_, fun hh => ?_⟩
    · rcases hht : pt.horizontal with _ | _
      · exact (hvt hht).1
      · exact (hhz hht).2.2.1
    · rcases hht : pt.horizontal with _ | _
      · exact (hvt hht).2.2.1
      · exact (hhz hht).1
    · obtain ⟨h1, h2, h3, h4⟩ := hhz hh
      refine ⟨?_, h2⟩
      simp only []
      rw [hsnat]
      omega
    · obtain ⟨h1, h2, h3, h4⟩ := hvt hh
      refine ⟨h2, ?_⟩
      simp only []
      rw [hsnat]
      omega
  · exact hsidx


theorem tryPoints_ok (o : Options) (ign : List Nat) (amb : RSeq) (m : Matrix)
    (hs : Shaped o m) (hgc : goodComp o.compilation = true)
    (hamb : UnitStream amb) :
    ∀ (pts : List Point), (∀ pt ∈ pts, GoodPoint o pt) → ∀ p : Nat,
      ∃ res p', tryPoints o ign amb m pts p = .ok (res, p') ∧
        ∀ m', res = some m' → Shaped o m' := by
  intro pts
  induction pts with
  | nil => intro _ p; exact ⟨none, p, rfl, fun _ h => Option.noConfusion h⟩
  | cons pt rest ih =>
    intro hgood p
    obtain ⟨res1, p1, htp, hsh1⟩ := tryPoint_spec o ign amb p m pt hs hgc hamb
      (hgood pt (List.mem_cons_self pt rest)) _ rfl
    rcases res1 with _ | m1
    · obtain ⟨res, p', hrec, hsh⟩ :=
        ih (fun q hq => hgood q (List.mem_cons_of_mem pt hq)) p1
      refine ⟨res, p', ?_, hsh⟩
      rw [tryPoints]
      simp only [htp, ok_bind]
      exact hrec
    · refine ⟨some m1, p1, ?_, fun m' hm' => (hsh1 m' hm').1⟩
      rw [tryPoints]
      simp only [htp, ok_bind]
      rfl

theorem fillPass_ok (o : Options) (ign : List Nat) (amb : RSeq) (p : Nat)
    (m : Matrix) (hs : Shaped o m) (hgc : goodComp o.compilation = true)
    (hamb : UnitStream amb) :
    ∃ res p', fillPass o ign amb p m = .ok (res, p') ∧
      ∀ m', res = some m' → Shaped o m' := by
  rw [fillPass]
  obtain ⟨pts, hscan, hgood⟩ := scanAll_ok o m hs
  simp only [hscan, ok_bind]
  exact tryPoints_ok o ign amb m hs hgc hamb _
    (fun pt hpt => hgood pt ((mem_sortDesc _ pt pts).mp hpt)) p

theorem fillLoop_ok (o : Options) (ign : List Nat) (amb : RSeq)
    (hgc : goodComp o.compilation = true) (hamb : UnitStream amb) :
    ∀ (fuel p : Nat) (m : Matrix), Shaped o m → fillMeasure o m < fuel →
      ∃ m' p', fillLoop o ign amb fuel p m = some (.ok (m', p')) ∧
        Shaped o m' := by
  intro fuel
  induction fuel with
  | zero => intro p m _ h; exact absurd h (Nat.not_lt_zero _)
  | succ fuel ih =>
    intro p m hs hlt
    rw [fillLoop]
    obtain ⟨res, p1, hfp, hshr⟩ := fillPass_ok o ign amb p m hs hgc hamb
    rw [hfp]
    rcases res with _ | m1
    · exact ⟨m, p1, rfl, hs⟩
    · obtain ⟨idx, h1, h2, h3⟩ := fillPass_success o ign amb p m m1 p1 hfp
      have hdec := fillMeasure_lt o m m1 idx h1 h2 h3
      exact ih p1 m1 (hshr m1 rfl) (by omega)

theorem fillMatrix_ok (o : Options) (ign : List Nat) (amb : RSeq) (p : Nat)
    (m : Matrix) (hs : Shaped o m) (hgc : goodComp o.compilation = true)
    (hamb : UnitStream amb) :
    ∃ m' p', fillMatrix o ign amb p m = some (.ok (m', p')) ∧ Shaped o m' := by
  rw [fillMatrix]
  refine fillLoop_ok o ign amb hgc hamb (fillFuel o) p m hs ?_
  rw [fillFuel, fillMeasure]
  have := List.length_filter_le
    (fun i => !m.questions.contains i) o.compilation.lengths.flatten.dedup
  omega

theorem fillAll_ok (o : Options) (ign : List Nat) (amb : RSeq)
    (hgc : goodComp o.compilation = true) (hamb : UnitStream amb) :
    ∀ (ms : List Matrix) (p : Nat) (acc : List Matrix),
      (∀ mm ∈ ms, Shaped o mm) → (∀ s ∈ acc, Shaped o s) →
      ∃ sols p', fillAll o ign amb ms p acc = some (.ok (sols, p')) ∧
        ∀ s ∈ sols, Shaped o s := by
  intro ms
  induction ms with
  | nil => intro p acc _ hacc; exact ⟨acc, p, rfl, hacc⟩
  | cons m rest ih =>
    intro p acc hall hacc
    obtain ⟨m1, p1, hfm, hsh1⟩ := fillMatrix_ok o ign amb p m
      (hall m (List.mem_cons_self m rest)) hgc hamb
    obtain ⟨sols, p', hrec, hsh⟩ := ih p1 (acc ++ [m1])
      (fun mm hmm => hall mm (List.mem_cons_of_mem m hmm))
      (fun s hsmem => by
        rcases List.mem_append.mp hsmem with hc | hc
        · exact hacc s hc
        · rw [List.mem_singleton.mp hc]; exact hsh1)
    refine ⟨sols, p', ?_, hsh⟩
    rw [fillAll]
    simp only [hfm]
    exact hrec

theorem fillEmptySpaces_ok (o : Options) (ign : List Nat) (amb : RSeq)
    (p : Nat) (matrices : List Matrix)
    (hgc : goodComp o.compilation = true) (hamb : UnitStream amb)
    (hall : ∀ mm ∈ matrices, Shaped o mm) :
    ∃ sols p', fillEmptySpaces o ign amb p matrices = some (.ok (sols, p')) ∧
      ∀ s ∈ sols, Shaped o s := by
  rw [fillEmptySpaces]
  obtain ⟨sols0, p', hgo, hsh⟩ := fillAll_ok o ign amb hgc hamb matrices p []
    hall (fun s hsmem => absurd hsmem (List.not_mem_nil s))
  rw [hgo]
  refine ⟨_, p', rfl, ?_⟩
  intro s hsmem
  obtain ⟨m0, hm0, hseq⟩ := selectSolutions_mem o sols0 _ s hsmem
  rw [hseq]
  exact annotate_shaped o m0 (hsh m0 hm0)


/-- The options of the C8 counterexample: an empty dictionary, so no word is
ever admitted into the length buckets. -/
def oC8bad : Options :=
  { compilation := compile [], width := 3, height := 3,
    wordsPerIteration := 1, solutionsPerIteration := 1, finishAt := 2,
    scoreFunction := fun f _ _ => f }

set_option maxRecDepth 1000000 in
/-- C8, counterexample: with a compiled dictionary that admitted no words
into the length buckets, `iterate` does *not* return normally — the
unguarded `lengths[length]` lookup dereferences `undefined` and the TypeError
escapes to the caller. -/
theorem c8_counterexample :
    iterate oC8bad [] rZero 0 [generate oC8bad] =
      some (.error "TypeError: lengths bucket undefined") := by decide

/-- C8, amended: under the sanity conditions that rule the unguarded bucket
lookup out — a consistent compilation with at least three length buckets
(`GoodOpts`, satisfied by any dictionary whose longest indexed word has
length ≥ 2), grid dimensions ≥ 2, a nonnegative length factor, `finishAt ≥
1`, random draws in `[0,1)` and a nonempty population of well-shaped grids —
`iterate` and `fillEmptySpaces` return normally: no `.error` (JS exception)
and no fuel exhaustion (JS divergence) is possible. -/
theorem c8_no_exceptions (o : Options) (ign : List Nat) (r amb : RSeq)
    (p q : Nat) (matrices : List Matrix) (ho : GoodOpts o)
    (hfa : 1 ≤ o.finishAt) (hr : UnitStream r) (hamb : UnitStream amb)
    (hne : matrices ≠ []) (hall : ∀ mm ∈ matrices, Shaped o mm) :
    (∃ sols p', iterate o ign r p matrices = some (.ok (sols, p'))) ∧
    (∃ sols q', fillEmptySpaces o ign amb q matrices =
      some (.ok (sols, q'))) := by
  constructor
  · obtain ⟨sols, p', hit, _⟩ := iterate_ok o ign r p matrices ho hr hfa hne
      hall
    exact ⟨sols, p', hit⟩
  · obtain ⟨sols, q', hf, _⟩ := fillEmptySpaces_ok o ign amb q matrices
      ho.2.2.2.2 hamb hall
    exact ⟨sols, q', hf⟩

/-- The options of the C8 witness run: the dictionary `[[["AB","BC"]]]` on a
3×3 grid. -/
def oC8 : Options :=
  { compilation := compile [[["AB", "BC"]]], width := 3, height := 3,
    wordsPerIteration := 1, solutionsPerIteration := 1, finishAt := 2,
    scoreFunction := fun f _ _ => f }

/-- Witness for C8's amended theorem at the concrete 3×3 instance. -/
theorem c8_witness :
    GoodOpts oC8 ∧ 1 ≤ oC8.finishAt ∧ [generate oC8] ≠ [] ∧
      (∃ sols p', iterate oC8 [] rZero 0 [generate oC8] =
        some (.ok (sols, p'))) ∧
      (∃ sols q', fillEmptySpaces oC8 [] rZero 0 [generate oC8] =
        some (.ok (sols, q'))) := by
  have hgo : GoodOpts oC8 :=
    ⟨by decide, by decide, by decide, by norm_num [oC8], by decide⟩
  have hus : UnitStream rZero := fun n => ⟨le_refl 0, by norm_num [rZero]⟩
  have hsh : Shaped oC8 (generate oC8) := ⟨by decide, by decide⟩
  have hres := c8_no_exceptions oC8 [] rZero rZero 0 0 [generate oC8] hgo
    (by decide) hus hus (List.cons_ne_nil _ _)
    (fun mm hmm => by rw [List.mem_singleton.mp hmm]; exact hsh)
  exact ⟨hgo, by decide, List.cons_ne_nil _ _, hres.1, hres.2⟩


/-! ### Generic invariant threading through the loops -/

theorem attempt_pres (o : Options) (ign : List Nat) (r : RSeq)
    (ho : GoodOpts o) (hr : UnitStream r) (P : Matrix → Prop)
    (hPS : ∀ m, P m → Shaped o m)
    (hPq : ∀ m m' q, P m → Shaped o m' →
      m'.questionsData = m.questionsData ++ [q] → QDGood o q →
      isIndexedWord q.word = true → P m') :
    ∀ (p : Nat) (m : Matrix) (m' : Matrix) (p' : Nat), P m →
      attempt o ign r p m = .ok (some m', p') → P m' := by
  intro p m m' p' hP hA
  obtain ⟨res, p2, hX, hsucc⟩ :=
    attempt_spec o ign r p m ho hr (hPS m hP) _ hA
  have hres : some m' = res := congrArg Prod.fst (Except.ok.inj hX)
  obtain ⟨hsh, q, hqd, hqg, hqi, _⟩ := hsucc m' hres.symm
  exact hPq m m' q hP hsh hqd hqg hqi

theorem genLoop_inv (o : Options) (ign : List Nat) (r : RSeq)
    (ho : GoodOpts o) (hr : UnitStream r) (P : Matrix → Prop)
    (hPS : ∀ m, P m → Shaped o m)
    (hPatt : ∀ p m m' p', P m → attempt o ign r p m = .ok (some m', p') →
      P m')
    (hPb : ∀ m, P m → P { m with borde := true })
    (hPf : ∀ m, P m → P { m with finish := true }) :
    ∀ (fuel p intento : Nat) (m : Matrix), P m →
      intento < o.finishAt →
      (if o.wordsOnBorder ≠ 0 ∧ ¬m.borde = true then 2 * o.finishAt - intento
        else o.finishAt - intento) < fuel →
      ∃ m' p', genLoop o ign r fuel p intento m = some (.ok (m', p')) ∧
        P m' := by
  intro fuel
  induction fuel with
  | zero =>
    intro p intento m _ _ hlt
    exact absurd hlt (Nat.not_lt_zero _)
  | succ fuel ih =>
    intro p intento m hP hint hfuel
    rw [genLoop]
    by_cases hfin : m.finish = true
    · rw [if_pos hfin]
      exact ⟨m, p, rfl, hP⟩
    rw [if_neg hfin]
    by_cases hred : intento + 1 = o.finishAt
    · rw [if_pos hred]
      by_cases hbphase : o.wordsOnBorder ≠ 0 ∧ ¬m.borde = true
      · rw [if_pos hbphase]
        have hP' : P { m with borde := true } := hPb m hP
        obtain ⟨res, p2, hat, hshres⟩ :=
          attempt_ok o ign r p { m with borde := true } ho hr
            (hPS _ hP')
        rw [hat]
        rcases res with _ | m1
        · rw [if_pos hbphase] at hfuel
          obtain ⟨m', p', hrec, hP''⟩ := ih p2 0 { m with borde := true } hP'
            (by omega)
            (by
              rw [if_neg (fun hc => by simp at hc)]
              omega)
          exact ⟨m', p', hrec, hP''⟩
        · exact ⟨m1, p2, rfl, hPatt p _ m1 p2 hP' hat⟩
      · rw [if_neg hbphase]
        exact ⟨{ m with finish := true }, p, rfl, hPf m hP⟩
    · rw [if_neg hred]
      obtain ⟨res, p2, hat, hshres⟩ := attempt_ok o ign r p m ho hr (hPS m hP)
      rw [hat]
      rcases res with _ | m1
      · obtain ⟨m', p', hrec, hP''⟩ := ih p2 (intento + 1) m hP (by omega)
          (by
            by_cases hbb : o.wordsOnBorder ≠ 0 ∧ ¬m.borde = true <;>
              [rw [if_pos hbb] at hfuel ⊢; rw [if_neg hbb] at hfuel ⊢] <;>
              omega)
        exact ⟨m', p', hrec, hP''⟩
      · exact ⟨m1, p2, rfl, hPatt p m m1 p2 hP hat⟩

theorem iterate_inv (o : Options) (ign : List Nat) (r : RSeq) (p : Nat)
    (matrices : List Matrix) (ho : GoodOpts o) (hr : UnitStream r)
    (hfa : 1 ≤ o.finishAt) (hne : matrices ≠ []) (P : Matrix → Prop)
    (hPS : ∀ m, P m → Shaped o m)
    (hPatt : ∀ p m m' p', P m → attempt o ign r p m = .ok (some m', p') →
      P m')
    (hPb : ∀ m, P m → P { m with borde := true })
    (hPf : ∀ m, P m → P { m with finish := true })
    (hPann : ∀ m, P m → P (annotate o m))
    (hall : ∀ mm ∈ matrices, P mm) :
    ∃ sols p', iterate o ign r p matrices = some (.ok (sols, p')) ∧
      ∀ s ∈ sols, P s := by
  have hgq : ∀ (p : Nat) (m : Matrix), P m →
      ∃ m' p', generateQuestion o ign r p m = some (.ok (m', p')) ∧ P m' := by
    intro p m hP
    rw [generateQuestion]
    refine genLoop_inv o ign r ho hr P hPS hPatt hPb hPf (2 * o.finishAt + 2)
      p 0 m hP (by omega) ?_
    split <;> omega
  have hiw : ∀ (k p : Nat) (m : Matrix), P m →
      ∃ m' p', iterateWords o ign r k p m = some (.ok (m', p')) ∧ P m' := by
    intro k
    induction k with
    | zero => intro p m hP; exact ⟨m, p, rfl, hP⟩
    | succ k ih =>
      intro p m hP
      obtain ⟨m1, p1, hgen, hP1⟩ := hgq p m hP
      obtain ⟨m', p', hrec, hP'⟩ := ih p1 m1 hP1
      refine ⟨m', p', ?_, hP'⟩
      rw [iterateWords, hgen]
      exact hrec
  have higo : ∀ (rem i p : Nat) (sols : List Matrix),
      i + rem ≤ o.solutionsPerIteration → (∀ s ∈ sols, P s) →
      ∃ sols' p',
        iterateGo o ign r matrices i rem p sols = some (.ok (sols', p')) ∧
        ∀ s ∈ sols', P s := by
    intro rem
    induction rem with
    | zero => intro i p sols _ hsols; exact ⟨sols, p, rfl, hsols⟩
    | succ rem ih =>
      intro i p sols hle hsols
      have hLpos : 0 < matrices.length := List.length_pos.mpr hne
      have hidx : matrices.length * i / o.solutionsPerIteration <
          matrices.length := by
        refine Nat.div_lt_iff_lt_mul (by omega) |>.mpr ?_
        exact mul_lt_mul_of_pos_left (by omega) hLpos
      have hget := List.get?_eq_get hidx
      obtain ⟨m1, p1, hw, hP1⟩ := hiw o.wordsPerIteration p
        (matrices.get ⟨_, hidx⟩) (hall _ (List.get_mem matrices _ hidx))
      obtain ⟨sols', p', hrec, hP'⟩ := ih (i + 1) p1 (sols ++ [m1])
        (by omega)
        (fun s hsmem => by
          rcases List.mem_append.mp hsmem with hc | hc
          · exact hsols s hc
          · rw [List.mem_singleton.mp hc]; exact hP1)
      refine ⟨sols', p', ?_, hP'⟩
      rw [iterateGo]
      simp only [hget, hw]
      exact hrec
  rw [iterate]
  obtain ⟨sols0, p', hgo, hPs⟩ := higo o.solutionsPerIteration 0 p []
    (by omega) (fun s hsmem => absurd hsmem (List.not_mem_nil s))
  rw [hgo]
  refine ⟨_, p', rfl, ?_⟩
  intro s hsmem
  obtain ⟨m0, hm0, hseq⟩ := selectSolutions_mem o sols0 _ s hsmem
  rw [hseq]
  exact hPann m0 (hPs m0 hm0)


theorem fillPass_pres (o : Options) (ign : List Nat) (amb : RSeq)
    (hgc : goodComp o.compilation = true) (hamb : UnitStream amb)
    (P : Matrix → Prop) (hPS : ∀ m, P m → Shaped o m)
    (hPq : ∀ m m' q, P m → Shaped o m' →
      m'.questionsData = m.questionsData ++ [q] → QDGood o q →
      isIndexedWord q.word = true → P m') :
    ∀ (p : Nat) (m : Matrix) (m' : Matrix) (p' : Nat), P m →
      fillPass o ign amb p m = .ok (some m', p') → P m' := by
  have htps : ∀ (m : Matrix), P m → ∀ (pts : List Point),
      (∀ pt ∈ pts, GoodPoint o pt) → ∀ (p p' : Nat) (m' : Matrix),
      tryPoints o ign amb m pts p = .ok (some m', p') → P m' := by
    intro m hP pts
    induction pts with
    | nil =>
      intro _ p p' m' h
      rw [tryPoints] at h
      exact absurd (Except.ok.inj h) (by simp)
    | cons pt rest ih =>
      intro hgood p p' m' h
      obtain ⟨res1, p1, htp, hsucc⟩ := tryPoint_spec o ign amb p m pt
        (hPS m hP) hgc hamb (hgood pt (List.mem_cons_self pt rest)) _ rfl
      rw [tryPoints] at h
      simp only [htp, ok_bind] at h
      rcases res1 with _ | m1
      · exact ih (fun q hq => hgood q (List.mem_cons_of_mem pt hq)) p1 p' m' h
      · have hm1 : m1 = m' := by
          have := Except.ok.inj h
          rw [Prod.mk.injEq, Option.some.injEq] at this
          exact this.1
        obtain ⟨hsh, q, hqd, hqg, hqi, _⟩ := hsucc m1 rfl
        rw [← hm1]
        exact hPq m m1 q hP hsh hqd hqg hqi
  intro p m m' p' hP hfp
  rw [fillPass] at hfp
  obtain ⟨pts, hscan, hgood⟩ := scanAll_ok o m (hPS m hP)
  simp only [hscan, ok_bind] at hfp
  exact htps m hP _ (fun pt hpt => hgood pt ((mem_sortDesc _ pt pts).mp hpt))
    p p' m' hfp

theorem fillEmptySpaces_inv (o : Options) (ign : List Nat) (amb : RSeq)
    (p : Nat) (matrices : List Matrix)
    (hgc : goodComp o.compilation = true) (hamb : UnitStream amb)
    (P : Matrix → Prop) (hPS : ∀ m, P m → Shaped o m)
    (hPq : ∀ m m' q, P m → Shaped o m' →
      m'.questionsData = m.questionsData ++ [q] → QDGood o q →
      isIndexedWord q.word = true → P m')
    (hPann : ∀ m, P m → P (annotate o m))
    (hall : ∀ mm ∈ matrices, P mm) :
    ∃ sols p', fillEmptySpaces o ign amb p matrices = some (.ok (sols, p')) ∧
      ∀ s ∈ sols, P s := by
  have hfl : ∀ (fuel p : Nat) (m : Matrix), P m → fillMeasure o m < fuel →
      ∃ m' p', fillLoop o ign amb fuel p m = some (.ok (m', p')) ∧ P m' := by
    intro fuel
    induction fuel with
    | zero => intro p m _ h; exact absurd h (Nat.not_lt_zero _)
    | succ fuel ih =>
      intro p m hP hlt
      rw [fillLoop]
      obtain ⟨res, p1, hfp, _⟩ := fillPass_ok o ign amb p m (hPS m hP) hgc hamb
      rw [hfp]
      rcases res with _ | m1
      · exact ⟨m, p1, rfl, hP⟩
      · obtain ⟨idx, h1, h2, h3⟩ := fillPass_success o ign amb p m m1 p1 hfp
        have hdec := fillMeasure_lt o m m1 idx h1 h2 h3
        exact ih p1 m1
          (fillPass_pres o ign amb hgc hamb P hPS hPq p m m1 p1 hP hfp)
          (by omega)
  have hfm : ∀ (p : Nat) (m : Matrix), P m →
      ∃ m' p', fillMatrix o ign amb p m = some (.ok (m', p')) ∧ P m' := by
    intro p m hP
    rw [fillMatrix]
    refine hfl (fillFuel o) p m hP ?_
    rw [fillFuel, fillMeasure]
    have := List.length_filter_le
      (fun i => !m.questions.contains i) o.compilation.lengths.flatten.dedup
    omega
  have hfa : ∀ (ms : List Matrix) (p : Nat) (acc : List Matrix),
      (∀ mm ∈ ms, P mm) → (∀ s ∈ acc, P s) →
      ∃ sols p', fillAll o ign amb ms p acc = some (.ok (sols, p')) ∧
        ∀ s ∈ sols, P s := by
    intro ms
    induction ms with
    | nil => intro p acc _ hacc; exact ⟨acc, p, rfl, hacc⟩
    | cons m rest ih =>
      intro p acc hallm hacc
      obtain ⟨m1, p1, hfm1, hP1⟩ := hfm p m (hallm m (List.mem_cons_self m rest))
      obtain ⟨sols, p', hrec, hPs⟩ := ih p1 (acc ++ [m1])
        (fun mm hmm => hallm mm (List.mem_cons_of_mem m hmm))
        (fun s hsmem => by
          rcases List.mem_append.mp hsmem with hc | hc
          · exact hacc s hc
          · rw [List.mem_singleton.mp hc]; exact hP1)
      refine ⟨sols, p', ?_, hPs⟩
      rw [fillAll]
      simp only [hfm1]
      exact hrec
  rw [fillEmptySpaces]
  obtain ⟨sols0, p', hgo, hPs⟩ := hfa matrices p [] hall
    (fun s hsmem => absurd hsmem (List.not_mem_nil s))
  rw [hgo]
  refine ⟨_, p', rfl, ?_⟩
  intro s hsmem
  obtain ⟨m0, hm0, hseq⟩ := selectSolutions_mem o sols0 _ s hsmem
  rw [hseq]
  exact hPann m0 (hPs m0 hm0)


/-- The C10 grid invariant: well-shaped cells, and every recorded placement
in bounds with an indexed word. -/
def QDInv (o : Options) (m : Matrix) : Prop :=
  Shaped o m ∧ ∀ qd ∈ m.questionsData, QDGood o qd ∧
    isIndexedWord qd.word = true

theorem qdInv_step (o : Options) (m m' : Matrix) (q : Question)
    (hP : QDInv o m) (hsh : Shaped o m')
    (hqd : m'.questionsData = m.questionsData ++ [q]) (hqg : QDGood o q)
    (hqi : isIndexedWord q.word = true) : QDInv o m' := by
  refine ⟨hsh, ?_⟩
  intro qd hmem
  rw [hqd] at hmem
  rcases List.mem_append.mp hmem with hc | hc
  · exact hP.2 qd hc
  · rw [List.mem_singleton.mp hc]
    exact ⟨hqg, hqi⟩

/-- C10: placements never leave the grid.  Under the C8 sanity conditions,
(1) every grid produced by `iterate` and (2) every grid produced by
`fillEmptySpaces` from an in-invariant population carries only in-bounds
placement records; (3) each successful `#generateQuestion` placement appends
exactly one record, in bounds, whose stored word has exactly the attempt's
target length; and (4) each successful fill placement appends exactly one
record, in bounds, at the scanned run's position and orientation, whose
stored word length equals the run's size. -/
theorem c10_placements_in_bounds (o : Options) (ign : List Nat)
    (r amb : RSeq) (p q : Nat) (matrices : List Matrix) (ho : GoodOpts o)
    (hfa : 1 ≤ o.finishAt) (hr : UnitStream r) (hamb : UnitStream amb)
    (hne : matrices ≠ []) (hall : ∀ mm ∈ matrices, QDInv o mm) :
    (∃ sols p', iterate o ign r p matrices = some (.ok (sols, p')) ∧
      ∀ s ∈ sols, ∀ qd ∈ s.questionsData, QDGood o qd) ∧
    (∃ sols q', fillEmptySpaces o ign amb q matrices =
        some (.ok (sols, q')) ∧
      ∀ s ∈ sols, ∀ qd ∈ s.questionsData, QDGood o qd) ∧
    (∀ (p0 : Nat) (m m' : Matrix) (p' : Nat), Shaped o m →
      attempt o ign r p0 m = .ok (some m', p') →
      ∃ qd, m'.questionsData = m.questionsData ++ [qd] ∧ QDGood o qd ∧
        (qd.word.length : Int) = targetLength o m.questionsData.length
          (decide (jfloor (r p0) 2 = 1)) (r (p0 + 1))) ∧
    (∀ (p0 : Nat) (m : Matrix) (pt : Point) (m' : Matrix) (p' : Nat),
      Shaped o m → GoodPoint o pt →
      tryPoint o ign amb p0 m pt = .ok (some m', p') →
      ∃ qd, m'.questionsData = m.questionsData ++ [qd] ∧ QDGood o qd ∧
        qd.word.length = pt.size.toNat ∧ qd.x = pt.x ∧ qd.y = pt.y ∧
        qd.horizontal = pt.horizontal) := by
  have hPS : ∀ m, QDInv o m → Shaped o m := fun m hP => hP.1
  have hPq : ∀ m m' q2, QDInv o m → Shaped o m' →
      m'.questionsData = m.questionsData ++ [q2] → QDGood o q2 →
      isIndexedWord q2.word = true → QDInv o m' := qdInv_step o
  refine ⟨?_, ?_, ?_, ?_⟩
  · obtain ⟨sols, p', hit, hPs⟩ := iterate_inv o ign r p matrices ho hr hfa
      hne (QDInv o) hPS
      (attempt_pres o ign r ho hr (QDInv o) hPS hPq)
      (fun m hP => hP) (fun m hP => hP) (fun m hP => hP) hall
    exact ⟨sols, p', hit, fun s hs qd hqd => (hPs s hs).2 qd hqd |>.1⟩
  · obtain ⟨sols, q', hf, hPs⟩ := fillEmptySpaces_inv o ign amb q matrices
      ho.2.2.2.2 hamb (QDInv o) hPS hPq (fun m hP => hP) hall
    exact ⟨sols, q', hf, fun s hs qd hqd => (hPs s hs).2 qd hqd |>.1⟩
  · intro p0 m m' p' hs hA
    obtain ⟨res, p2, hX, hsucc⟩ := attempt_spec o ign r p0 m ho hr hs _ hA
    have hres : some m' = res := congrArg Prod.fst (Except.ok.inj hX)
    obtain ⟨_, qd, hqd, hqg, _, hlen⟩ := hsucc m' hres.symm
    exact ⟨qd, hqd, hqg, hlen⟩
  · intro p0 m pt m' p' hs hpt hA
    obtain ⟨res, p2, hX, hsucc⟩ := tryPoint_spec o ign amb p0 m pt hs
      ho.2.2.2.2 hamb hpt _ hA
    have hres : some m' = res := congrArg Prod.fst (Except.ok.inj hX)
    obtain ⟨_, qd, hqd, hqg, _, hrest⟩ := hsucc m' hres.symm
    exact ⟨qd, hqd, hqg, hrest⟩

/-- Witness for C10 at the concrete 3×3 instance of the C8 witness. -/
theorem c10_witness :
    GoodOpts oC8 ∧ 1 ≤ oC8.finishAt ∧
      (∃ sols p', iterate oC8 [] rZero 0 [generate oC8] =
        some (.ok (sols, p')) ∧
        ∀ s ∈ sols, ∀ qd ∈ s.questionsData, QDGood oC8 qd) := by
  have hgo : GoodOpts oC8 :=
    ⟨by decide, by decide, by decide, by norm_num [oC8], by decide⟩
  have hus : UnitStream rZero := fun n => ⟨le_refl 0, by norm_num [rZero]⟩
  have hsh : Shaped oC8 (generate oC8) := ⟨by decide, by decide⟩
  have hempty : (generate oC8).questionsData = [] := by decide
  have hqd : ∀ qd ∈ (generate oC8).questionsData, QDGood oC8 qd ∧
      isIndexedWord qd.word = true := by
    intro qd hqd
    rw [hempty] at hqd
    exact absurd hqd (List.not_mem_nil qd)
  have hres := c10_placements_in_bounds oC8 [] rZero rZero 0 0 [generate oC8]
    hgo (by decide) hus hus (List.cons_ne_nil _ _)
    (fun mm hmm => by rw [List.mem_singleton.mp hmm]; exact ⟨hsh, hqd⟩)
  exact ⟨hgo, by decide, hres.1⟩

end Conwords
